import Mathlib

/-!
Verification development for the ludtwig template parser
(crates/ludtwig-parser).  The grammar functions under
`src/crates/ludtwig-parser/src/grammar.rs`, `grammar/html.rs` and
`grammar/twig/literal.rs` are translated directly from the Rust source.
The parser infrastructure (token cursor, marker/event machinery, lexer,
recovery) and the twig statement/expression module are not part of the
source excerpt; they are modelled from the specification (spec.md sections
2, 4.1, 4.2 and 4.4), with the concrete behaviour pinned down by the
expect-tests contained in the source files themselves.

The marker/event machinery is embedded semantically: instead of an
append-only event log that is replayed by a tree builder, the parser state
carries a stack of "open node" frames (lists of already-built children).
`start` pushes an empty frame, `complete` pops the top frame into a node
appended to the frame below, and `precede cm` re-opens the top frame at the
position of a completed node, so that a later `complete` wraps that node
and everything after it -- exactly the effect the forward-parent pointers
of the event log have at tree-build time (spec 4.5).
-/

namespace Ludtwig

/-- The closed syntax-kind enumeration (spec section 3); only the variants
reachable from the embedded grammar fragment are listed. -/
inductive SyntaxKind where
  | TK_WHITESPACE | TK_LINE_BREAK
  | TK_WORD | TK_NUMBER
  | TK_LESS_THAN | TK_LESS_THAN_SLASH | TK_LESS_THAN_EXCLAMATION_MARK
  | TK_GREATER_THAN | TK_SLASH_GREATER_THAN
  | TK_HTML_COMMENT_OPEN | TK_HTML_COMMENT_CLOSE
  | TK_EQUAL | TK_DOUBLE_QUOTES | TK_SINGLE_QUOTES
  | TK_CURLY_PERCENT | TK_PERCENT_CURLY
  | TK_OPEN_CURLY_CURLY | TK_CLOSE_CURLY_CURLY
  | TK_OPEN_CURLY_HASHTAG | TK_HASHTAG_CLOSE_CURLY | TK_HASHTAG_OPEN_CURLY
  | TK_OPEN_CURLY | TK_CLOSE_CURLY
  | TK_OPEN_SQUARE | TK_CLOSE_SQUARE
  | TK_OPEN_PARENTHESIS | TK_CLOSE_PARENTHESIS
  | TK_DOT | TK_DOUBLE_DOT | TK_COMMA | TK_COLON | TK_SEMICOLON
  | TK_SINGLE_PIPE | TK_TILDE
  | TK_PLUS | TK_MINUS | TK_STAR | TK_DOUBLE_STAR
  | TK_FORWARD_SLASH | TK_DOUBLE_FORWARD_SLASH | TK_BACKWARD_SLASH
  | TK_PERCENT | TK_QUESTION_MARK | TK_EXCLAMATION_MARK
  | TK_DOUBLE_EQUAL | TK_EXCLAMATION_MARK_EQUALS
  | TK_LESS_THAN_EQUAL | TK_GREATER_THAN_EQUAL
  | TK_BLOCK | TK_ENDBLOCK | TK_IF | TK_ELSE_IF | TK_ELSE | TK_ENDIF
  | TK_FOR | TK_ENDFOR | TK_IN | TK_IS | TK_NOT | TK_AND | TK_OR
  | TK_TRUE | TK_FALSE | TK_NULL
  | TK_SAME_AS | TK_DIVISIBLE_BY | TK_DOCTYPE
  | TK_LUDTWIG_IGNORE | TK_LUDTWIG_IGNORE_FILE
  | ROOT | ERROR | BODY
  | HTML_TAG | HTML_STARTING_TAG | HTML_ENDING_TAG
  | HTML_ATTRIBUTE_LIST | HTML_ATTRIBUTE | HTML_STRING | HTML_STRING_INNER
  | HTML_TEXT | HTML_COMMENT | HTML_DOCTYPE
  | TWIG_BLOCK | TWIG_STARTING_BLOCK | TWIG_ENDING_BLOCK
  | TWIG_IF | TWIG_IF_BLOCK | TWIG_ELSE_IF_BLOCK | TWIG_ELSE_BLOCK
  | TWIG_ENDIF_BLOCK | TWIG_FOR | TWIG_VAR | TWIG_COMMENT
  | TWIG_EXPRESSION | TWIG_BINARY_EXPRESSION | TWIG_UNARY_EXPRESSION
  | TWIG_LITERAL_NAME | TWIG_LITERAL_NUMBER
  | TWIG_LITERAL_STRING | TWIG_LITERAL_STRING_INNER
  | TWIG_LITERAL_STRING_INTERPOLATION
  | TWIG_LITERAL_ARRAY | TWIG_LITERAL_HASH | TWIG_LITERAL_HASH_PAIR
  | TWIG_LITERAL_HASH_KEY | TWIG_LITERAL_NULL | TWIG_LITERAL_BOOLEAN
  | TWIG_ACCESSOR | TWIG_INDEX_LOOKUP | TWIG_INDEX | TWIG_INDEX_RANGE
  | TWIG_FUNCTION_CALL | TWIG_FILTER | TWIG_OPERAND | TWIG_ARGUMENTS
  | TWIG_NAMED_ARGUMENT
  | LUDTWIG_DIRECTIVE_IGNORE | LUDTWIG_DIRECTIVE_FILE_IGNORE
  deriving DecidableEq, Repr

open SyntaxKind

/-- A lexed token: kind plus the exact characters it covers (spec 4.1).
Spans are kept implicitly: the text slices concatenate to the input. -/
structure Token where
  kind : SyntaxKind
  text : List Char
  deriving DecidableEq, Repr

/-- Whitespace and line breaks are trivia (spec 2.1). -/
def SyntaxKind.isTrivia : SyntaxKind → Bool
  | TK_WHITESPACE => true
  | TK_LINE_BREAK => true
  | _ => false

def Token.isTrivia (t : Token) : Bool := t.kind.isTrivia

/-- Lossless concrete syntax tree: interior nodes with a kind, and token
leaves (green tree, spec section 3). -/
inductive Tree where
  | leaf (tok : Token)
  | node (kind : SyntaxKind) (children : List Tree)
  deriving Repr

/-- Characters covered by a tree, i.e. the concatenation of the text of its
leaf tokens in document order. -/
def Tree.chars : Tree → List Char
  | .leaf tok => tok.text
  | .node _ children => children.attach.flatMap (fun c => Tree.chars c.1)
decreasing_by simp_wf; have := List.sizeOf_lt_of_mem c.2; omega

/-- Characters covered by a forest, in order. -/
def treesChars (ts : List Tree) : List Char := ts.flatMap Tree.chars

/-- Whether a tree contains (itself or in a descendant) a node of the given
kind. -/
def Tree.hasNodeKind (k : SyntaxKind) : Tree → Bool
  | .leaf _ => false
  | .node kind children =>
      kind == k || children.attach.any (fun c => Tree.hasNodeKind k c.1)
decreasing_by simp_wf; have := List.sizeOf_lt_of_mem c.2; omega

/-- What a diagnostic expected at its position: a token kind (from
`expect`) or a human-readable label (from `add_error`). -/
inductive Expectation where
  | kind (k : SyntaxKind)
  | msg (s : String)
  deriving DecidableEq, Repr

/-- A parse diagnostic (spec section 3): what was expected and the token it
was found at (`none` models end of file). -/
structure Diagnostic where
  expected : Expectation
  found : Option Token
  deriving DecidableEq, Repr

/-- Modelled from the spec: the parser session state (spec 4.2).  `tokens`
and `pos` form the cursor; `stack` is the semantic form of the marker/event
machinery (each entry is the child list of an open node, innermost first);
`errors` is the diagnostic sink; `panicked` records whether a Rust
`unreachable!` was hit (it never is; see the safety claim). -/
structure Parser where
  tokens : List Token
  pos : Nat
  stack : List (List Tree)
  errors : List Diagnostic
  panicked : Bool
  deriving Repr

/-- Index of the first non-trivia token at or after `i`. -/
def nextNonTrivia (toks : List Token) (i : Nat) : Nat :=
  if h : i < toks.length then
    if (toks.get ⟨i, h⟩).isTrivia then nextNonTrivia toks (i + 1) else i
  else i
termination_by toks.length - i

namespace Parser

/-- The next non-trivia token (the cursor always points at it, spec 4.2). -/
def peekToken (p : Parser) : Option Token :=
  p.tokens.get? (nextNonTrivia p.tokens p.pos)

/-- Index (into `tokens`) of the n-th non-trivia token from the cursor. -/
def nthNonTriviaIdx (p : Parser) : Nat → Nat
  | 0 => nextNonTrivia p.tokens p.pos
  | n + 1 => nextNonTrivia p.tokens (p.nthNonTriviaIdx n + 1)

/-- `peek_nth_token`: the n-th non-trivia token from the cursor. -/
def peekNthToken (p : Parser) (n : Nat) : Option Token :=
  p.tokens.get? (p.nthNonTriviaIdx n)

/-- `at(kind)`: cursor sits at a token of this kind. -/
def isAt (p : Parser) (k : SyntaxKind) : Bool :=
  match p.peekToken with
  | some t => t.kind == k
  | none => false

/-- `at_set`. -/
def atSet (p : Parser) (ks : List SyntaxKind) : Bool :=
  match p.peekToken with
  | some t => ks.contains t.kind
  | none => false

/-- `at_nth_token(kind, n)`. -/
def atNth (p : Parser) (k : SyntaxKind) (n : Nat) : Bool :=
  match p.peekNthToken n with
  | some t => t.kind == k
  | none => false

/-- `at_following(kinds)`: consecutive non-trivia lookahead. -/
def atFollowing (p : Parser) (ks : List SyntaxKind) : Bool :=
  (List.range ks.length).all fun i =>
    match ks.get? i with
    | some k => p.atNth k i
    | none => false

/-- `at_following_content`: lookahead with optional text equality. -/
def atFollowingContent (p : Parser) (xs : List (SyntaxKind × Option (List Char))) : Bool :=
  (List.range xs.length).all fun i =>
    match xs.get? i, p.peekNthToken i with
    | some (k, txt), some t =>
        t.kind == k && (match txt with
          | some s => t.text == s
          | none => true)
    | _, _ => false

/-- `at_end`: no non-trivia token remains. -/
def atEnd (p : Parser) : Bool := p.peekToken.isNone

/-- Append trees to the innermost frame of a stack. -/
def framePush (stack : List (List Tree)) (ts : List Tree) : List (List Tree) :=
  match stack with
  | top :: rest => (top ++ ts) :: rest
  | [] => []

/-- Close the innermost frame of a stack into a node of the given kind. -/
def frameComplete (stack : List (List Tree)) (k : SyntaxKind) : List (List Tree) :=
  match stack with
  | top :: parent :: rest => (parent ++ [Tree.node k top]) :: rest
  | s => s

/-- The marker (index in the parent frame) `frameComplete` creates. -/
def frameMarker (stack : List (List Tree)) : Nat :=
  match stack with
  | _ :: parent :: _ => parent.length
  | _ => 0

/-- Re-open the innermost frame at index `cm`. -/
def framePrecede (stack : List (List Tree)) (cm : Nat) : List (List Tree) :=
  match stack with
  | top :: rest => top.drop cm :: top.take cm :: rest
  | [] => []

/-- Append leaves for raw tokens to the innermost open node. -/
def pushLeaves (p : Parser) (ts : List Token) : Parser :=
  { p with stack := framePush p.stack (ts.map Tree.leaf) }

/-- The trivia tokens between the raw position and the cursor. -/
def pendingTrivia (p : Parser) : List Token :=
  (p.tokens.drop p.pos).take (nextNonTrivia p.tokens p.pos - p.pos)

/-- `bump`: emit pending leading trivia into the innermost open node, then
consume the non-trivia token at the cursor (spec 4.2: leading trivia
attaches to the node currently being built). No-op at end of input. -/
def bump (p : Parser) : Parser :=
  match p.tokens.get? (nextNonTrivia p.tokens p.pos) with
  | some t =>
      { p.pushLeaves (p.pendingTrivia ++ [t]) with
        pos := nextNonTrivia p.tokens p.pos + 1 }
  | none => p

/-- `bump_as(kind)`: like `bump` but the consumed token is re-labelled. -/
def bumpAs (p : Parser) (k : SyntaxKind) : Parser :=
  match p.tokens.get? (nextNonTrivia p.tokens p.pos) with
  | some t =>
      { p.pushLeaves (p.pendingTrivia ++ [{ t with kind := k }]) with
        pos := nextNonTrivia p.tokens p.pos + 1 }
  | none => p

/-- The merged token text of `bump_next_n_as`: everything from the cursor
to the n-th non-trivia token, inclusive. -/
def mergedSlice (p : Parser) (n : Nat) : List Token :=
  (p.tokens.drop (nextNonTrivia p.tokens p.pos)).take
    (p.nthNonTriviaIdx (n - 1) + 1 - nextNonTrivia p.tokens p.pos)

/-- `bump_next_n_as(n, kind)`: merge the next n non-trivia tokens (any
trivia strictly between them included in the merged text) into a single
token of the given kind (spec 4.2). -/
def bumpNextNAs (p : Parser) (n : Nat) (k : SyntaxKind) : Parser :=
  match p.mergedSlice n with
  | [] => p
  | merged =>
      { p.pushLeaves (p.pendingTrivia ++ [⟨k, merged.flatMap Token.text⟩]) with
        pos := p.nthNonTriviaIdx (n - 1) + 1 }

/-- `explicitly_consume_trivia`: force pending trivia into the currently
open node now (spec 4.2 / design note on trivia attachment). -/
def explicitlyConsumeTrivia (p : Parser) : Parser :=
  { p.pushLeaves p.pendingTrivia with pos := nextNonTrivia p.tokens p.pos }

/-- `start()`: open a node. -/
def start (p : Parser) : Parser := { p with stack := [] :: p.stack }

/-- `complete(marker, kind)`: close the innermost open node with the given
kind, appending the built node to the enclosing frame. -/
def complete (p : Parser) (k : SyntaxKind) : Parser :=
  { p with stack := frameComplete p.stack k }

/-- `complete` that also returns the completed marker: the index of the new
node in its parent frame (markers are positional). -/
def completeM (p : Parser) (k : SyntaxKind) : Parser × Nat :=
  (p.complete k, frameMarker p.stack)

/-- `precede(cm)`: re-open the innermost frame at the position of the
completed node `cm`, so that the next `complete` wraps `cm` and everything
built after it (the forward-parent mechanism of the event log, spec 4.5). -/
def precede (p : Parser) (cm : Nat) : Parser :=
  { p with stack := framePrecede p.stack cm }

/-- `add_error`: append a diagnostic found at the cursor (spec 4.2). -/
def addError (p : Parser) (e : Expectation) : Parser :=
  { p with errors := p.errors ++ [⟨e, p.peekToken⟩] }

/-- `add_error` with `at_token`: diagnostic attached to a given token. -/
def addErrorAt (p : Parser) (e : Expectation) (t : Token) : Parser :=
  { p with errors := p.errors ++ [⟨e, some t⟩] }

/-- Mark that a Rust `unreachable!` was executed. -/
def hitUnreachable (p : Parser) : Parser := { p with panicked := true }

end Parser

/-- Modelled from the spec: `GENERAL_RECOVERY_SET`, the hard anchors that
begin new productions (spec 4.2).  The source expect-tests show that `</`
is not an anchor (`recover(&[])` at a stray `</p>` wraps it into the ERROR
node, html.rs test `parse_html_element_with_cutoff_closing_tag`), so the
set is the spec list without `</`. -/
def GENERAL_RECOVERY_SET : List SyntaxKind :=
  [TK_CURLY_PERCENT, TK_OPEN_CURLY_CURLY, TK_OPEN_CURLY_HASHTAG,
   TK_LESS_THAN, TK_LESS_THAN_EXCLAMATION_MARK, TK_HTML_COMMENT_OPEN]

namespace Parser

/-- Modelled from the spec: `expect(kind, recovery_extras)` (spec 4.2):
consume the token if it matches; otherwise record a diagnostic and, unless
the cursor sits on a recovery anchor (extras or the general set) or at end
of input, consume one stray token into an ERROR node (behaviour pinned by
the html.rs expect-tests, e.g. `parse_fuzzing_bump_error`). -/
def expect (p : Parser) (k : SyntaxKind) (recoveryExtras : List SyntaxKind) : Parser :=
  if p.isAt k then p.bump
  else
    let p := p.addError (.kind k)
    if p.atEnd || p.atSet (recoveryExtras ++ GENERAL_RECOVERY_SET) then p
    else ((p.start.bump).complete ERROR)

/-- Loop body of `recover`, with local fuel (one unit per token wrapped). -/
def recoverLoop (untilSet : List SyntaxKind) : Nat → Parser → Parser
  | 0, p => p
  | fuel + 1, p =>
      if p.atEnd || p.atSet (untilSet ++ GENERAL_RECOVERY_SET) then p
      else recoverLoop untilSet fuel p.bump

/-- Modelled from the spec: `recover(until_set)` (spec 4.2): wrap all
tokens up to (but not including) the next token in
`until_set ∪ GENERAL_RECOVERY_SET ∪ EOF` in an ERROR node; if no token is
wrapped, no ERROR node is produced (pinned by the html.rs expect-tests). -/
def recover (p : Parser) (untilSet : List SyntaxKind) : Parser :=
  if p.atEnd || p.atSet (untilSet ++ GENERAL_RECOVERY_SET) then p
  else (recoverLoop untilSet (p.tokens.length + 1 - p.pos) p.start).complete ERROR

end Parser

end Ludtwig

namespace Ludtwig

open SyntaxKind

/-! ## Lexer (modelled from the spec, sections 2.1 and 4.1) -/

/-- Modelled from the spec: characters that may start an identifier-like
word run (lexer word class; framework sigils are handled separately). -/
def wordStartChar (c : Char) : Bool :=
  c.isAlpha || c == '_' || decide (0x7f ≤ c.toNat)

/-- Modelled from the spec: characters that may continue a word run (the
source expect-tests show hyphens continue words, e.g. `my-div`). -/
def wordContChar (c : Char) : Bool :=
  c.isAlphanum || c == '_' || c == '-' || decide (0x7f ≤ c.toNat)

/-- Framework sigils that may lead a word when directly followed by a word
start (the source expect-tests lex `:bind`, `@click`, `#slot` as single
word tokens). -/
def sigilChar (c : Char) : Bool :=
  c == ':' || c == '@' || c == '#' || c == '$'

/-- Modelled from the spec: the punctuation table, longest match first
(spec 4.1: multi-character punctuation takes precedence). -/
def punctTable : List (List Char × SyntaxKind) :=
  [(['<', '!', '-', '-'], TK_HTML_COMMENT_OPEN),
   (['-', '-', '>'], TK_HTML_COMMENT_CLOSE),
   (['{', '%'], TK_CURLY_PERCENT), (['%', '}'], TK_PERCENT_CURLY),
   (['{', '{'], TK_OPEN_CURLY_CURLY), (['}', '}'], TK_CLOSE_CURLY_CURLY),
   (['{', '#'], TK_OPEN_CURLY_HASHTAG), (['#', '}'], TK_HASHTAG_CLOSE_CURLY),
   (['#', '{'], TK_HASHTAG_OPEN_CURLY),
   (['<', '/'], TK_LESS_THAN_SLASH), (['/', '>'], TK_SLASH_GREATER_THAN),
   (['<', '!'], TK_LESS_THAN_EXCLAMATION_MARK),
   (['<', '='], TK_LESS_THAN_EQUAL), (['>', '='], TK_GREATER_THAN_EQUAL),
   (['=', '='], TK_DOUBLE_EQUAL), (['!', '='], TK_EXCLAMATION_MARK_EQUALS),
   (['*', '*'], TK_DOUBLE_STAR), (['/', '/'], TK_DOUBLE_FORWARD_SLASH),
   (['.', '.'], TK_DOUBLE_DOT),
   (['<'], TK_LESS_THAN), (['>'], TK_GREATER_THAN), (['='], TK_EQUAL),
   (['"'], TK_DOUBLE_QUOTES), (['\''], TK_SINGLE_QUOTES),
   (['{'], TK_OPEN_CURLY), (['}'], TK_CLOSE_CURLY),
   (['['], TK_OPEN_SQUARE), ([']'], TK_CLOSE_SQUARE),
   (['('], TK_OPEN_PARENTHESIS), ([')'], TK_CLOSE_PARENTHESIS),
   (['.'], TK_DOT), ([','], TK_COMMA), ([':'], TK_COLON),
   ([';'], TK_SEMICOLON), (['|'], TK_SINGLE_PIPE), (['~'], TK_TILDE),
   (['+'], TK_PLUS), (['-'], TK_MINUS), (['*'], TK_STAR),
   (['/'], TK_FORWARD_SLASH), (['%'], TK_PERCENT),
   (['?'], TK_QUESTION_MARK), (['!'], TK_EXCLAMATION_MARK),
   (['\\'], TK_BACKWARD_SLASH)]

/-- Modelled from the spec: keyword table; a word whose text matches is
re-tagged (spec 4.1).  The doctype keyword is matched case-insensitively
(the source expect-test lexes `doctype` as the keyword). -/
def keywordKind (s : List Char) : Option SyntaxKind :=
  if s = "block".toList then some TK_BLOCK
  else if s = "endblock".toList then some TK_ENDBLOCK
  else if s = "if".toList then some TK_IF
  else if s = "elseif".toList then some TK_ELSE_IF
  else if s = "else".toList then some TK_ELSE
  else if s = "endif".toList then some TK_ENDIF
  else if s = "for".toList then some TK_FOR
  else if s = "endfor".toList then some TK_ENDFOR
  else if s = "in".toList then some TK_IN
  else if s = "is".toList then some TK_IS
  else if s = "not".toList then some TK_NOT
  else if s = "and".toList then some TK_AND
  else if s = "or".toList then some TK_OR
  else if s = "true".toList then some TK_TRUE
  else if s = "false".toList then some TK_FALSE
  else if s = "null".toList then some TK_NULL
  else if s = "ludtwig-ignore".toList then some TK_LUDTWIG_IGNORE
  else if s = "ludtwig-ignore-file".toList then some TK_LUDTWIG_IGNORE_FILE
  else if s.map Char.toLower = "doctype".toList then some TK_DOCTYPE
  else none

/-- Does `pat` prefix `cs`?  If so return the remainder. -/
def stripPrefixChars (pat cs : List Char) : Option (List Char) :=
  match pat, cs with
  | [], rest => some rest
  | _ :: _, [] => none
  | a :: ps, c :: rest => if a = c then stripPrefixChars ps rest else none

/-- First punctuation-table entry that prefixes the input. -/
def matchPunct : List (List Char × SyntaxKind) → List Char →
    Option (Token × List Char)
  | [], _ => none
  | (pat, k) :: table, cs =>
      match stripPrefixChars pat cs with
      | some rest => some (⟨k, pat⟩, rest)
      | none => matchPunct table cs

/-- Multi-word keyword match (`same as`, `divisible by`) with a word
boundary after it. -/
def matchMultiwordKeyword (cs : List Char) : Option (Token × List Char) :=
  let try1 := fun (pat : List Char) (k : SyntaxKind) =>
    match stripPrefixChars pat cs with
    | some rest =>
        match rest with
        | [] => some ((⟨k, pat⟩ : Token), ([] : List Char))
        | c :: _ => if wordContChar c then none else some (⟨k, pat⟩, rest)
    | none => none
  match try1 "same as".toList TK_SAME_AS with
  | some r => some r
  | none => try1 "divisible by".toList TK_DIVISIBLE_BY

/-- Lex one token from a non-empty input (spec 4.1): line break,
whitespace run, multi-word keyword, punctuation (longest first), number,
word (with keyword re-tagging), otherwise a one-byte ERROR token. -/
def lexStep (c : Char) (rest : List Char) : Token × List Char :=
  if c = '\r' then
    match rest with
    | '\n' :: rest2 => (⟨TK_LINE_BREAK, ['\r', '\n']⟩, rest2)
    | _ => (⟨TK_LINE_BREAK, ['\r']⟩, rest)
  else if c = '\n' then (⟨TK_LINE_BREAK, ['\n']⟩, rest)
  else if c = ' ' || c = '\t' then
    let run := rest.takeWhile (fun d => d = ' ' || d = '\t')
    (⟨TK_WHITESPACE, c :: run⟩, rest.drop run.length)
  else
    match matchMultiwordKeyword (c :: rest) with
    | some r => r
    | none =>
      if sigilChar c && (match rest with
          | d :: _ => wordStartChar d
          | [] => false) then
        let run := rest.takeWhile wordContChar
        (⟨TK_WORD, c :: run⟩, rest.drop run.length)
      else
        match matchPunct punctTable (c :: rest) with
        | some r => r
        | none =>
          if c.isDigit then
            let intRun := rest.takeWhile Char.isDigit
            let afterInt := rest.drop intRun.length
            match afterInt with
            | '.' :: d :: _ =>
                if d.isDigit then
                  let fracRun := (afterInt.drop 1).takeWhile Char.isDigit
                  (⟨TK_NUMBER, c :: intRun ++ '.' :: fracRun⟩,
                   (afterInt.drop 1).drop fracRun.length)
                else (⟨TK_NUMBER, c :: intRun⟩, afterInt)
            | _ => (⟨TK_NUMBER, c :: intRun⟩, afterInt)
          else if wordStartChar c then
            let run := rest.takeWhile wordContChar
            let text := c :: run
            (⟨(keywordKind text).getD TK_WORD, text⟩, rest.drop run.length)
          else (⟨ERROR, [c]⟩, rest)

/-- Lexer main loop; the fuel is the input length (each step consumes at
least one character). -/
def lexGo : Nat → List Char → List Token
  | 0, _ => []
  | _ + 1, [] => []
  | fuel + 1, c :: rest =>
      let (t, rest2) := lexStep c rest
      t :: lexGo fuel rest2

/-- Modelled from the spec: `lex(source)` (spec 4.1): every byte is covered
by exactly one token, in order; no failure. -/
def lex (cs : List Char) : List Token := lexGo cs.length cs

end Ludtwig

namespace Ludtwig

open SyntaxKind

/-! ## Parse combinators and grammar data -/

/-- Local loop fuel: enough for one iteration per remaining token. -/
def localFuel (p : Parser) : Nat := p.tokens.length + 1 - p.pos

/-- Modelled from the spec: the `parse_many(parser, until, one)` combinator
(spec 4.2).  The loop stops when `until` holds or at end of input; it also
stops when an iteration makes no progress.  (The spec describes a
no-progress recovery that wraps one token into an ERROR node and
continues; the expect-tests in the source files pin the opposite
behaviour -- e.g. `parse_html_element_with_children_missing_closing_tag`
ends the body of `<span>` at the unmatched `</div>` without an ERROR
child -- so the loop breaks.  Stray tokens are wrapped by `root`.) -/
def parse_many (fuel : Nat) (untilF : Parser → Bool) (oneF : Parser → Parser)
    (p : Parser) : Parser :=
  match fuel with
  | 0 => p
  | fuel + 1 =>
      if p.atEnd || untilF p then p
      else
        let q := oneF p
        if q.pos = p.pos then q
        else parse_many fuel untilF oneF q

/-- Translated from html.rs: `HTML_VOID_ELEMENTS`. -/
def HTML_VOID_ELEMENTS : List (List Char) :=
  ["area", "base", "br", "col", "command", "embed", "hr", "img", "input",
   "keygen", "link", "meta", "param", "source", "track", "wbr"].map String.toList

/-- Character class `[a-zA-Z0-9_\x7f-\xff]` of `TWIG_NAME_REGEX`. -/
def twigNameContChar (c : Char) : Bool :=
  c.isAlphanum || c == '_' || decide (0x7f ≤ c.toNat ∧ c.toNat ≤ 0xff)

/-- Translated from literal.rs: `TWIG_NAME_REGEX`, the identifier regex
`^[a-zA-Z_\x7f-\xff][a-zA-Z0-9_\x7f-\xff]*$` as a predicate on the token
text. -/
def twigNameRegex : List Char → Bool
  | [] => false
  | c :: cs =>
      (c.isAlpha || c == '_' || decide (0x7f ≤ c.toNat ∧ c.toNat ≤ 0xff)) &&
      cs.all twigNameContChar

/-- Translated from html.rs: `HTML_TAG_NAME_REGEX`
(`^[a-zA-Z][a-zA-Z0-9\-]*$`). -/
def htmlTagNameRegex : List Char → Bool
  | [] => false
  | c :: cs => c.isAlpha && cs.all (fun d => d.isAlphanum || d == '-')

/-- Character class `[a-zA-Z0-9_\-]` of `HTML_ATTRIBUTE_NAME_REGEX`. -/
def attrNameContChar (c : Char) : Bool :=
  c.isAlphanum || c == '_' || c == '-'

/-- Translated from html.rs: `HTML_ATTRIBUTE_NAME_REGEX`
(`^([a-zA-Z]|([:@\#_\$][a-zA-Z]))[a-zA-Z0-9_\-]*$`). -/
def htmlAttrNameRegex : List Char → Bool
  | [] => false
  | c :: cs =>
      if c.isAlpha then cs.all attrNameContChar
      else if c == ':' || c == '@' || c == '#' || c == '_' || c == '$' then
        match cs with
        | [] => false
        | d :: ds => d.isAlpha && ds.all attrNameContChar
      else false

/-- Modelled from the spec: keywords that start a Twig termination tag
(spec 4.4: the body loop peeks for endblock, endif, elseif, else, endfor). -/
def twigTerminationKeywords : List SyntaxKind :=
  [TK_ENDBLOCK, TK_ENDIF, TK_ELSE_IF, TK_ELSE, TK_ENDFOR]

/-- Modelled from the spec: `at_twig_termination_tag` (spec 4.4). -/
def at_twig_termination_tag (p : Parser) : Bool :=
  p.isAt TK_CURLY_PERCENT &&
    (match p.peekNthToken 1 with
     | some t => twigTerminationKeywords.contains t.kind
     | none => false)

/-- Lookahead for the matching closing tag of an element: `</` followed by
a word equal to the opening tag name (html.rs, body-loop until closure). -/
def atMatchingEndTag (tagName : List Char) (p : Parser) : Bool :=
  p.atFollowingContent [(TK_LESS_THAN_SLASH, none), (TK_WORD, some tagName)]

/-! ## Non-recursive grammar functions (translated from the source) -/

/-- Translated from literal.rs: `parse_twig_number`. -/
def parse_twig_number (p : Parser) : Parser × Nat :=
  let p := p.start
  let p := p.bump
  p.completeM TWIG_LITERAL_NUMBER

/-- Translated from literal.rs: `parse_twig_null`. -/
def parse_twig_null (p : Parser) : Parser × Nat :=
  let p := p.start
  let p := p.bump
  p.completeM TWIG_LITERAL_NULL

/-- Translated from literal.rs: `parse_twig_boolean`. -/
def parse_twig_boolean (p : Parser) : Parser × Nat :=
  let p := p.start
  let p := p.bump
  p.completeM TWIG_LITERAL_BOOLEAN

/-- Translated from literal.rs: `parse_twig_name`.  The token is accepted
when it is the `same as` or `divisible by` keyword, or when its text
matches `TWIG_NAME_REGEX`; it is consumed re-labelled as a word token. -/
def parse_twig_name (p : Parser) : Parser × Option Nat :=
  let is_at_special := p.atSet [TK_SAME_AS, TK_DIVISIBLE_BY]
  match p.peekToken with
  | none => (p, none)
  | some tok =>
      if !is_at_special && !twigNameRegex tok.text then (p, none)
      else
        let p := p.start
        let p := p.bumpAs TK_WORD
        let (p, m) := p.completeM TWIG_LITERAL_NAME
        (p, some m)

/-- Modelled from the spec: `parse_ludtwig_directive(parser, outer, end)`
(spec 4.3): re-kind an ignore comment as a directive node listing rule
names until the closing delimiter. -/
def parse_ludtwig_directive (endKind : SyntaxKind) (p : Parser) : Parser × Nat :=
  let isFile := p.isAt TK_LUDTWIG_IGNORE_FILE
  let p := p.bump
  let p := parse_many (localFuel p) (fun q => q.isAt endKind) Parser.bump p
  let p := p.expect endKind []
  p.completeM (if isFile then LUDTWIG_DIRECTIVE_FILE_IGNORE else LUDTWIG_DIRECTIVE_IGNORE)

/-- Translated from html.rs: `parse_plain_html_comment` (the outer marker
is already open). -/
def parse_plain_html_comment (p : Parser) : Parser × Nat :=
  let p := parse_many (localFuel p) (fun q => q.isAt TK_HTML_COMMENT_CLOSE) Parser.bump p
  let p := p.expect TK_HTML_COMMENT_CLOSE []
  p.completeM HTML_COMMENT

/-- Translated from html.rs: `parse_html_comment`. -/
def parse_html_comment (p : Parser) : Parser × Nat :=
  let p := p.start
  let p := p.bump
  if p.atSet [TK_LUDTWIG_IGNORE_FILE, TK_LUDTWIG_IGNORE] then
    parse_ludtwig_directive TK_HTML_COMMENT_CLOSE p
  else
    parse_plain_html_comment p

/-- Translated from html.rs: `parse_html_doctype`. -/
def parse_html_doctype (p : Parser) : Parser × Nat :=
  let p := p.start
  let p := p.bump
  let p := p.expect TK_DOCTYPE [TK_WORD, TK_GREATER_THAN]
  let p := p.expect TK_WORD [TK_GREATER_THAN]
  let p := p.expect TK_GREATER_THAN []
  p.completeM HTML_DOCTYPE

/-- Translated from html.rs: `parse_html_text`. -/
def parse_html_text (p : Parser) : Parser × Option Nat :=
  if p.atEnd || p.atSet GENERAL_RECOVERY_SET || p.atSet [TK_LESS_THAN_SLASH] then
    (p, none)
  else
    let p := p.start
    let p := parse_many (localFuel p)
      (fun q => q.atSet GENERAL_RECOVERY_SET || q.atSet [TK_LESS_THAN_SLASH])
      Parser.bump p
    let (p, m) := p.completeM HTML_TEXT
    (p, some m)

/-- Modelled from the spec: `parse_twig_comment` (spec 4.4), mirroring the
HTML comment (raw content, ignore-directive recognition). -/
def parse_twig_comment (p : Parser) : Parser × Nat :=
  let p := p.start
  let p := p.bump
  if p.atSet [TK_LUDTWIG_IGNORE_FILE, TK_LUDTWIG_IGNORE] then
    parse_ludtwig_directive TK_HASHTAG_CLOSE_CURLY p
  else
    let p := parse_many (localFuel p) (fun q => q.isAt TK_HASHTAG_CLOSE_CURLY) Parser.bump p
    let p := p.expect TK_HASHTAG_CLOSE_CURLY []
    p.completeM TWIG_COMMENT

/-- Translated from html.rs (`parse_html_attribute_value_string`, closing
part): after the HTML_STRING_INNER is completed, expect the matching
closing quote, or -- when there was no leading quote -- consume an
unexpected stray quote into an ERROR node with the diagnostic
`no trailing quote because there is no leading quote` at that token. -/
def parse_html_attribute_value_closing (quoteKind : Option SyntaxKind) (p : Parser) : Parser :=
  match quoteKind with
  | some qk => p.expect qk [TK_GREATER_THAN, TK_SLASH_GREATER_THAN]
  | none =>
      if p.atSet [TK_DOUBLE_QUOTES, TK_SINGLE_QUOTES] then
        let p := p.start
        let quote := p.peekToken
        let p := p.bump
        let p := match quote with
          | some q =>
              p.addErrorAt (.msg "no trailing quote because there is no leading quote") q
          | none => p
        p.complete ERROR
      else p

/-- Translated from html.rs (`parse_html_element`, lines 160-174): parse
the matching end tag, or report the missing one (diagnostic
`</tag_name> ending tag`) and recover, completing HTML_ENDING_TAG. -/
def parse_html_element_closing (tagName : List Char) (matchingEndTag : Bool)
    (p : Parser) : Parser :=
  let p := p.start
  let p :=
    if matchingEndTag then
      let p := p.expect TK_LESS_THAN_SLASH [TK_WORD, TK_GREATER_THAN]
      let p := p.expect TK_WORD [TK_GREATER_THAN]
      p.expect TK_GREATER_THAN []
    else
      let p := p.addError (.msg ("</" ++ String.mk tagName ++ "> ending tag"))
      p.recover []
  p.complete HTML_ENDING_TAG

end Ludtwig

namespace Ludtwig

open SyntaxKind

/-! ## The mutually recursive grammar

The Rust grammar functions are mutually recursive through
`parse_any_element`, the contextual child parsers handed to
`parse_any_twig`, and the expression grammar.  They are embedded as one
fuel-indexed interpreter `run` over a defunctionalized code `Fn`; each
source function is recovered as a wrapper applying `run` to its code.
Recursion is structural on the fuel, which is chosen generously at the
entry point; loops that only need one iteration per consumed token use
`parse_many` with `localFuel` instead of the descent fuel. -/

/-- The contextual child parsers passed through `parse_any_twig`
(`ParseFunction` values in the source). -/
inductive ChildK where
  | anyElement | htmlAttribute | avsInnerDouble | avsInnerSingle
  deriving DecidableEq, Repr

/-- Codes of the mutually recursive grammar functions.  Numeric payloads
are completed markers (for the wrapping postfix parsers) or minimal
binding powers (for the Pratt expression loop). -/
inductive Fn where
  | anyElement
  | anyTwig (c : ChildK)
  | twigBlock (c : ChildK)
  | twigIf (c : ChildK)
  | twigIfTail (c : ChildK)
  | twigFor (c : ChildK)
  | twigVar
  | twigExpr (minBp : Nat)
  | twigExprTail (minBp : Nat) (m : Nat)
  | twigLiteral
  | filterLoop (m : Nat)
  | twigString (interpolationAllowed : Bool)
  | twigStringStep (quoteKind : SyntaxKind) (interpolationAllowed : Bool)
  | twigArray
  | twigHash
  | twigHashPair
  | twigNamePostfix
  | postfixLoop (m : Nat)
  | twigFilter (m : Nat)
  | twigIndexer (m : Nat)
  | twigAccessor (m : Nat)
  | twigFunction (m : Nat)
  | twigFunctionArgument
  | anyHtml
  | htmlElement
  | htmlAttributeOrTwig
  | avs
  | avsInner (quoteKind : Option SyntaxKind)
  | avsChild (c : ChildK)
  deriving Repr

/-- Anchors: the grammar functions that re-wrap the node a marker points
at rather than only appending. -/
@[reducible] def Fn.anchor : Fn → Option Nat
  | .twigExprTail _ m => some m
  | .filterLoop m => some m
  | .postfixLoop m => some m
  | .twigFilter m => some m
  | .twigIndexer m => some m
  | .twigAccessor m => some m
  | .twigFunction m => some m
  | _ => none

/-- The grammar function a contextual child parser stands for. -/
def childFn : ChildK → Fn
  | .anyElement => .anyElement
  | .htmlAttribute => .htmlAttributeOrTwig
  | .avsInnerDouble => .avsInner (some TK_DOUBLE_QUOTES)
  | .avsInnerSingle => .avsInner (some TK_SINGLE_QUOTES)

/-- Modelled from the spec: the Pratt operator table (spec 4.4): binding
power and right-associativity of the binary operators realised by single
lexer tokens. -/
def binaryOpBp (k : SyntaxKind) : Option (Nat × Bool) :=
  match k with
  | TK_DOUBLE_STAR => some (250, true)
  | TK_STAR => some (200, false)
  | TK_FORWARD_SLASH => some (200, false)
  | TK_DOUBLE_FORWARD_SLASH => some (200, false)
  | TK_PERCENT => some (200, false)
  | TK_PLUS => some (150, false)
  | TK_MINUS => some (150, false)
  | TK_TILDE => some (150, false)
  | TK_DOUBLE_DOT => some (120, false)
  | TK_DOUBLE_EQUAL => some (100, false)
  | TK_EXCLAMATION_MARK_EQUALS => some (100, false)
  | TK_LESS_THAN => some (100, false)
  | TK_LESS_THAN_EQUAL => some (100, false)
  | TK_GREATER_THAN => some (100, false)
  | TK_GREATER_THAN_EQUAL => some (100, false)
  | TK_IN => some (100, false)
  | TK_IS => some (100, false)
  | TK_AND => some (80, false)
  | TK_OR => some (70, false)
  | _ => none

/-- The fuel-indexed interpreter of the mutually recursive grammar
functions; each `Fn` case is the body of the correspondingly named source
function (html.rs and twig/literal.rs translated directly; the twig
statement and expression module modelled from spec 4.4). -/
def run : Nat → Fn → Parser → Parser × Option Nat
  | 0, which, p => (p, Fn.anchor which)
  | fuel + 1, which, p =>
    match which with
    | .anyElement =>
        -- grammar.rs: parse_any_twig(parser, parse_any_element)
        --   .or_else(|| parse_any_html(parser))
        let (p1, r) := run fuel (.anyTwig .anyElement) p
        match r with
        | some m => (p1, some m)
        | none => run fuel .anyHtml p1
    | .anyTwig c =>
        -- Modelled from the spec: parse_any_twig dispatch (spec 4.4); at
        -- an unknown statement keyword the `{%` is consumed into an ERROR
        -- node and `twig tag` is reported at the keyword token (pinned by
        -- the source expect-tests, e.g. `parse_fuzzing_bump_error`).
        if p.isAt TK_CURLY_PERCENT then
          if p.atNth TK_BLOCK 1 then run fuel (.twigBlock c) p
          else if p.atNth TK_IF 1 then run fuel (.twigIf c) p
          else if p.atNth TK_FOR 1 then run fuel (.twigFor c) p
          else
            let p := p.start
            let p := p.bump
            let p := p.addError (.msg "twig tag")
            let (p, m) := p.completeM ERROR
            (p, some m)
        else if p.isAt TK_OPEN_CURLY_CURLY then run fuel .twigVar p
        else if p.isAt TK_OPEN_CURLY_HASHTAG then
          let (p, m) := parse_twig_comment p
          (p, some m)
        else (p, none)
    | .twigBlock c =>
        -- Modelled from the spec: {% block name %} body {% endblock %}
        -- (spec 4.4, statement blocks).
        let p := p.start
        let p := p.start
        let p := p.bump
        let p := p.bump
        let p := p.expect TK_WORD [TK_PERCENT_CURLY]
        let p := p.expect TK_PERCENT_CURLY []
        let p := p.complete TWIG_STARTING_BLOCK
        let p := p.start
        let p := parse_many (localFuel p) at_twig_termination_tag
          (fun q => (run fuel (childFn c) q).1) p
        let p := p.complete BODY
        let p := p.start
        let p := p.expect TK_CURLY_PERCENT [TK_LESS_THAN_SLASH]
        let p := p.expect TK_ENDBLOCK [TK_LESS_THAN_SLASH]
        let p := p.expect TK_PERCENT_CURLY [TK_LESS_THAN_SLASH]
        let p := p.complete TWIG_ENDING_BLOCK
        let (p, m) := p.completeM TWIG_BLOCK
        (p, some m)
    | .twigIf c =>
        -- Modelled from the spec: {% if %} ... {% endif %} (spec 4.4).
        let p := p.start
        let p := p.start
        let p := p.bump
        let p := p.bump
        let (p, r) := run fuel (.twigExpr 0) p
        let p := if r.isNone then p.addError (.msg "twig expression") else p
        let p := p.expect TK_PERCENT_CURLY []
        let p := p.complete TWIG_IF_BLOCK
        let p := p.start
        let p := parse_many (localFuel p) at_twig_termination_tag
          (fun q => (run fuel (childFn c) q).1) p
        let p := p.complete BODY
        let p := (run fuel (.twigIfTail c) p).1
        let p := p.start
        let p := p.expect TK_CURLY_PERCENT [TK_LESS_THAN_SLASH]
        let p := p.expect TK_ENDIF [TK_LESS_THAN_SLASH]
        let p := p.expect TK_PERCENT_CURLY [TK_LESS_THAN_SLASH]
        let p := p.complete TWIG_ENDIF_BLOCK
        let (p, m) := p.completeM TWIG_IF
        (p, some m)
    | .twigIfTail c =>
        -- Modelled from the spec: zero or more elseif blocks and an
        -- optional else block, each followed by a body (spec 4.4).
        if p.atFollowing [TK_CURLY_PERCENT, TK_ELSE_IF] then
          let p := p.start
          let p := p.bump
          let p := p.bump
          let (p, r) := run fuel (.twigExpr 0) p
          let p := if r.isNone then p.addError (.msg "twig expression") else p
          let p := p.expect TK_PERCENT_CURLY []
          let p := p.complete TWIG_ELSE_IF_BLOCK
          let p := p.start
          let p := parse_many (localFuel p) at_twig_termination_tag
            (fun q => (run fuel (childFn c) q).1) p
          let p := p.complete BODY
          run fuel (.twigIfTail c) p
        else if p.atFollowing [TK_CURLY_PERCENT, TK_ELSE] then
          let p := p.start
          let p := p.bump
          let p := p.bump
          let p := p.expect TK_PERCENT_CURLY []
          let p := p.complete TWIG_ELSE_BLOCK
          let p := p.start
          let p := parse_many (localFuel p) at_twig_termination_tag
            (fun q => (run fuel (childFn c) q).1) p
          let p := p.complete BODY
          run fuel (.twigIfTail c) p
        else (p, none)
    | .twigFor c =>
        -- Modelled from the spec: {% for x in expr %} ... {% endfor %}
        -- (spec 2.1 keywords, 4.4 statement shape).
        let p := p.start
        let p := p.start
        let p := p.bump
        let p := p.bump
        let p := p.expect TK_WORD [TK_IN, TK_PERCENT_CURLY]
        let p := p.expect TK_IN [TK_PERCENT_CURLY]
        let (p, r) := run fuel (.twigExpr 0) p
        let p := if r.isNone then p.addError (.msg "twig expression") else p
        let p := p.expect TK_PERCENT_CURLY []
        let p := p.complete TWIG_STARTING_BLOCK
        let p := p.start
        let p := parse_many (localFuel p) at_twig_termination_tag
          (fun q => (run fuel (childFn c) q).1) p
        let p := p.complete BODY
        let p := p.start
        let p := p.expect TK_CURLY_PERCENT [TK_LESS_THAN_SLASH]
        let p := p.expect TK_ENDFOR [TK_LESS_THAN_SLASH]
        let p := p.expect TK_PERCENT_CURLY [TK_LESS_THAN_SLASH]
        let p := p.complete TWIG_ENDING_BLOCK
        let (p, m) := p.completeM TWIG_FOR
        (p, some m)
    | .twigVar =>
        -- Modelled from the spec: {{ expression }} (spec 4.4, var).
        let p := p.start
        let p := p.bump
        let (p, r) := run fuel (.twigExpr 0) p
        let p := if r.isNone then p.addError (.msg "twig expression") else p
        let p := p.expect TK_CLOSE_CURLY_CURLY []
        let (p, m) := p.completeM TWIG_VAR
        (p, some m)
    | .twigExpr minBp =>
        -- Modelled from the spec: the Pratt expression parser (spec 4.4):
        -- unary operators, a parenthesised or literal operand wrapped in
        -- TWIG_EXPRESSION, then the binary-operator loop.
        if p.atSet [TK_MINUS, TK_PLUS, TK_NOT] then
          let p := p.start
          let p := p.bump
          let (p, r) := run fuel (.twigExpr 300) p
          let p := if r.isNone then p.addError (.msg "twig expression") else p
          let (p, m) := p.completeM TWIG_UNARY_EXPRESSION
          let p := p.precede m
          let (p, m) := p.completeM TWIG_EXPRESSION
          run fuel (.twigExprTail minBp m) p
        else if p.isAt TK_OPEN_PARENTHESIS then
          let p := p.start
          let p := p.bump
          let (p, r) := run fuel (.twigExpr 0) p
          let p := if r.isNone then p.addError (.msg "twig expression") else p
          let p := p.expect TK_CLOSE_PARENTHESIS []
          let (p, m) := p.completeM TWIG_EXPRESSION
          run fuel (.twigExprTail minBp m) p
        else
          let (p, r) := run fuel .twigLiteral p
          match r with
          | none => (p, none)
          | some m =>
              let p := p.precede m
              let (p, m) := p.completeM TWIG_EXPRESSION
              run fuel (.twigExprTail minBp m) p
    | .twigExprTail minBp m =>
        -- Modelled from the spec: the binary-operator loop; left
        -- associativity by wrapping the completed lhs (spec 4.4).
        match (match p.peekToken with
               | some t => binaryOpBp t.kind
               | none => none) with
        | none => (p, some m)
        | some (bp, rightAssoc) =>
            if bp < minBp then (p, some m)
            else
              let p := p.precede m
              let p := p.bump
              let (p, r) := run fuel (.twigExpr (if rightAssoc then bp else bp + 1)) p
              let p := if r.isNone then p.addError (.msg "twig expression") else p
              let (p, _) := p.completeM TWIG_BINARY_EXPRESSION
              let p := p.precede m
              let (p, _) := p.completeM TWIG_EXPRESSION
              run fuel (.twigExprTail minBp m) p
    | .twigLiteral =>
        -- Translated from literal.rs: parse_twig_literal.
        let (p, last) :=
          if p.isAt TK_NUMBER then
            let (p, m) := parse_twig_number p
            (p, some m)
          else if p.atSet [TK_DOUBLE_QUOTES, TK_SINGLE_QUOTES] then
            run fuel (.twigString true) p
          else if p.isAt TK_OPEN_SQUARE then run fuel .twigArray p
          else if p.isAt TK_NULL then
            let (p, m) := parse_twig_null p
            (p, some m)
          else if p.atSet [TK_TRUE, TK_FALSE] then
            let (p, m) := parse_twig_boolean p
            (p, some m)
          else if p.isAt TK_OPEN_CURLY then run fuel .twigHash p
          else run fuel .twigNamePostfix p
        match last with
        | none => (p, none)
        | some m =>
            -- parse any amount of filters (parse_many with the node
            -- captured by the closure; inlined: the loop stops as soon
            -- as the cursor is not at a pipe, because that iteration
            -- makes no progress)
            run fuel (.filterLoop m) p
    | .filterLoop m =>
        if p.isAt TK_SINGLE_PIPE then
          let (p, r) := run fuel (.twigFilter m) p
          run fuel (.filterLoop (r.getD m)) p
        else (p, some m)
    | .twigString interpolationAllowed =>
        -- Translated from literal.rs: parse_twig_string.
        let p := p.start
        let startingQuote := p.peekToken
        let p := p.bump
        let quoteKind := match startingQuote with
          | some t => t.kind
          | none => TK_DOUBLE_QUOTES
        let allowed := match quoteKind with
          | TK_DOUBLE_QUOTES => interpolationAllowed
          | _ => false
        let p := p.start
        let p := parse_many (localFuel p) (fun q => q.isAt quoteKind)
          (fun q => (run fuel (.twigStringStep quoteKind allowed) q).1) p
        let p := p.explicitlyConsumeTrivia
        let p := p.complete TWIG_LITERAL_STRING_INNER
        let p := p.expect quoteKind []
        let (p, m) := p.completeM TWIG_LITERAL_STRING
        (p, some m)
    | .twigStringStep quoteKind allowed =>
        -- Translated from literal.rs: the loop body of parse_twig_string.
        if p.atFollowing [TK_BACKWARD_SLASH, quoteKind] then
          let p := p.bump
          let p := p.bump
          (p, none)
        else if p.isAt TK_HASHTAG_OPEN_CURLY then
          if !allowed then
            let opening := p.peekToken
            let p := p.bump
            let p := match opening with
              | some t =>
                  p.addErrorAt (.msg "no string interpolation, because it isn't allowed here") t
              | none => p
            (p, none)
          else
            let p := p.explicitlyConsumeTrivia
            let p := p.start
            let p := p.bump
            let (p, r) := run fuel (.twigExpr 0) p
            let p := if r.isNone then p.addError (.msg "twig expression") else p
            let p := p.expect TK_CLOSE_CURLY []
            let p := p.complete TWIG_LITERAL_STRING_INTERPOLATION
            (p, none)
        else (p.bump, none)
    | .twigArray =>
        -- Translated from literal.rs: parse_twig_array.
        let p := p.start
        let p := p.bump
        let p := parse_many (localFuel p) (fun q => q.isAt TK_CLOSE_SQUARE)
          (fun q =>
            let q := (run fuel (.twigExpr 0) q).1
            if q.isAt TK_COMMA then q.bump else q) p
        let p := p.expect TK_CLOSE_SQUARE []
        let (p, m) := p.completeM TWIG_LITERAL_ARRAY
        (p, some m)
    | .twigHash =>
        -- Translated from literal.rs: parse_twig_hash.
        let p := p.start
        let p := p.bump
        let p := parse_many (localFuel p) (fun q => q.isAt TK_CLOSE_CURLY)
          (fun q =>
            let q := (run fuel .twigHashPair q).1
            if q.isAt TK_COMMA then q.bump else q) p
        let p := p.expect TK_CLOSE_CURLY []
        let (p, m) := p.completeM TWIG_LITERAL_HASH
        (p, some m)
    | .twigHashPair =>
        -- Translated from literal.rs: parse_twig_hash_pair.
        let (p, key) :=
          if p.isAt TK_NUMBER then
            let (p, m) := parse_twig_number p
            let p := p.precede m
            let (p, m) := p.completeM TWIG_LITERAL_HASH_KEY
            (p, some m)
          else if p.atSet [TK_SINGLE_QUOTES, TK_DOUBLE_QUOTES] then
            let (p, r) := run fuel (.twigString false) p
            match r with
            | some m =>
                let p := p.precede m
                let (p, m) := p.completeM TWIG_LITERAL_HASH_KEY
                (p, some m)
            | none => (p, none)
          else if p.isAt TK_OPEN_PARENTHESIS then
            let p := p.start
            let p := p.bump
            let (p, r) := run fuel (.twigExpr 0) p
            let p := if r.isNone then p.addError (.msg "twig expression") else p
            let p := p.expect TK_CLOSE_PARENTHESIS []
            let (p, m) := p.completeM TWIG_LITERAL_HASH_KEY
            (p, some m)
          else
            match p.peekToken with
            | none => (p, none)
            | some tok =>
                if twigNameRegex tok.text then
                  let p := p.start
                  let p := p.bumpAs TK_WORD
                  let (p, m) := p.completeM TWIG_LITERAL_HASH_KEY
                  (p, some m)
                else (p, none)
        match key with
        | none => (p, none)
        | some key =>
            let p :=
              if p.isAt TK_COLON then
                let p := p.bump
                let (p, r) := run fuel (.twigExpr 0) p
                if r.isNone then p.addError (.msg "value as twig expression") else p
              else p
            let p := p.precede key
            let (p, m) := p.completeM TWIG_LITERAL_HASH_PAIR
            (p, some m)
    | .twigNamePostfix =>
        -- Translated from literal.rs: parse_twig_name_postfix.
        let (p, r) := parse_twig_name p
        match r with
        | none => (p, none)
        | some m => run fuel (.postfixLoop m) p
    | .postfixLoop m =>
        -- Translated from literal.rs: the accessor / indexer / call loop
        -- of parse_twig_name_postfix (parse_many with the node captured
        -- by the closure; stops when no postfix operator follows).
        if p.isAt TK_DOT then
          let (p, r) := run fuel (.twigAccessor m) p
          run fuel (.postfixLoop (r.getD m)) p
        else if p.isAt TK_OPEN_SQUARE then
          let (p, r) := run fuel (.twigIndexer m) p
          run fuel (.postfixLoop (r.getD m)) p
        else if p.isAt TK_OPEN_PARENTHESIS then
          let (p, r) := run fuel (.twigFunction m) p
          run fuel (.postfixLoop (r.getD m)) p
        else (p, some m)
    | .twigFilter m =>
        -- Translated from literal.rs: parse_twig_filter.
        let p := p.precede m
        let (p, _) := p.completeM TWIG_OPERAND
        let p := p.precede m
        let p := p.bump
        let p := p.start
        let (p, r) := parse_twig_name p
        let p :=
          match r with
          | none => p.addError (.msg "twig filter")
          | some _ =>
              if p.isAt TK_OPEN_PARENTHESIS then
                let p := p.bump
                let p := p.start
                let p := parse_many (localFuel p) (fun q => q.isAt TK_CLOSE_PARENTHESIS)
                  (fun q =>
                    let q := (run fuel .twigFunctionArgument q).1
                    if q.isAt TK_COMMA then q.bump else q) p
                let p := p.complete TWIG_ARGUMENTS
                p.expect TK_CLOSE_PARENTHESIS []
              else p
        let p := p.complete TWIG_OPERAND
        let (p, _) := p.completeM TWIG_FILTER
        (p, some m)
    | .twigIndexer m =>
        -- Translated from literal.rs: parse_twig_indexer.
        let p := p.precede m
        let (p, _) := p.completeM TWIG_OPERAND
        let p := p.precede m
        let p := p.bump
        let p := p.start
        let isSlice1 := p.isAt TK_COLON
        let p := if isSlice1 then p.bump else p
        let (p, r) := run fuel (.twigExpr 0) p
        let p := if r.isNone && !p.isAt TK_COLON then p.addError (.msg "twig expression") else p
        let isSlice2 := p.isAt TK_COLON
        let p :=
          if isSlice2 then
            let p := p.bump
            let (p, r2) := run fuel (.twigExpr 0) p
            if r2.isNone then p.addError (.msg "twig expression") else p
          else p
        let p := p.complete (if isSlice1 || isSlice2 then TWIG_INDEX_RANGE else TWIG_INDEX)
        let p := p.expect TK_CLOSE_SQUARE []
        let (p, _) := p.completeM TWIG_INDEX_LOOKUP
        (p, some m)
    | .twigAccessor m =>
        -- Translated from literal.rs: parse_twig_accessor.
        let p := p.precede m
        let (p, _) := p.completeM TWIG_OPERAND
        let p := p.precede m
        let p := p.bump
        let p := p.start
        let (p, r) := parse_twig_name p
        let p :=
          if r.isNone then p.addError (.msg "twig variable property, key or method")
          else p
        let p := p.complete TWIG_OPERAND
        let (p, _) := p.completeM TWIG_ACCESSOR
        (p, some m)
    | .twigFunction m =>
        -- Translated from literal.rs: parse_twig_function.
        let p := p.precede m
        let (p, _) := p.completeM TWIG_OPERAND
        let p := p.precede m
        let p := p.bump
        let p := p.start
        let p := parse_many (localFuel p) (fun q => q.isAt TK_CLOSE_PARENTHESIS)
          (fun q =>
            let q := (run fuel .twigFunctionArgument q).1
            if q.isAt TK_COMMA then q.bump else q) p
        let p := p.complete TWIG_ARGUMENTS
        let p := p.expect TK_CLOSE_PARENTHESIS []
        let (p, _) := p.completeM TWIG_FUNCTION_CALL
        (p, some m)
    | .twigFunctionArgument =>
        -- Translated from literal.rs: parse_twig_function_argument.
        if p.atFollowing [TK_WORD, TK_EQUAL] then
          let p := p.start
          let p := p.bump
          let p := p.expect TK_EQUAL []
          let p := (run fuel (.twigExpr 0) p).1
          let (p, m) := p.completeM TWIG_NAMED_ARGUMENT
          (p, some m)
        else run fuel (.twigExpr 0) p
    | .anyHtml =>
        -- Translated from html.rs: parse_any_html.
        if p.isAt TK_LESS_THAN then run fuel .htmlElement p
        else if p.isAt TK_HTML_COMMENT_OPEN then
          let (p, m) := parse_html_comment p
          (p, some m)
        else if p.isAt TK_LESS_THAN_EXCLAMATION_MARK then
          let (p, m) := parse_html_doctype p
          (p, some m)
        else parse_html_text p
    | .htmlElement =>
        -- Translated from html.rs: parse_html_element.
        let p := p.start
        let p := p.start
        let p := p.bump
        let tagName := match p.peekToken with
          | some t => t.text
          | none => []
        let p :=
          if htmlTagNameRegex tagName then p.bumpAs TK_WORD
          else
            let p := p.addError (.msg "HTML Tag Name")
            p.recover [TK_GREATER_THAN, TK_SLASH_GREATER_THAN, TK_LESS_THAN_SLASH,
                       TK_WORD, TK_GREATER_THAN]
        let p := p.start
        let p := parse_many (localFuel p)
          (fun q => q.isAt TK_GREATER_THAN || q.isAt TK_SLASH_GREATER_THAN)
          (fun q => (run fuel .htmlAttributeOrTwig q).1) p
        let p := p.complete HTML_ATTRIBUTE_LIST
        let (p, selfClosingDelim) :=
          if p.isAt TK_SLASH_GREATER_THAN then (p.bump, true)
          else (p.expect TK_GREATER_THAN [TK_LESS_THAN_SLASH, TK_WORD, TK_GREATER_THAN], false)
        let isSelfClosing := selfClosingDelim || HTML_VOID_ELEMENTS.contains tagName
        let p := p.complete HTML_STARTING_TAG
        if isSelfClosing then
          let (p, m) := p.completeM HTML_TAG
          (p, some m)
        else
          let p := p.start
          let p := parse_many (localFuel p)
            (fun q => atMatchingEndTag tagName q || at_twig_termination_tag q)
            (fun q => (run fuel .anyElement q).1) p
          -- the Rust until-closure records whether the matching end tag
          -- was seen; the loop only exits through the flag when the check
          -- holds at the exit state, so the flag equals the check there
          let matching := atMatchingEndTag tagName p
          let p := p.complete BODY
          let p := parse_html_element_closing tagName matching p
          let (p, m) := p.completeM HTML_TAG
          (p, some m)
    | .htmlAttributeOrTwig =>
        -- Translated from html.rs: parse_html_attribute_or_twig.
        let tokenTextOpt : Option (List Char) :=
          if p.isAt TK_COLON then
            match p.peekNthToken 1 with
            | some t => some (':' :: t.text)
            | none => none
          else
            match p.peekToken with
            | some t => some t.text
            | none => none
        match tokenTextOpt with
        | none => (p, none)
        | some tokenText =>
            let branch : Option Parser :=
              if htmlAttrNameRegex tokenText then
                -- normal html attribute name
                let q := p.start
                some (if q.isAt TK_COLON then q.bumpNextNAs 2 TK_WORD else q.bumpAs TK_WORD)
              else if p.isAt TK_OPEN_CURLY_CURLY then
                -- the attribute name is a twig var expression
                let q := p.start
                some ((run fuel .twigVar q).1)
              else none
            match branch with
            | none =>
                -- any twig block / comment whose children are attributes
                run fuel (.anyTwig .htmlAttribute) p
            | some p =>
                let p :=
                  if p.isAt TK_EQUAL then
                    let p := p.bump
                    (run fuel .avs p).1
                  else p
                let (p, m) := p.completeM HTML_ATTRIBUTE
                (p, some m)
    | .avs =>
        -- Translated from html.rs: parse_html_attribute_value_string.
        let p := p.start
        let (p, quoteKind) :=
          if p.atSet [TK_DOUBLE_QUOTES, TK_SINGLE_QUOTES] then
            let startingQuote := p.peekToken
            let p := p.bump
            (p, startingQuote.map Token.kind)
          else (p, none)
        let p := p.start
        let p :=
          match quoteKind with
          | some TK_DOUBLE_QUOTES => (run fuel (.avsInner (some TK_DOUBLE_QUOTES)) p).1
          | some TK_SINGLE_QUOTES => (run fuel (.avsInner (some TK_SINGLE_QUOTES)) p).1
          | none => (run fuel (.avsInner none) p).1
          | some _ => p.hitUnreachable
        let p := if quoteKind.isSome then p.explicitlyConsumeTrivia else p
        let p := p.complete HTML_STRING_INNER
        let p := parse_html_attribute_value_closing quoteKind p
        let (p, m) := p.completeM HTML_STRING
        (p, some m)
    | .avsInner quoteKind =>
        -- Translated from html.rs: the three inner value parsers of
        -- parse_html_attribute_value_string.
        match quoteKind with
        | some q =>
            let c : ChildK :=
              if q == TK_DOUBLE_QUOTES then .avsInnerDouble else .avsInnerSingle
            let p := parse_many (localFuel p)
              (fun r => r.isAt q || at_twig_termination_tag r)
              (fun r => (run fuel (.avsChild c) r).1) p
            (p, none)
        | none =>
            if p.isAt TK_WORD then (p.bump, none)
            else if p.isAt TK_OPEN_CURLY_CURLY then
              ((run fuel .twigVar p).1, none)
            else
              let p := p.addError (.msg "html attribute value")
              (p.recover [TK_WORD, TK_GREATER_THAN, TK_SLASH_GREATER_THAN], none)
    | .avsChild c =>
        -- Translated from html.rs: the child_parser helper of
        -- parse_html_attribute_value_string.
        let (p1, r) := run fuel (.anyTwig c) p
        match r with
        | some m => (p1, some m)
        | none =>
            if p1.atSet [TK_GREATER_THAN, TK_SLASH_GREATER_THAN]
                || p1.atSet GENERAL_RECOVERY_SET || p1.atEnd then
              (p1, none)
            else (p1.bump, none)

end Ludtwig

namespace Ludtwig

open SyntaxKind

/-! ## Source-named wrappers, root and the parse entry point -/

/-- Translated from grammar.rs: `parse_any_element`. -/
def parse_any_element (fuel : Nat) (p : Parser) : Parser × Option Nat :=
  run fuel .anyElement p

/-- Modelled from the spec: `parse_any_twig(parser, child_parser)`. -/
def parse_any_twig (fuel : Nat) (c : ChildK) (p : Parser) : Parser × Option Nat :=
  run fuel (.anyTwig c) p

/-- Translated from html.rs: `parse_any_html`. -/
def parse_any_html (fuel : Nat) (p : Parser) : Parser × Option Nat :=
  run fuel .anyHtml p

/-- Translated from html.rs: `parse_html_element`. -/
def parse_html_element (fuel : Nat) (p : Parser) : Parser × Option Nat :=
  run fuel .htmlElement p

/-- Translated from html.rs: `parse_html_attribute_or_twig`. -/
def parse_html_attribute_or_twig (fuel : Nat) (p : Parser) : Parser × Option Nat :=
  run fuel .htmlAttributeOrTwig p

/-- Translated from html.rs: `parse_html_attribute_value_string`. -/
def parse_html_attribute_value_string (fuel : Nat) (p : Parser) : Parser × Option Nat :=
  run fuel .avs p

/-- Translated from literal.rs: `parse_twig_literal`. -/
def parse_twig_literal (fuel : Nat) (p : Parser) : Parser × Option Nat :=
  run fuel .twigLiteral p

/-- Translated from literal.rs: `parse_twig_string`. -/
def parse_twig_string (fuel : Nat) (interpolationAllowed : Bool) (p : Parser) :
    Parser × Option Nat :=
  run fuel (.twigString interpolationAllowed) p

/-- Translated from literal.rs: the loop body of `parse_twig_string`. -/
def parse_twig_string_step (fuel : Nat) (quoteKind : SyntaxKind)
    (interpolationAllowed : Bool) (p : Parser) : Parser × Option Nat :=
  run fuel (.twigStringStep quoteKind interpolationAllowed) p

/-- Translated from literal.rs: `parse_twig_hash_pair`. -/
def parse_twig_hash_pair (fuel : Nat) (p : Parser) : Parser × Option Nat :=
  run fuel .twigHashPair p

/-- Modelled from the spec: `parse_twig_expression` (spec 4.4). -/
def parse_twig_expression (fuel : Nat) (p : Parser) : Parser × Option Nat :=
  run fuel (.twigExpr 0) p

/-- Modelled from the spec: `parse_twig_var_statement` (spec 4.4, var). -/
def parse_twig_var_statement (fuel : Nat) (p : Parser) : Parser × Option Nat :=
  run fuel .twigVar p

/-- Loop of `root` (grammar.rs lines 15-27): try to parse an element; if
nothing could be parsed and input remains, wrap one token in an ERROR node
and continue; stop at end of input. -/
def rootLoop (elemFuel : Nat) : Nat → Parser → Parser
  | 0, p => p
  | fuel + 1, p =>
      let (p1, r) := run elemFuel .anyElement p
      match r with
      | some _ => rootLoop elemFuel fuel p1
      | none =>
          if !p1.atEnd then
            -- at least consume unparseable input
            let p2 := ((p1.start).bump).complete ERROR
            rootLoop elemFuel fuel p2
          else p1

/-- Translated from grammar.rs: `root`. -/
def root (p : Parser) : Parser :=
  let p := p.start
  let p := rootLoop (p.tokens.length + 1) (p.tokens.length + 1 - p.pos) p
  p.complete ROOT

/-- The initial parser session over a token stream. -/
def Parser.init (toks : List Token) : Parser := ⟨toks, 0, [[]], [], false⟩

/-- The parse result (spec section 6): the tree plus the diagnostics. -/
structure ParseResult where
  tree : Tree
  errors : List Diagnostic
  deriving Repr

/-- Modelled from the spec: the tree builder finishes the ROOT node by
attaching the tokens remaining after `root` (trailing trivia) as its last
children (spec sections 3 and 4.5; the source expect-tests show trailing
trivia as direct ROOT leaves). -/
def finishTree (p : Parser) : Tree :=
  match p.stack with
  | [[Tree.node k children]] =>
      Tree.node k (children ++ (p.tokens.drop p.pos).map Tree.leaf)
  | _ => Tree.node ERROR []

/-- Run `root` over a token stream. -/
def parseTokens (toks : List Token) : Parser := root (Parser.init toks)

/-- The public entry point `parse(source)` (spec section 6):
lex, run `root`, build the tree. -/
def parse (source : String) : ParseResult :=
  let p := parseTokens (lex source.toList)
  ⟨finishTree p, p.errors⟩

end Ludtwig


namespace Ludtwig

open SyntaxKind

/-! ## Phase A: losslessness bookkeeping

`Ext p q` says that `q` is reachable from `p` by parser steps that only
append to the innermost open frame: tokens unchanged, cursor monotone,
panic flag unchanged, and the appended children cover exactly the
characters of the consumed token range. -/

/-- Characters of the token range `[a, b)`. -/
def sliceChars (toks : List Token) (a b : Nat) : List Char :=
  ((toks.drop a).take (b - a)).flatMap Token.text

theorem sliceChars_refl (toks : List Token) (a : Nat) : sliceChars toks a a = [] := by
  simp [sliceChars]

theorem sliceChars_append {a b c : Nat} (toks : List Token) (hab : a ≤ b) (hbc : b ≤ c) :
    sliceChars toks a b ++ sliceChars toks b c = sliceChars toks a c := by
  unfold sliceChars
  rw [← List.flatMap_append]
  congr 1
  have hdrop : toks.drop b = (toks.drop a).drop (b - a) := by
    rw [List.drop_drop]
    congr 1
    omega
  rw [hdrop, ← List.take_add]
  congr 1
  omega

theorem Tree.chars_node (k : SyntaxKind) (cs : List Tree) :
    (Tree.node k cs).chars = treesChars cs := by
  rw [Tree.chars, treesChars]
  simp

theorem treesChars_append (a b : List Tree) :
    treesChars (a ++ b) = treesChars a ++ treesChars b := by
  simp [treesChars]

theorem treesChars_nil : treesChars [] = [] := rfl

theorem treesChars_leaves (ts : List Token) :
    treesChars (ts.map Tree.leaf) = ts.flatMap Token.text := by
  induction ts with
  | nil => rfl
  | cons t ts ih => simp [treesChars, Tree.chars] at ih ⊢; exact ih

theorem treesChars_single_node (k : SyntaxKind) (cs : List Tree) :
    treesChars [Tree.node k cs] = treesChars cs := by
  simp [treesChars, Tree.chars_node]

/-- The next-non-trivia index never moves backwards. -/
theorem nextNonTrivia_ge (toks : List Token) (i : Nat) : i ≤ nextNonTrivia toks i := by
  rw [nextNonTrivia]
  split
  · split
    · have := nextNonTrivia_ge toks (i + 1)
      omega
    · exact le_refl i
  · exact le_refl i
termination_by toks.length - i

theorem nthNonTriviaIdx_ge (p : Parser) (n : Nat) : p.pos ≤ p.nthNonTriviaIdx n := by
  induction n with
  | zero => exact nextNonTrivia_ge _ _
  | succ n ih =>
      have := nextNonTrivia_ge p.tokens (p.nthNonTriviaIdx n + 1)
      simp only [Parser.nthNonTriviaIdx]
      omega

@[simp] theorem pushLeaves_tokens (p : Parser) (ts : List Token) :
    (p.pushLeaves ts).tokens = p.tokens := rfl

@[simp] theorem pushLeaves_pos (p : Parser) (ts : List Token) :
    (p.pushLeaves ts).pos = p.pos := rfl

@[simp] theorem pushLeaves_panicked (p : Parser) (ts : List Token) :
    (p.pushLeaves ts).panicked = p.panicked := rfl

@[simp] theorem pushLeaves_errors (p : Parser) (ts : List Token) :
    (p.pushLeaves ts).errors = p.errors := rfl

theorem framePush_cons (h : List Tree) (t : List (List Tree)) (ts : List Tree) :
    Parser.framePush (h :: t) ts = (h ++ ts) :: t := rfl

/-- One parser step that only appends to the innermost open frame. -/
structure Ext (p q : Parser) : Prop where
  tokens_eq : q.tokens = p.tokens
  pos_le : p.pos ≤ q.pos
  panicked_eq : q.panicked = p.panicked
  frames : ∀ h t, p.stack = h :: t → ∃ Δ, q.stack = (h ++ Δ) :: t ∧
      treesChars Δ = sliceChars p.tokens p.pos q.pos

theorem Ext.refl (p : Parser) : Ext p p :=
  ⟨rfl, le_refl _, rfl, fun h t hs =>
    ⟨[], by rw [hs, List.append_nil], by rw [treesChars_nil, sliceChars_refl]⟩⟩

theorem Ext.of_eq {p q : Parser} (h : q = p) : Ext p q := h ▸ Ext.refl p

theorem Ext.trans {p q r : Parser} (h1 : Ext p q) (h2 : Ext q r) : Ext p r := by
  refine ⟨h2.tokens_eq.trans h1.tokens_eq, le_trans h1.pos_le h2.pos_le,
    h2.panicked_eq.trans h1.panicked_eq, ?_⟩
  intro h t hs
  obtain ⟨d1, hq, hc1⟩ := h1.frames h t hs
  obtain ⟨d2, hr, hc2⟩ := h2.frames (h ++ d1) t hq
  refine ⟨d1 ++ d2, by simpa [List.append_assoc] using hr, ?_⟩
  rw [treesChars_append, hc1, hc2, h1.tokens_eq]
  exact sliceChars_append p.tokens h1.pos_le h2.pos_le

/-- Changing only the error list is an `Ext` step. -/
theorem ext_addError (p : Parser) (e : Expectation) : Ext p (p.addError e) :=
  ⟨rfl, le_refl _, rfl, fun h t hs =>
    ⟨[], by simp [Parser.addError, hs],
      by simp [Parser.addError, treesChars_nil, sliceChars_refl]⟩⟩

theorem ext_addErrorAt (p : Parser) (e : Expectation) (tok : Token) :
    Ext p (p.addErrorAt e tok) :=
  ⟨rfl, le_refl _, rfl, fun h t hs =>
    ⟨[], by simp [Parser.addErrorAt, hs],
      by simp [Parser.addErrorAt, treesChars_nil, sliceChars_refl]⟩⟩

/-- Characters of the pending trivia plus the token at the cursor. -/
theorem slice_pending_token {p : Parser} {t : Token}
    (hget : p.tokens.get? (nextNonTrivia p.tokens p.pos) = some t) :
    (p.pendingTrivia ++ [t]).flatMap Token.text =
      sliceChars p.tokens p.pos (nextNonTrivia p.tokens p.pos + 1) := by
  have hge := nextNonTrivia_ge p.tokens p.pos
  rw [List.get?_eq_getElem?] at hget
  unfold Parser.pendingTrivia sliceChars
  have hidx : (p.tokens.drop p.pos)[nextNonTrivia p.tokens p.pos - p.pos]? = some t := by
    rw [List.getElem?_drop]
    have heq : p.pos + (nextNonTrivia p.tokens p.pos - p.pos) =
        nextNonTrivia p.tokens p.pos := by omega
    rw [heq]
    exact hget
  have hn : nextNonTrivia p.tokens p.pos + 1 - p.pos =
      (nextNonTrivia p.tokens p.pos - p.pos) + 1 := by omega
  rw [hn, List.take_succ, hidx]
  simp

theorem ext_bump (p : Parser) : Ext p p.bump := by
  unfold Parser.bump
  cases hget : p.tokens.get? (nextNonTrivia p.tokens p.pos) with
  | none => exact Ext.refl p
  | some t =>
      have hge := nextNonTrivia_ge p.tokens p.pos
      refine ⟨rfl, by simp; omega, rfl, ?_⟩
      intro h tl hs
      refine ⟨(p.pendingTrivia ++ [t]).map Tree.leaf, ?_, ?_⟩
      · simp only [Parser.pushLeaves, hs]
        rfl
      · rw [treesChars_leaves]
        exact slice_pending_token hget

theorem ext_bumpAs (p : Parser) (k : SyntaxKind) : Ext p (p.bumpAs k) := by
  unfold Parser.bumpAs
  cases hget : p.tokens.get? (nextNonTrivia p.tokens p.pos) with
  | none => exact Ext.refl p
  | some t =>
      have hge := nextNonTrivia_ge p.tokens p.pos
      refine ⟨rfl, by simp; omega, rfl, ?_⟩
      intro h tl hs
      refine ⟨(p.pendingTrivia ++ [{ t with kind := k }]).map Tree.leaf, ?_, ?_⟩
      · simp only [Parser.pushLeaves, hs]
        rfl
      · rw [treesChars_leaves]
        have h1 := slice_pending_token hget
        simp only [List.flatMap_append, List.flatMap_cons, List.flatMap_nil] at h1 ⊢
        simpa using h1

theorem ext_explicitlyConsumeTrivia (p : Parser) : Ext p p.explicitlyConsumeTrivia := by
  unfold Parser.explicitlyConsumeTrivia
  have hge := nextNonTrivia_ge p.tokens p.pos
  refine ⟨rfl, by simp; omega, rfl, ?_⟩
  intro h tl hs
  refine ⟨p.pendingTrivia.map Tree.leaf, ?_, ?_⟩
  · simp only [Parser.pushLeaves, hs]
    rfl
  · rw [treesChars_leaves]
    simp [Parser.pendingTrivia, sliceChars]

theorem nthNonTriviaIdx_zero (p : Parser) :
    p.nthNonTriviaIdx 0 = nextNonTrivia p.tokens p.pos := rfl

theorem nthNonTriviaIdx_mono (p : Parser) (n : Nat) :
    p.nthNonTriviaIdx 0 ≤ p.nthNonTriviaIdx n := by
  induction n with
  | zero => exact le_refl _
  | succ j ih =>
      have h1 : p.nthNonTriviaIdx j + 1 ≤ p.nthNonTriviaIdx (j + 1) := by
        simp only [Parser.nthNonTriviaIdx]
        exact nextNonTrivia_ge _ _
      omega

theorem ext_bumpNextNAs (p : Parser) (n : Nat) (k : SyntaxKind) :
    Ext p (p.bumpNextNAs n k) := by
  unfold Parser.bumpNextNAs
  have hge := nextNonTrivia_ge p.tokens p.pos
  have hj : nextNonTrivia p.tokens p.pos ≤ p.nthNonTriviaIdx (n - 1) + 1 := by
    have := nthNonTriviaIdx_mono p (n - 1)
    rw [nthNonTriviaIdx_zero] at this
    omega
  cases hm : p.mergedSlice n with
  | nil => exact Ext.refl p
  | cons m0 ms =>
      refine ⟨rfl, by simp; omega, rfl, ?_⟩
      intro h tl hs
      refine ⟨(p.pendingTrivia ++
        [Token.mk k ((m0 :: ms).flatMap Token.text)]).map Tree.leaf, ?_, ?_⟩
      · simp only [Parser.pushLeaves, hs]
        rfl
      · rw [treesChars_leaves]
        simp only [List.flatMap_append, List.flatMap_cons, List.flatMap_nil,
          List.append_nil]
        have h1 : (p.pendingTrivia).flatMap Token.text =
            sliceChars p.tokens p.pos (nextNonTrivia p.tokens p.pos) := by
          simp [Parser.pendingTrivia, sliceChars]
        have h2 : (m0 :: ms).flatMap Token.text =
            sliceChars p.tokens (nextNonTrivia p.tokens p.pos)
              (p.nthNonTriviaIdx (n - 1) + 1) := by
          rw [← hm]
          simp [Parser.mergedSlice, sliceChars]
        rw [h1]
        simp only [List.flatMap_cons] at h2
        rw [h2]
        exact sliceChars_append p.tokens hge hj

/-- Wrapping lemma: a sequence of steps performed inside a freshly started
node, then completed, is an `Ext` step of the enclosing state. -/
theorem ext_wrap {p q : Parser} (k : SyntaxKind) (hx : Ext p.start q) :
    Ext p (q.complete k) := by
  refine ⟨hx.tokens_eq, hx.pos_le, hx.panicked_eq, ?_⟩
  intro h t hs
  obtain ⟨d, hq, hc⟩ := hx.frames [] (h :: t) (by simp [Parser.start, hs])
  refine ⟨[Tree.node k d], ?_, ?_⟩
  · simp only [Parser.complete, hq]
    rfl
  · rw [treesChars_single_node, hc]
    rfl

theorem completeM_fst (p : Parser) (k : SyntaxKind) :
    (p.completeM k).1 = p.complete k := rfl

theorem ext_wrapM {p q : Parser} (k : SyntaxKind) (hx : Ext p.start q) :
    Ext p (q.completeM k).1 := by
  rw [completeM_fst]
  exact ext_wrap k hx

/-- `expect` is an `Ext` step. -/
theorem ext_expect (p : Parser) (k : SyntaxKind) (extras : List SyntaxKind) :
    Ext p (p.expect k extras) := by
  unfold Parser.expect
  dsimp only
  split
  · exact ext_bump p
  · split
    · exact ext_addError p _
    · exact Ext.trans (ext_addError p _) (ext_wrap ERROR (ext_bump _))

theorem ext_recoverLoop (untilSet : List SyntaxKind) (fuel : Nat) (p : Parser) :
    Ext p (Parser.recoverLoop untilSet fuel p) := by
  induction fuel generalizing p with
  | zero => exact Ext.refl p
  | succ fuel ih =>
      rw [Parser.recoverLoop]
      split
      · exact Ext.refl p
      · exact Ext.trans (ext_bump p) (ih p.bump)

/-- `recover` is an `Ext` step. -/
theorem ext_recover (p : Parser) (untilSet : List SyntaxKind) :
    Ext p (p.recover untilSet) := by
  unfold Parser.recover
  split
  · exact Ext.refl p
  · exact ext_wrap ERROR (ext_recoverLoop untilSet _ _)

/-- `parse_many` preserves `Ext` when its loop body does. -/
theorem ext_parse_many (fuel : Nat) (untilF : Parser → Bool) (oneF : Parser → Parser)
    (hone : ∀ q, Ext q (oneF q)) (p : Parser) :
    Ext p (parse_many fuel untilF oneF p) := by
  induction fuel generalizing p with
  | zero => exact Ext.refl p
  | succ fuel ih =>
      rw [parse_many]
      dsimp only
      split
      · exact Ext.refl p
      · split
        · exact hone p
        · exact Ext.trans (hone p) (ih (oneF p))

end Ludtwig

namespace Ludtwig

open SyntaxKind

/-! ## Phase B: the grammar-wide step bundle -/

/-- Length of the innermost open frame. -/
def frameLen (p : Parser) : Nat := (p.stack.headD []).length

theorem frameLen_of {p : Parser} {h : List Tree} {t : List (List Tree)}
    (hs : p.stack = h :: t) : frameLen p = h.length := by
  simp [frameLen, hs]

/-- Like `Ext`, but for the wrapping postfix parsers: everything of the
innermost frame from index `i` on (the completed node the marker points
at, plus whatever was appended after it) may be re-wrapped; the frame
prefix below `i` and the outer frames are untouched, and no characters are
lost. -/
structure ExtFrom (i : Nat) (p q : Parser) : Prop where
  tokens_eq : q.tokens = p.tokens
  pos_le : p.pos ≤ q.pos
  panicked_eq : q.panicked = p.panicked
  frames : ∀ h t, p.stack = h :: t → i < h.length →
      ∃ Δ, q.stack = (h.take i ++ Δ) :: t ∧ Δ ≠ [] ∧
        treesChars Δ = treesChars (h.drop i) ++ sliceChars p.tokens p.pos q.pos

theorem extFrom_refl (i : Nat) (p : Parser) : ExtFrom i p p := by
  refine ⟨rfl, le_refl _, rfl, ?_⟩
  intro h t hs hi
  refine ⟨h.drop i, by rw [hs, List.take_append_drop], ?_, ?_⟩
  · intro hnil
    have := List.length_drop i h
    rw [hnil] at this
    simp at this
    omega
  · rw [sliceChars_refl, List.append_nil]

theorem extFrom_trans {i : Nat} {p q r : Parser}
    (h1 : ExtFrom i p q) (h2 : ExtFrom i q r) : ExtFrom i p r := by
  refine ⟨h2.tokens_eq.trans h1.tokens_eq, le_trans h1.pos_le h2.pos_le,
    h2.panicked_eq.trans h1.panicked_eq, ?_⟩
  intro h t hs hi
  obtain ⟨d1, hq, hne1, hc1⟩ := h1.frames h t hs hi
  have hlen : (h.take i).length = i := by
    rw [List.length_take]
    omega
  have hi2 : i < (h.take i ++ d1).length := by
    rw [List.length_append, hlen]
    cases d1 with
    | nil => exact absurd rfl hne1
    | cons a l => simp only [List.length_cons]; omega
  obtain ⟨d2, hr, hne2, hc2⟩ := h2.frames (h.take i ++ d1) t hq hi2
  have htake : (h.take i ++ d1).take i = h.take i := by
    rw [List.take_append_eq_append_take, hlen]
    simp [List.take_take]
  have hdrop : (h.take i ++ d1).drop i = d1 := by
    rw [List.drop_append_eq_append_drop, hlen]
    simp
  refine ⟨d2, by rw [hr, htake], hne2, ?_⟩
  rw [hc2, hdrop, hc1, h1.tokens_eq, List.append_assoc]
  congr 1
  exact sliceChars_append p.tokens h1.pos_le h2.pos_le

/-- Every frame-appending step is in particular an anchored step. -/
theorem Ext.toFrom {p q : Parser} (i : Nat) (hx : Ext p q) : ExtFrom i p q := by
  refine ⟨hx.tokens_eq, hx.pos_le, hx.panicked_eq, ?_⟩
  intro h t hs hi
  obtain ⟨d, hq, hc⟩ := hx.frames h t hs
  refine ⟨h.drop i ++ d, ?_, ?_, ?_⟩
  · rw [hq, ← List.append_assoc, List.take_append_drop]
  · intro hnil
    have h1 : (h.drop i).length = 0 := by
      have := congrArg List.length hnil
      simp at this
      simp [this]
    rw [List.length_drop] at h1
    omega
  · rw [treesChars_append, hc]

/-- A `precede i` / steps / `complete` sequence is an anchored step. -/
theorem extFrom_wrap {p q : Parser} (i : Nat) (k : SyntaxKind)
    (hx : Ext (p.precede i) q) : ExtFrom i p (q.complete k) := by
  have htok : (p.precede i).tokens = p.tokens := rfl
  refine ⟨hx.tokens_eq.trans htok, hx.pos_le, hx.panicked_eq, ?_⟩
  intro h t hs hi
  obtain ⟨d, hq, hc⟩ := hx.frames (h.drop i) (h.take i :: t)
    (by simp [Parser.precede, hs, Parser.framePrecede])
  refine ⟨[Tree.node k (h.drop i ++ d)], ?_, by simp, ?_⟩
  · simp only [Parser.complete, hq]
    rfl
  · rw [treesChars_single_node, treesChars_append, hc]
    rfl

/-- Composing a frame-appending step producing a marker with an anchored
step at that marker. -/
theorem Ext.trans_anchored {p q r : Parser} {m : Nat}
    (h1 : Ext p q) (h2 : ExtFrom m q r)
    (hb : ∀ h t, p.stack = h :: t → h.length ≤ m ∧ m < frameLen q) :
    Ext p r ∧ ∀ h t, p.stack = h :: t → h.length ≤ m ∧ m < frameLen r := by
  constructor
  · refine ⟨h2.tokens_eq.trans h1.tokens_eq, le_trans h1.pos_le h2.pos_le,
      h2.panicked_eq.trans h1.panicked_eq, ?_⟩
    intro h t hs
    obtain ⟨d1, hq, hc1⟩ := h1.frames h t hs
    obtain ⟨hm1, hm2⟩ := hb h t hs
    rw [frameLen_of hq] at hm2
    rw [List.length_append] at hm2
    obtain ⟨d2, hr, hne2, hc2⟩ := h2.frames (h ++ d1) t hq
      (by rw [List.length_append]; exact hm2)
    have htake : (h ++ d1).take m = h ++ d1.take (m - h.length) := by
      rw [List.take_append_eq_append_take, List.take_of_length_le (by omega)]
    have hdrop : (h ++ d1).drop m = d1.drop (m - h.length) := by
      rw [List.drop_append_eq_append_drop, List.drop_eq_nil_of_le (by omega)]
      simp
    refine ⟨d1.take (m - h.length) ++ d2, by rw [hr, htake, List.append_assoc], ?_⟩
    rw [treesChars_append, hc2, hdrop]
    rw [← List.append_assoc, ← treesChars_append, List.take_append_drop, hc1,
      h1.tokens_eq]
    exact sliceChars_append p.tokens h1.pos_le h2.pos_le
  · intro h t hs
    obtain ⟨d1, hq, hc1⟩ := h1.frames h t hs
    obtain ⟨hm1, hm2⟩ := hb h t hs
    rw [frameLen_of hq] at hm2
    obtain ⟨d2, hr, hne2, hc2⟩ := h2.frames (h ++ d1) t hq
      (by rw [List.length_append] at hm2 ⊢; exact hm2)
    refine ⟨hm1, ?_⟩
    rw [List.length_append] at hm2
    rw [frameLen_of hr, List.length_append, List.length_take,
      Nat.min_eq_left (by rw [List.length_append]; omega)]
    cases d2 with
    | nil => exact absurd rfl hne2
    | cons a l =>
        simp only [List.length_cons]
        omega

/-- The bundle proved for every grammar function: a frame-appending step
whose returned marker (if any) points at a node appended to the entry
frame. -/
@[reducible] def ExtP (p : Parser) (out : Parser × Option Nat) : Prop :=
  Ext p out.1 ∧
  ∀ m, out.2 = some m → ∀ h t, p.stack = h :: t →
    h.length ≤ m ∧ m < frameLen out.1

/-- The statement proved for `run fuel which`. -/
@[reducible] def RunOut (which : Fn) (p : Parser) (out : Parser × Option Nat) : Prop :=
  match Fn.anchor which with
  | some i => ExtFrom i p out.1 ∧ out.2 = some i
  | none => ExtP p out

/-- `completeM` after steps inside a started node: the produced marker is
the entry frame length. -/
theorem wrapM_spec {p q : Parser} (k : SyntaxKind) (hx : Ext p.start q) :
    Ext p (q.completeM k).1 ∧
    ∀ h t, p.stack = h :: t →
      (q.completeM k).2 = h.length ∧ frameLen (q.completeM k).1 = h.length + 1 := by
  constructor
  · exact ext_wrapM k hx
  · intro h t hs
    obtain ⟨d, hq, hc⟩ := hx.frames [] (h :: t) (by simp [Parser.start, hs])
    constructor
    · simp [Parser.completeM, hq, Parser.frameMarker]
    · have : (q.complete k).stack = (h ++ [Tree.node k d]) :: t := by
        simp only [Parser.complete, hq]
        rfl
      rw [completeM_fst, frameLen_of this]
      simp

/-- Package `wrapM_spec` as the bundle for a function returning the marker. -/
theorem extP_wrapM {p q : Parser} (k : SyntaxKind) (hx : Ext p.start q) :
    ExtP p ((q.completeM k).1, some (q.completeM k).2) := by
  obtain ⟨h1, h2⟩ := wrapM_spec k hx
  refine ⟨h1, ?_⟩
  intro m hm h t hs
  obtain ⟨hmm, hfl⟩ := h2 h t hs
  cases hm
  rw [hmm, hfl]
  omega

end Ludtwig

namespace Ludtwig

open SyntaxKind

/-! ## Bundle lemmas for the non-recursive grammar functions -/

theorem ExtP.none {p q : Parser} (hx : Ext p q) : ExtP p (q, none) :=
  ⟨hx, by intro m hm; cases hm⟩

theorem spec_parse_twig_number (p : Parser) :
    Ext p (parse_twig_number p).1 ∧
    ∀ h t, p.stack = h :: t → (parse_twig_number p).2 = h.length ∧
      frameLen (parse_twig_number p).1 = h.length + 1 := by
  unfold parse_twig_number
  exact wrapM_spec _ (ext_bump _)

theorem spec_parse_twig_null (p : Parser) :
    Ext p (parse_twig_null p).1 ∧
    ∀ h t, p.stack = h :: t → (parse_twig_null p).2 = h.length ∧
      frameLen (parse_twig_null p).1 = h.length + 1 := by
  unfold parse_twig_null
  exact wrapM_spec _ (ext_bump _)

theorem spec_parse_twig_boolean (p : Parser) :
    Ext p (parse_twig_boolean p).1 ∧
    ∀ h t, p.stack = h :: t → (parse_twig_boolean p).2 = h.length ∧
      frameLen (parse_twig_boolean p).1 = h.length + 1 := by
  unfold parse_twig_boolean
  exact wrapM_spec _ (ext_bump _)

theorem spec_parse_twig_name (p : Parser) : ExtP p (parse_twig_name p) := by
  unfold parse_twig_name
  dsimp only
  cases p.peekToken with
  | none => exact ExtP.none (Ext.refl p)
  | some tok =>
      dsimp only
      split
      · exact ExtP.none (Ext.refl p)
      · exact extP_wrapM _ (ext_bumpAs _ _)

theorem spec_parse_html_comment (p : Parser) :
    Ext p (parse_html_comment p).1 ∧
    ∀ h t, p.stack = h :: t → (parse_html_comment p).2 = h.length ∧
      frameLen (parse_html_comment p).1 = h.length + 1 := by
  unfold parse_html_comment parse_ludtwig_directive parse_plain_html_comment
  dsimp only
  split
  · exact wrapM_spec _
      (Ext.trans (ext_bump _) (Ext.trans (ext_bump _)
        (Ext.trans (ext_parse_many _ _ _ (fun q => ext_bump q) _) (ext_expect _ _ _))))
  · exact wrapM_spec _
      (Ext.trans (ext_bump _)
        (Ext.trans (ext_parse_many _ _ _ (fun q => ext_bump q) _) (ext_expect _ _ _)))

theorem spec_parse_twig_comment (p : Parser) :
    Ext p (parse_twig_comment p).1 ∧
    ∀ h t, p.stack = h :: t → (parse_twig_comment p).2 = h.length ∧
      frameLen (parse_twig_comment p).1 = h.length + 1 := by
  unfold parse_twig_comment parse_ludtwig_directive
  dsimp only
  split
  · exact wrapM_spec _
      (Ext.trans (ext_bump _) (Ext.trans (ext_bump _)
        (Ext.trans (ext_parse_many _ _ _ (fun q => ext_bump q) _) (ext_expect _ _ _))))
  · exact wrapM_spec _
      (Ext.trans (ext_bump _)
        (Ext.trans (ext_parse_many _ _ _ (fun q => ext_bump q) _) (ext_expect _ _ _)))

theorem spec_parse_html_doctype (p : Parser) :
    Ext p (parse_html_doctype p).1 ∧
    ∀ h t, p.stack = h :: t → (parse_html_doctype p).2 = h.length ∧
      frameLen (parse_html_doctype p).1 = h.length + 1 := by
  unfold parse_html_doctype
  exact wrapM_spec _
    (Ext.trans (ext_bump _) (Ext.trans (ext_expect _ _ _)
      (Ext.trans (ext_expect _ _ _) (ext_expect _ _ _))))

theorem spec_parse_html_text (p : Parser) : ExtP p (parse_html_text p) := by
  unfold parse_html_text
  dsimp only
  split
  · exact ExtP.none (Ext.refl p)
  · exact extP_wrapM _ (ext_parse_many _ _ _ (fun q => ext_bump q) _)

theorem ext_parse_html_attribute_value_closing (quoteKind : Option SyntaxKind)
    (p : Parser) : Ext p (parse_html_attribute_value_closing quoteKind p) := by
  unfold parse_html_attribute_value_closing
  cases quoteKind with
  | some qk => exact ext_expect _ _ _
  | none =>
      dsimp only
      split
      · refine ext_wrap ERROR ?_
        cases p.start.peekToken with
        | none =>
            dsimp only
            exact ext_bump _
        | some q =>
            dsimp only
            exact Ext.trans (ext_bump _) (ext_addErrorAt _ _ _)
      · exact Ext.refl p

theorem ext_parse_html_element_closing (tagName : List Char) (matching : Bool)
    (p : Parser) : Ext p (parse_html_element_closing tagName matching p) := by
  unfold parse_html_element_closing
  dsimp only
  refine ext_wrap HTML_ENDING_TAG ?_
  split
  · exact Ext.trans (ext_expect _ _ _) (Ext.trans (ext_expect _ _ _) (ext_expect _ _ _))
  · exact Ext.trans (ext_addError _ _) (ext_recover _ _)

end Ludtwig

namespace Ludtwig

open SyntaxKind

/-! ## Composition helpers for the grammar induction -/

theorem extP_wrapM' {p q : Parser} (k : SyntaxKind) (hx : Ext p.start q) :
    ExtP p (q.complete k, some (Parser.frameMarker q.stack)) := by
  have := extP_wrapM k hx
  simpa [Parser.completeM] using this

theorem ext_cond_addError {q : Parser} (b : Bool) (e : Expectation) :
    Ext q (if b then q.addError e else q) := by
  split
  · exact ext_addError q e
  · exact Ext.refl q

theorem ext_cond_bump {q : Parser} (b : Bool) :
    Ext q (if b then q.bump else q) := by
  split
  · exact ext_bump q
  · exact Ext.refl q

/-- Prefixing an `Ext` step onto a full bundle. -/
theorem ExtP.comp {p q : Parser} {out : Parser × Option Nat}
    (h1 : Ext p q) (h2 : ExtP q out) : ExtP p out := by
  refine ⟨Ext.trans h1 h2.1, ?_⟩
  intro m hm h t hs
  obtain ⟨d, hq, hc⟩ := h1.frames h t hs
  obtain ⟨hb1, hb2⟩ := h2.2 m hm (h ++ d) t hq
  rw [List.length_append] at hb1
  exact ⟨by omega, hb2⟩

/-- Bundle for the helpers returning `Parser × Nat` (always a marker). -/
theorem extP_of_pairNat {p : Parser} {out : Parser × Nat}
    (h : Ext p out.1 ∧ ∀ h' t, p.stack = h' :: t →
      out.2 = h'.length ∧ frameLen out.1 = h'.length + 1) :
    ExtP p (out.1, some out.2) := by
  refine ⟨h.1, ?_⟩
  intro m hm h' t hs
  cases hm
  obtain ⟨e1, e2⟩ := h.2 h' t hs
  rw [e1, e2]
  omega

/-- Anchored composition where the anchor is only known to coincide with
the marker on inhabited stacks. -/
theorem Ext.trans_anchored' {p q r : Parser} {m m' : Nat}
    (h1 : Ext p q) (h2 : ExtFrom m' q r)
    (hb : ∀ h t, p.stack = h :: t → h.length ≤ m ∧ m < frameLen q ∧ m' = m) :
    Ext p r ∧ ∀ h t, p.stack = h :: t → h.length ≤ m ∧ m < frameLen r := by
  by_cases hne : ∃ h0 t0, p.stack = h0 :: t0
  · obtain ⟨h0, t0, hstk⟩ := hne
    have hm : m' = m := (hb h0 t0 hstk).2.2
    subst hm
    exact Ext.trans_anchored h1 h2 (fun h t hs => ⟨(hb h t hs).1, (hb h t hs).2.1⟩)
  · constructor
    · exact ⟨h2.tokens_eq.trans h1.tokens_eq, le_trans h1.pos_le h2.pos_le,
        h2.panicked_eq.trans h1.panicked_eq,
        fun h t hs => (hne ⟨h, t, hs⟩).elim⟩
    · exact fun h t hs => (hne ⟨h, t, hs⟩).elim

/-- `precede m` followed by `complete` is an anchored step whose produced
marker is `m` on any stack where `m` is a valid frame index. -/
theorem precede_completeM_spec (x : Parser) (m : Nat) (k : SyntaxKind) :
    ExtFrom m x ((x.precede m).complete k) ∧
    ∀ h t, x.stack = h :: t → m ≤ h.length →
      Parser.frameMarker (x.precede m).stack = m ∧
      frameLen ((x.precede m).complete k) = m + 1 := by
  constructor
  · exact extFrom_wrap m k (Ext.refl _)
  · intro h t hs hm
    have hpre : (x.precede m).stack = (h.drop m) :: (h.take m) :: t := by
      simp [Parser.precede, hs, Parser.framePrecede]
    constructor
    · rw [hpre]
      simp [Parser.frameMarker]
      omega
    · have : ((x.precede m).complete k).stack =
          (h.take m ++ [Tree.node k (h.drop m)]) :: t := by
        simp only [Parser.complete, hpre]
        rfl
      rw [frameLen_of this]
      rw [List.length_append, List.length_take]
      simp
      omega

/-- Bundle accessors through generic `Fn` codes. -/
theorem runOut_ext {w : Fn} {q : Parser} {out : Parser × Option Nat}
    (ha : Fn.anchor w = none) (h : RunOut w q out) : Ext q out.1 := by
  unfold RunOut at h
  rw [ha] at h
  exact h.1

theorem anchor_childFn (c : ChildK) : Fn.anchor (childFn c) = none := by
  cases c <;> rfl

end Ludtwig

/-! ## Per-function bundle lemmas for the grammar interpreter -/


namespace Ludtwig

open SyntaxKind

/-- Choosing between two frame-appending steps from the same state. -/
theorem ext_pite {c : Prop} [Decidable c] {q x y : Parser}
    (h1 : Ext q x) (h2 : Ext q y) : Ext q (if c then x else y) := by
  split
  · exact h1
  · exact h2

theorem extP_pite {c : Prop} [Decidable c] {p : Parser} {o1 o2 : Parser × Option Nat}
    (h1 : ExtP p o1) (h2 : ExtP p o2) : ExtP p (if c then o1 else o2) := by
  split
  · exact h1
  · exact h2

/-- The branching lemma for the anchored (re-wrapping) functions. -/
theorem anch_pite {c : Prop} [Decidable c] {m : Nat} {p : Parser}
    {o1 o2 : Parser × Option Nat}
    (h1 : ExtFrom m p o1.1 ∧ o1.2 = some m)
    (h2 : ExtFrom m p o2.1 ∧ o2.2 = some m) :
    ExtFrom m p (if c then o1 else o2).1 ∧ (if c then o1 else o2).2 = some m := by
  split
  · exact h1
  · exact h2

/-- Branching over a parser-and-flag pair, looking only at the parser. -/
theorem ext_pite_fst {c : Prop} [Decidable c] {q : Parser} {x y : Parser × Bool}
    (h1 : Ext q x.1) (h2 : Ext q y.1) :
    Ext q ((if c then x else y) : Parser × Bool).1 := by
  split
  · exact h1
  · exact h2

/-- Splitting on the returned marker of a sub-parse: the `none` result is
passed through, the `some` result feeds a continuation that may rely on the
marker being valid. -/
theorem extP_opt_split {p : Parser} {out : Parser × Option Nat}
    {g : Nat → Parser × Option Nat}
    (hD : ExtP p out)
    (htail : ∀ m, out.2 = some m → ExtP p (out.1, some m) → ExtP p (g m)) :
    ExtP p (match out.2 with
            | none => (out.1, none)
            | some m => g m) := by
  cases hO : out.2 with
  | none => exact ExtP.none hD.1
  | some m =>
      refine htail m hO ⟨hD.1, ?_⟩
      intro mm hmm h t hs
      cases hmm
      exact hD.2 m hO h t hs

/-- Like `extP_opt_split`, with the arms in the other order. -/
theorem extP_opt_split2 {p : Parser} {out : Parser × Option Nat}
    {g : Nat → Parser × Option Nat}
    (hD : ExtP p out)
    (htail : ∀ m, out.2 = some m → ExtP p (out.1, some m) → ExtP p (g m)) :
    ExtP p (match out.2 with
            | some m => g m
            | none => (out.1, none)) := by
  cases hO : out.2 with
  | none => exact ExtP.none hD.1
  | some m =>
      refine htail m hO ⟨hD.1, ?_⟩
      intro mm hmm h t hs
      cases hmm
      exact hD.2 m hO h t hs

/-- Extending the parser after the marked node keeps the marker valid. -/
theorem ExtP.extend {p x y : Parser} {m : Nat}
    (h1 : ExtP p (x, some m)) (h2 : Ext x y) : ExtP p (y, some m) := by
  refine ⟨Ext.trans h1.1 h2, ?_⟩
  intro m' hm h t hs
  cases hm
  obtain ⟨hb1, hb2⟩ := h1.2 m rfl h t hs
  refine ⟨hb1, ?_⟩
  obtain ⟨d1, hx, _⟩ := h1.1.frames h t hs
  obtain ⟨d2, hy, _⟩ := h2.frames (h ++ d1) t hx
  rw [frameLen_of hx] at hb2
  rw [frameLen_of hy]
  simp only [List.length_append] at hb2 ⊢
  omega

/-- Re-wrapping the marked node: `precede` at the marker plus `completeM`
produces a fresh valid marker. -/
theorem extP_rewrap {p x : Parser} {m : Nat} (k : SyntaxKind)
    (h1 : ExtP p (x, some m)) :
    ExtP p ((x.precede m).complete k, some (Parser.frameMarker (x.precede m).stack)) := by
  obtain ⟨hff, _⟩ := precede_completeM_spec x m k
  obtain ⟨hE, hB⟩ := Ext.trans_anchored h1.1 hff (fun h t hs => h1.2 m rfl h t hs)
  refine ⟨hE, ?_⟩
  intro m' hm h t hs
  cases hm
  obtain ⟨d1, hx, _⟩ := h1.1.frames h t hs
  obtain ⟨hb1, hb2⟩ := h1.2 m rfl h t hs
  rw [frameLen_of hx] at hb2
  obtain ⟨hmk, hfl⟩ := (precede_completeM_spec x m k).2 (h ++ d1) t hx (by omega)
  rw [hmk, hfl]
  exact ⟨hb1, by omega⟩

/-- Feeding a valid marker into an anchored continuation. -/
theorem extP_run_tail {p y : Parser} {m2 : Nat} {out : Parser × Option Nat}
    (h1 : ExtP p (y, some m2))
    (h2 : ExtFrom m2 y out.1 ∧ out.2 = some m2) :
    ExtP p out := by
  obtain ⟨hE, hB⟩ := Ext.trans_anchored h1.1 h2.1 (fun h t hs => h1.2 m2 rfl h t hs)
  refine ⟨hE, ?_⟩
  intro m hm h t hs
  rw [h2.2] at hm
  cases hm
  exact hB h t hs

/-- The body of `.twigVar`, projection style. -/
theorem spec_twigVar (fuel : Nat) (ih : ∀ w q, RunOut w q (run fuel w q)) (p : Parser) :
    RunOut .twigVar p (run (fuel + 1) .twigVar p) := by
  show ExtP p _
  simp only [run, Parser.completeM]
  exact extP_wrapM' _ (Ext.trans (ext_bump _)
    (Ext.trans (ih (.twigExpr 0) (p.start.bump)).1
      (Ext.trans (ext_cond_addError _ _) (ext_expect _ _ _))))

end Ludtwig

namespace Ludtwig

open SyntaxKind

theorem spec_twigBlock (fuel : Nat) (ih : ∀ w q, RunOut w q (run fuel w q))
    (c : ChildK) (p : Parser) :
    RunOut (.twigBlock c) p (run (fuel + 1) (.twigBlock c) p) := by
  show ExtP p _
  simp only [run, Parser.completeM]
  exact extP_wrapM' _ (Ext.trans
    (ext_wrap _ (Ext.trans (ext_bump _) (Ext.trans (ext_bump _)
      (Ext.trans (ext_expect _ _ _) (ext_expect _ _ _)))))
    (Ext.trans
      (ext_wrap _ (ext_parse_many _ _ _
        (fun q => runOut_ext (anchor_childFn c) (ih (childFn c) q)) _))
      (ext_wrap _ (Ext.trans (ext_expect _ _ _)
        (Ext.trans (ext_expect _ _ _) (ext_expect _ _ _))))))

theorem spec_twigIf (fuel : Nat) (ih : ∀ w q, RunOut w q (run fuel w q))
    (c : ChildK) (p : Parser) :
    RunOut (.twigIf c) p (run (fuel + 1) (.twigIf c) p) := by
  show ExtP p _
  simp only [run, Parser.completeM]
  exact extP_wrapM' _ (Ext.trans
    (ext_wrap _ (Ext.trans (ext_bump _) (Ext.trans (ext_bump _)
      (Ext.trans (ih (.twigExpr 0) _).1
        (Ext.trans (ext_cond_addError _ _) (ext_expect _ _ _))))))
    (Ext.trans
      (ext_wrap _ (ext_parse_many _ _ _
        (fun q => runOut_ext (anchor_childFn c) (ih (childFn c) q)) _))
      (Ext.trans (ih (.twigIfTail c) _).1
        (ext_wrap _ (Ext.trans (ext_expect _ _ _)
          (Ext.trans (ext_expect _ _ _) (ext_expect _ _ _)))))))

theorem spec_twigIfTail (fuel : Nat) (ih : ∀ w q, RunOut w q (run fuel w q))
    (c : ChildK) (p : Parser) :
    RunOut (.twigIfTail c) p (run (fuel + 1) (.twigIfTail c) p) := by
  show ExtP p _
  simp only [run, Parser.completeM]
  refine extP_pite ?_ (extP_pite ?_ (ExtP.none (Ext.refl p)))
  · exact ExtP.comp (Ext.trans
      (ext_wrap _ (Ext.trans (ext_bump _) (Ext.trans (ext_bump _)
        (Ext.trans (ih (.twigExpr 0) _).1
          (Ext.trans (ext_cond_addError _ _) (ext_expect _ _ _))))))
      (ext_wrap _ (ext_parse_many _ _ _
        (fun q => runOut_ext (anchor_childFn c) (ih (childFn c) q)) _)))
      (ih (.twigIfTail c) _)
  · exact ExtP.comp (Ext.trans
      (ext_wrap _ (Ext.trans (ext_bump _) (Ext.trans (ext_bump _) (ext_expect _ _ _))))
      (ext_wrap _ (ext_parse_many _ _ _
        (fun q => runOut_ext (anchor_childFn c) (ih (childFn c) q)) _)))
      (ih (.twigIfTail c) _)

theorem spec_twigFor (fuel : Nat) (ih : ∀ w q, RunOut w q (run fuel w q))
    (c : ChildK) (p : Parser) :
    RunOut (.twigFor c) p (run (fuel + 1) (.twigFor c) p) := by
  show ExtP p _
  simp only [run, Parser.completeM]
  exact extP_wrapM' _ (Ext.trans
    (ext_wrap _ (Ext.trans (ext_bump _) (Ext.trans (ext_bump _)
      (Ext.trans (ext_expect _ _ _) (Ext.trans (ext_expect _ _ _)
        (Ext.trans (ih (.twigExpr 0) _).1
          (Ext.trans (ext_cond_addError _ _) (ext_expect _ _ _))))))))
    (Ext.trans
      (ext_wrap _ (ext_parse_many _ _ _
        (fun q => runOut_ext (anchor_childFn c) (ih (childFn c) q)) _))
      (ext_wrap _ (Ext.trans (ext_expect _ _ _)
        (Ext.trans (ext_expect _ _ _) (ext_expect _ _ _))))))

theorem spec_anyTwig (fuel : Nat) (ih : ∀ w q, RunOut w q (run fuel w q))
    (c : ChildK) (p : Parser) :
    RunOut (.anyTwig c) p (run (fuel + 1) (.anyTwig c) p) := by
  show ExtP p _
  simp only [run, Parser.completeM]
  refine extP_pite ?_ (extP_pite (ih .twigVar p)
    (extP_pite (extP_of_pairNat (spec_parse_twig_comment p)) (ExtP.none (Ext.refl p))))
  refine extP_pite (ih (.twigBlock c) p) (extP_pite (ih (.twigIf c) p)
    (extP_pite (ih (.twigFor c) p) ?_))
  exact extP_wrapM' _ (Ext.trans (ext_bump _) (ext_addError _ _))

theorem spec_anyElement (fuel : Nat) (ih : ∀ w q, RunOut w q (run fuel w q))
    (p : Parser) :
    RunOut .anyElement p (run (fuel + 1) .anyElement p) := by
  show ExtP p _
  simp only [run, Parser.completeM]
  cases hE : run fuel (.anyTwig .anyElement) p with
  | mk p1 r =>
      have h1 : ExtP p (p1, r) := by
        rw [← hE]
        exact ih (.anyTwig .anyElement) p
      cases r with
      | some m => exact h1
      | none => exact ExtP.comp h1.1 (ih .anyHtml p1)

theorem spec_anyHtml (fuel : Nat) (ih : ∀ w q, RunOut w q (run fuel w q))
    (p : Parser) :
    RunOut .anyHtml p (run (fuel + 1) .anyHtml p) := by
  show ExtP p _
  simp only [run, Parser.completeM]
  exact extP_pite (ih .htmlElement p)
    (extP_pite (extP_of_pairNat (spec_parse_html_comment p))
      (extP_pite (extP_of_pairNat (spec_parse_html_doctype p)) (spec_parse_html_text p)))

theorem spec_avsInner (fuel : Nat) (ih : ∀ w q, RunOut w q (run fuel w q))
    (qk : Option SyntaxKind) (p : Parser) :
    RunOut (.avsInner qk) p (run (fuel + 1) (.avsInner qk) p) := by
  show ExtP p _
  simp only [run, Parser.completeM]
  cases qk with
  | some q =>
      exact ExtP.none (ext_parse_many _ _ _
        (fun r => (ih (.avsChild (if q == TK_DOUBLE_QUOTES then .avsInnerDouble
          else .avsInnerSingle)) r).1) p)
  | none =>
      exact extP_pite (ExtP.none (ext_bump p))
        (extP_pite (ExtP.none (ih .twigVar p).1)
          (ExtP.none (Ext.trans (ext_addError _ _) (ext_recover _ _))))

theorem spec_avsChild (fuel : Nat) (ih : ∀ w q, RunOut w q (run fuel w q))
    (c : ChildK) (p : Parser) :
    RunOut (.avsChild c) p (run (fuel + 1) (.avsChild c) p) := by
  show ExtP p _
  simp only [run, Parser.completeM]
  cases hE : run fuel (.anyTwig c) p with
  | mk p1 r =>
      have h1 : ExtP p (p1, r) := by
        rw [← hE]
        exact ih (.anyTwig c) p
      cases r with
      | some m => exact h1
      | none =>
          exact extP_pite (ExtP.none h1.1) (ExtP.none (Ext.trans h1.1 (ext_bump _)))

end Ludtwig

namespace Ludtwig

open SyntaxKind

/-! ## The remaining per-function bundles -/

theorem spec_twigExpr (fuel : Nat) (ih : ∀ w q, RunOut w q (run fuel w q))
    (minBp : Nat) (p : Parser) :
    RunOut (.twigExpr minBp) p (run (fuel + 1) (.twigExpr minBp) p) := by
  show ExtP p _
  simp only [run, Parser.completeM]
  refine extP_pite ?_ (extP_pite ?_ ?_)
  · exact extP_run_tail (extP_rewrap _ (extP_wrapM' _
      (Ext.trans (ext_bump _)
        (Ext.trans (ih (.twigExpr 300) _).1 (ext_cond_addError _ _)))))
      (ih (.twigExprTail minBp _) _)
  · exact extP_run_tail (extP_wrapM' _
      (Ext.trans (ext_bump _)
        (Ext.trans (ih (.twigExpr 0) _).1
          (Ext.trans (ext_cond_addError _ _) (ext_expect _ _ _)))))
      (ih (.twigExprTail minBp _) _)
  · refine extP_opt_split (ih .twigLiteral p) ?_
    intro m heq hm
    exact extP_run_tail (extP_rewrap _ hm) (ih (.twigExprTail minBp _) _)

theorem spec_twigExprTail (fuel : Nat) (ih : ∀ w q, RunOut w q (run fuel w q))
    (minBp m : Nat) (p : Parser) :
    RunOut (.twigExprTail minBp m) p (run (fuel + 1) (.twigExprTail minBp m) p) := by
  show ExtFrom m p (run (fuel + 1) (.twigExprTail minBp m) p).1 ∧
    (run (fuel + 1) (.twigExprTail minBp m) p).2 = some m
  simp only [run, Parser.completeM]
  split
  · exact ⟨extFrom_refl m p, rfl⟩
  · refine anch_pite ⟨extFrom_refl m p, rfl⟩ ?_
    exact ⟨extFrom_trans (extFrom_wrap m _ (Ext.trans (ext_bump _)
        (Ext.trans (ih (.twigExpr _) _).1 (ext_cond_addError _ _))))
      (extFrom_trans (precede_completeM_spec _ m _).1
        (ih (.twigExprTail minBp m) _).1),
      (ih (.twigExprTail minBp m) _).2⟩

theorem spec_twigLiteral (fuel : Nat) (ih : ∀ w q, RunOut w q (run fuel w q))
    (p : Parser) :
    RunOut .twigLiteral p (run (fuel + 1) .twigLiteral p) := by
  show ExtP p _
  simp only [run, Parser.completeM]
  refine extP_opt_split ?_ ?_
  · exact extP_pite (extP_of_pairNat (spec_parse_twig_number p))
      (extP_pite (ih (.twigString true) p)
        (extP_pite (ih .twigArray p)
          (extP_pite (extP_of_pairNat (spec_parse_twig_null p))
            (extP_pite (extP_of_pairNat (spec_parse_twig_boolean p))
              (extP_pite (ih .twigHash p) (ih .twigNamePostfix p))))))
  · intro m heq hm
    exact extP_run_tail hm (ih (.filterLoop m) _)

theorem spec_filterLoop (fuel : Nat) (ih : ∀ w q, RunOut w q (run fuel w q))
    (m : Nat) (p : Parser) :
    RunOut (.filterLoop m) p (run (fuel + 1) (.filterLoop m) p) := by
  show ExtFrom m p (run (fuel + 1) (.filterLoop m) p).1 ∧
    (run (fuel + 1) (.filterLoop m) p).2 = some m
  simp only [run, Parser.completeM]
  refine anch_pite ?_ ⟨extFrom_refl m p, rfl⟩
  cases hE : run fuel (.twigFilter m) p with
  | mk p1 r =>
      have h1 : ExtFrom m p p1 ∧ r = some m := by
        have h0 := ih (.twigFilter m) p
        rw [hE] at h0
        exact h0
      obtain ⟨hf, rfl⟩ := h1
      exact ⟨extFrom_trans hf (ih (.filterLoop m) p1).1, (ih (.filterLoop m) p1).2⟩

theorem spec_postfixLoop (fuel : Nat) (ih : ∀ w q, RunOut w q (run fuel w q))
    (m : Nat) (p : Parser) :
    RunOut (.postfixLoop m) p (run (fuel + 1) (.postfixLoop m) p) := by
  show ExtFrom m p (run (fuel + 1) (.postfixLoop m) p).1 ∧
    (run (fuel + 1) (.postfixLoop m) p).2 = some m
  simp only [run, Parser.completeM]
  refine anch_pite ?_ (anch_pite ?_ (anch_pite ?_ ⟨extFrom_refl m p, rfl⟩))
  · cases hE : run fuel (.twigAccessor m) p with
    | mk p1 r =>
        have h1 : ExtFrom m p p1 ∧ r = some m := by
          have h0 := ih (.twigAccessor m) p
          rw [hE] at h0
          exact h0
        obtain ⟨hf, rfl⟩ := h1
        exact ⟨extFrom_trans hf (ih (.postfixLoop m) p1).1, (ih (.postfixLoop m) p1).2⟩
  · cases hE : run fuel (.twigIndexer m) p with
    | mk p1 r =>
        have h1 : ExtFrom m p p1 ∧ r = some m := by
          have h0 := ih (.twigIndexer m) p
          rw [hE] at h0
          exact h0
        obtain ⟨hf, rfl⟩ := h1
        exact ⟨extFrom_trans hf (ih (.postfixLoop m) p1).1, (ih (.postfixLoop m) p1).2⟩
  · cases hE : run fuel (.twigFunction m) p with
    | mk p1 r =>
        have h1 : ExtFrom m p p1 ∧ r = some m := by
          have h0 := ih (.twigFunction m) p
          rw [hE] at h0
          exact h0
        obtain ⟨hf, rfl⟩ := h1
        exact ⟨extFrom_trans hf (ih (.postfixLoop m) p1).1, (ih (.postfixLoop m) p1).2⟩

theorem spec_twigNamePostfix (fuel : Nat) (ih : ∀ w q, RunOut w q (run fuel w q))
    (p : Parser) :
    RunOut .twigNamePostfix p (run (fuel + 1) .twigNamePostfix p) := by
  show ExtP p _
  simp only [run, Parser.completeM]
  refine extP_opt_split (spec_parse_twig_name p) ?_
  intro m heq hm
  exact extP_run_tail hm (ih (.postfixLoop m) _)

theorem spec_twigString (fuel : Nat) (ih : ∀ w q, RunOut w q (run fuel w q))
    (interpolationAllowed : Bool) (p : Parser) :
    RunOut (.twigString interpolationAllowed) p
      (run (fuel + 1) (.twigString interpolationAllowed) p) := by
  show ExtP p _
  simp only [run, Parser.completeM]
  exact extP_wrapM' _ (Ext.trans (ext_bump _)
    (Ext.trans (ext_wrap _ (Ext.trans
      (ext_parse_many _ _ _ (fun q => (ih (.twigStringStep _ _) q).1) _)
      (ext_explicitlyConsumeTrivia _)))
      (ext_expect _ _ _)))

theorem spec_twigArray (fuel : Nat) (ih : ∀ w q, RunOut w q (run fuel w q))
    (p : Parser) :
    RunOut .twigArray p (run (fuel + 1) .twigArray p) := by
  show ExtP p _
  simp only [run, Parser.completeM]
  exact extP_wrapM' _ (Ext.trans (ext_bump _)
    (Ext.trans (ext_parse_many _ _ _
      (fun q => Ext.trans (ih (.twigExpr 0) q).1 (ext_cond_bump _)) _)
      (ext_expect _ _ _)))

theorem spec_twigHash (fuel : Nat) (ih : ∀ w q, RunOut w q (run fuel w q))
    (p : Parser) :
    RunOut .twigHash p (run (fuel + 1) .twigHash p) := by
  show ExtP p _
  simp only [run, Parser.completeM]
  exact extP_wrapM' _ (Ext.trans (ext_bump _)
    (Ext.trans (ext_parse_many _ _ _
      (fun q => Ext.trans (ih .twigHashPair q).1 (ext_cond_bump _)) _)
      (ext_expect _ _ _)))

theorem spec_twigFunctionArgument (fuel : Nat) (ih : ∀ w q, RunOut w q (run fuel w q))
    (p : Parser) :
    RunOut .twigFunctionArgument p (run (fuel + 1) .twigFunctionArgument p) := by
  show ExtP p _
  simp only [run, Parser.completeM]
  refine extP_pite ?_ (ih (.twigExpr 0) p)
  exact extP_wrapM' _ (Ext.trans (ext_bump _)
    (Ext.trans (ext_expect _ _ _) (ih (.twigExpr 0) _).1))

end Ludtwig

namespace Ludtwig

open SyntaxKind

/-- The starting-quote dispatch of `parse_html_attribute_value_string`:
whatever quote kind is recorded came from a `"` or `'` token. -/
theorem avs_quote_aux (q : Parser) :
    Ext q (if q.atSet [TK_DOUBLE_QUOTES, TK_SINGLE_QUOTES] then
        (q.bump, q.peekToken.map Token.kind) else (q, none)).1 ∧
    ∀ k, (if q.atSet [TK_DOUBLE_QUOTES, TK_SINGLE_QUOTES] then
        (q.bump, q.peekToken.map Token.kind) else (q, none)).2 = some k →
      k = TK_DOUBLE_QUOTES ∨ k = TK_SINGLE_QUOTES := by
  constructor
  · split
    · exact ext_bump q
    · exact Ext.refl q
  · intro k hk
    split at hk
    · rename_i hset
      simp only [Parser.atSet] at hset
      cases hO : q.peekToken with
      | none => rw [hO] at hset; cases hset
      | some t =>
          rw [hO] at hset hk
          simp only [Option.map] at hk
          cases hk
          simp only [List.contains_cons, List.contains_nil, Bool.or_eq_true,
            beq_iff_eq, Bool.or_false] at hset
          exact hset
    · cases hk

theorem spec_twigStringStep (fuel : Nat) (ih : ∀ w q, RunOut w q (run fuel w q))
    (quoteKind : SyntaxKind) (allowed : Bool) (p : Parser) :
    RunOut (.twigStringStep quoteKind allowed) p
      (run (fuel + 1) (.twigStringStep quoteKind allowed) p) := by
  show ExtP p _
  simp only [run, Parser.completeM]
  refine extP_pite (ExtP.none (Ext.trans (ext_bump _) (ext_bump _)))
    (extP_pite (extP_pite ?_ ?_) (ExtP.none (ext_bump _)))
  · refine ExtP.none ?_
    split
    · exact Ext.trans (ext_bump _) (ext_addErrorAt _ _ _)
    · exact ext_bump _
  · exact ExtP.none (Ext.trans (ext_explicitlyConsumeTrivia _)
      (ext_wrap _ (Ext.trans (ext_bump _)
        (Ext.trans (ih (.twigExpr 0) _).1
          (Ext.trans (ext_cond_addError _ _) (ext_expect _ _ _))))))

theorem spec_twigFilter (fuel : Nat) (ih : ∀ w q, RunOut w q (run fuel w q))
    (m : Nat) (p : Parser) :
    RunOut (.twigFilter m) p (run (fuel + 1) (.twigFilter m) p) := by
  show ExtFrom m p (run (fuel + 1) (.twigFilter m) p).1 ∧
    (run (fuel + 1) (.twigFilter m) p).2 = some m
  simp only [run, Parser.completeM]
  refine ⟨extFrom_trans (precede_completeM_spec p m TWIG_OPERAND).1
    (extFrom_wrap m _ (Ext.trans (ext_bump _) (ext_wrap _ ?_))), by trivial⟩
  split
  · exact Ext.trans (spec_parse_twig_name _).1 (ext_addError _ _)
  · exact Ext.trans (spec_parse_twig_name _).1
      (ext_pite (Ext.trans (ext_bump _)
        (Ext.trans (ext_wrap _ (ext_parse_many _ _ _
          (fun q => Ext.trans (ih .twigFunctionArgument q).1 (ext_cond_bump _)) _))
          (ext_expect _ _ _))) (Ext.refl _))

theorem spec_twigAccessor (fuel : Nat) (ih : ∀ w q, RunOut w q (run fuel w q))
    (m : Nat) (p : Parser) :
    RunOut (.twigAccessor m) p (run (fuel + 1) (.twigAccessor m) p) := by
  show ExtFrom m p (run (fuel + 1) (.twigAccessor m) p).1 ∧
    (run (fuel + 1) (.twigAccessor m) p).2 = some m
  simp only [run, Parser.completeM]
  exact ⟨extFrom_trans (precede_completeM_spec p m TWIG_OPERAND).1
    (extFrom_wrap m _ (Ext.trans (ext_bump _) (ext_wrap _
      (Ext.trans (spec_parse_twig_name _).1 (ext_cond_addError _ _))))), by trivial⟩

theorem spec_twigIndexer (fuel : Nat) (ih : ∀ w q, RunOut w q (run fuel w q))
    (m : Nat) (p : Parser) :
    RunOut (.twigIndexer m) p (run (fuel + 1) (.twigIndexer m) p) := by
  show ExtFrom m p (run (fuel + 1) (.twigIndexer m) p).1 ∧
    (run (fuel + 1) (.twigIndexer m) p).2 = some m
  simp only [run, Parser.completeM]
  exact ⟨extFrom_trans (precede_completeM_spec p m TWIG_OPERAND).1
    (extFrom_wrap m _ (Ext.trans (ext_bump _)
      (Ext.trans (ext_wrap _
        (Ext.trans (ext_cond_bump _)
          (Ext.trans (ih (.twigExpr 0) _).1
            (Ext.trans (ext_cond_addError _ _)
              (ext_pite (Ext.trans (ext_bump _)
                (Ext.trans (ih (.twigExpr 0) _).1 (ext_cond_addError _ _)))
                (Ext.refl _))))))
        (ext_expect _ _ _)))), by trivial⟩

theorem spec_twigFunction (fuel : Nat) (ih : ∀ w q, RunOut w q (run fuel w q))
    (m : Nat) (p : Parser) :
    RunOut (.twigFunction m) p (run (fuel + 1) (.twigFunction m) p) := by
  show ExtFrom m p (run (fuel + 1) (.twigFunction m) p).1 ∧
    (run (fuel + 1) (.twigFunction m) p).2 = some m
  simp only [run, Parser.completeM]
  exact ⟨extFrom_trans (precede_completeM_spec p m TWIG_OPERAND).1
    (extFrom_wrap m _ (Ext.trans (ext_bump _)
      (Ext.trans (ext_wrap _ (ext_parse_many _ _ _
        (fun q => Ext.trans (ih .twigFunctionArgument q).1 (ext_cond_bump _)) _))
        (ext_expect _ _ _)))), by trivial⟩

theorem spec_twigHashPair (fuel : Nat) (ih : ∀ w q, RunOut w q (run fuel w q))
    (p : Parser) :
    RunOut .twigHashPair p (run (fuel + 1) .twigHashPair p) := by
  show ExtP p _
  simp only [run, Parser.completeM]
  refine extP_opt_split ?_ ?_
  · refine extP_pite (extP_rewrap _ (extP_of_pairNat (spec_parse_twig_number p)))
      (extP_pite ?_ (extP_pite ?_ ?_))
    · exact extP_opt_split2 (ih (.twigString false) p)
        (fun mm heq hm => extP_rewrap _ hm)
    · exact extP_wrapM' _ (Ext.trans (ext_bump _)
        (Ext.trans (ih (.twigExpr 0) _).1
          (Ext.trans (ext_cond_addError _ _) (ext_expect _ _ _))))
    · split
      · exact ExtP.none (Ext.refl p)
      · exact extP_pite (extP_wrapM' _ (ext_bumpAs _ _)) (ExtP.none (Ext.refl p))
  · intro key heq hm
    exact extP_rewrap _ (ExtP.extend hm
      (ext_pite (Ext.trans (ext_bump _)
        (Ext.trans (ih (.twigExpr 0) _).1 (ext_cond_addError _ _)))
        (Ext.refl _)))

theorem spec_htmlElement (fuel : Nat) (ih : ∀ w q, RunOut w q (run fuel w q))
    (p : Parser) :
    RunOut .htmlElement p (run (fuel + 1) .htmlElement p) := by
  show ExtP p _
  simp only [run, Parser.completeM]
  refine extP_pite ?_ ?_
  · exact extP_wrapM' _ (ext_wrap _ (Ext.trans (ext_bump _)
      (Ext.trans (ext_pite (ext_bumpAs _ _)
        (Ext.trans (ext_addError _ _) (ext_recover _ _)))
        (Ext.trans (ext_wrap _ (ext_parse_many _ _ _
          (fun q => (ih .htmlAttributeOrTwig q).1) _))
          (ext_pite_fst (ext_bump _) (ext_expect _ _ _))))))
  · exact extP_wrapM' _ (Ext.trans (ext_wrap _ (Ext.trans (ext_bump _)
      (Ext.trans (ext_pite (ext_bumpAs _ _)
        (Ext.trans (ext_addError _ _) (ext_recover _ _)))
        (Ext.trans (ext_wrap _ (ext_parse_many _ _ _
          (fun q => (ih .htmlAttributeOrTwig q).1) _))
          (ext_pite_fst (ext_bump _) (ext_expect _ _ _))))))
      (Ext.trans (ext_wrap _ (ext_parse_many _ _ _
        (fun q => (ih .anyElement q).1) _))
        (ext_parse_html_element_closing _ _ _)))

theorem spec_htmlAttributeOrTwig (fuel : Nat) (ih : ∀ w q, RunOut w q (run fuel w q))
    (p : Parser) :
    RunOut .htmlAttributeOrTwig p (run (fuel + 1) .htmlAttributeOrTwig p) := by
  show ExtP p _
  simp only [run, Parser.completeM]
  split
  · exact ExtP.none (Ext.refl p)
  · split
    · exact ih (.anyTwig .htmlAttribute) p
    · rename_i p1 heqB
      split at heqB
      · injection heqB with h2
        subst h2
        exact extP_wrapM' _ (Ext.trans
          (ext_pite (ext_bumpNextNAs _ _ _) (ext_bumpAs _ _))
          (ext_pite (Ext.trans (ext_bump _) ((ih .avs _).1)) (Ext.refl _)))
      · split at heqB
        · injection heqB with h2
          subst h2
          exact extP_wrapM' _ (Ext.trans (ih .twigVar _).1
            (ext_pite (Ext.trans (ext_bump _) ((ih .avs _).1)) (Ext.refl _)))
        · exact Option.noConfusion heqB

theorem spec_avs (fuel : Nat) (ih : ∀ w q, RunOut w q (run fuel w q))
    (p : Parser) :
    RunOut .avs p (run (fuel + 1) .avs p) := by
  show ExtP p _
  simp only [run, Parser.completeM]
  have hq := avs_quote_aux p.start
  refine extP_wrapM' _ (Ext.trans hq.1 (Ext.trans (ext_wrap _ (Ext.trans ?_
    (ext_pite (ext_explicitlyConsumeTrivia _) (Ext.refl _))))
    (ext_parse_html_attribute_value_closing _ _)))
  split
  · split
    · exact (ih (.avsInner (some TK_DOUBLE_QUOTES)) _).1
    · exact (ih (.avsInner (some TK_SINGLE_QUOTES)) _).1
    · exact (ih (.avsInner none) _).1
    · rename_i hset qk val hne1 hne2 heq
      rcases hq.2 val (by rw [if_pos hset]; exact heq) with rfl | rfl
      · exact absurd rfl hne1
      · exact absurd rfl hne2
  · exact (ih (.avsInner none) _).1

/-- The master bundle: every grammar function is a frame-appending step
(or, for the anchored wrappers, a re-wrapping step at its anchor) that
never loses source characters and never flips the panic flag. -/
theorem run_spec : ∀ (fuel : Nat) (which : Fn) (p : Parser),
    RunOut which p (run fuel which p) := by
  intro fuel
  induction fuel with
  | zero =>
      intro which p
      show RunOut which p (p, Fn.anchor which)
      unfold RunOut
      cases Fn.anchor which with
      | some i => exact ⟨extFrom_refl i p, rfl⟩
      | none => exact ExtP.none (Ext.refl p)
  | succ fuel ih =>
      intro which p
      cases which with
      | anyElement => exact spec_anyElement fuel ih p
      | anyTwig c => exact spec_anyTwig fuel ih c p
      | twigBlock c => exact spec_twigBlock fuel ih c p
      | twigIf c => exact spec_twigIf fuel ih c p
      | twigIfTail c => exact spec_twigIfTail fuel ih c p
      | twigFor c => exact spec_twigFor fuel ih c p
      | twigVar => exact spec_twigVar fuel ih p
      | twigExpr minBp => exact spec_twigExpr fuel ih minBp p
      | twigExprTail minBp m => exact spec_twigExprTail fuel ih minBp m p
      | twigLiteral => exact spec_twigLiteral fuel ih p
      | filterLoop m => exact spec_filterLoop fuel ih m p
      | twigString a => exact spec_twigString fuel ih a p
      | twigStringStep qk a => exact spec_twigStringStep fuel ih qk a p
      | twigArray => exact spec_twigArray fuel ih p
      | twigHash => exact spec_twigHash fuel ih p
      | twigHashPair => exact spec_twigHashPair fuel ih p
      | twigNamePostfix => exact spec_twigNamePostfix fuel ih p
      | postfixLoop m => exact spec_postfixLoop fuel ih m p
      | twigFilter m => exact spec_twigFilter fuel ih m p
      | twigIndexer m => exact spec_twigIndexer fuel ih m p
      | twigAccessor m => exact spec_twigAccessor fuel ih m p
      | twigFunction m => exact spec_twigFunction fuel ih m p
      | twigFunctionArgument => exact spec_twigFunctionArgument fuel ih p
      | anyHtml => exact spec_anyHtml fuel ih p
      | htmlElement => exact spec_htmlElement fuel ih p
      | htmlAttributeOrTwig => exact spec_htmlAttributeOrTwig fuel ih p
      | avs => exact spec_avs fuel ih p
      | avsInner qk => exact spec_avsInner fuel ih qk p
      | avsChild c => exact spec_avsChild fuel ih c p

end Ludtwig

/-! ## Lexer losslessness -/


namespace Ludtwig

open SyntaxKind

/-- Dropping as many elements as `takeWhile` keeps leaves `dropWhile`. -/
theorem drop_length_takeWhile (l : List Char) (p : Char → Bool) :
    l.drop (l.takeWhile p).length = l.dropWhile p := by
  induction l with
  | nil => rfl
  | cons a as ih =>
      by_cases h : p a
      · simp [List.takeWhile_cons, List.dropWhile_cons, h, ih]
      · simp [List.takeWhile_cons, List.dropWhile_cons, h]

theorem takeWhile_drop_eq (l : List Char) (p : Char → Bool) :
    l.takeWhile p ++ l.drop (l.takeWhile p).length = l := by
  rw [drop_length_takeWhile]
  exact List.takeWhile_append_dropWhile p l

/-- A successful prefix strip splits the input. -/
theorem stripPrefixChars_spec (pat : List Char) :
    ∀ cs r, stripPrefixChars pat cs = some r → pat ++ r = cs := by
  induction pat with
  | nil =>
      intro cs r h
      simp only [stripPrefixChars] at h
      cases h
      rfl
  | cons a ps ih =>
      intro cs r h
      cases cs with
      | nil =>
          simp only [stripPrefixChars] at h
          cases h
      | cons c rest =>
          simp only [stripPrefixChars] at h
          split at h
          · rename_i hac
            subst hac
            have h2 := ih rest r h
            rw [List.cons_append, h2]
          · cases h

/-- The multiword keyword matcher covers its input. -/
theorem matchMultiwordKeyword_spec (cs : List Char) (t : Token) (r : List Char)
    (h : matchMultiwordKeyword cs = some (t, r)) :
    t.text ++ r = cs ∧ r.length < cs.length := by
  unfold matchMultiwordKeyword at h
  dsimp only at h
  split at h
  · rename_i pr h1
    cases h
    revert h1
    cases hS : stripPrefixChars "same as".toList cs with
    | none => intro h1; simp at h1
    | some rest =>
        intro h1
        have hc := stripPrefixChars_spec _ _ _ hS
        have hlen := congrArg List.length hc
        rw [List.length_append] at hlen
        have h7 : ("same as".toList).length = 7 := rfl
        dsimp only at h1
        split at h1
        · cases h1
          refine ⟨by simpa using hc, ?_⟩
          simp only [List.length_nil]
          simp only [List.length_nil] at hlen
          omega
        · split at h1
          · cases h1
          · cases h1
            exact ⟨hc, by omega⟩
  · rename_i h1
    revert h
    cases hS : stripPrefixChars "divisible by".toList cs with
    | none => intro h; simp at h
    | some rest =>
        intro h
        have hc := stripPrefixChars_spec _ _ _ hS
        have hlen := congrArg List.length hc
        rw [List.length_append] at hlen
        have h12 : ("divisible by".toList).length = 12 := rfl
        dsimp only at h
        split at h
        · cases h
          refine ⟨by simpa using hc, ?_⟩
          simp only [List.length_nil]
          simp only [List.length_nil] at hlen
          omega
        · split at h
          · cases h
          · cases h
            exact ⟨hc, by omega⟩

/-- The punctuation matcher covers its input. -/
theorem matchPunct_spec : ∀ (table : List (List Char × SyntaxKind)) (cs : List Char)
    (t : Token) (r : List Char),
    (∀ pk, pk ∈ table → pk.1 ≠ []) →
    matchPunct table cs = some (t, r) → t.text ++ r = cs ∧ r.length < cs.length := by
  intro table
  induction table with
  | nil =>
      intro cs t r hne h
      simp only [matchPunct] at h
      cases h
  | cons e es ih =>
      intro cs t r hne h
      cases e with
      | mk pat k =>
          simp only [matchPunct] at h
          revert h
          cases hS : stripPrefixChars pat cs with
          | some rest =>
              intro h
              cases h
              have hc := stripPrefixChars_spec _ _ _ hS
              refine ⟨hc, ?_⟩
              have hlen := congrArg List.length hc
              rw [List.length_append] at hlen
              have hp : pat ≠ [] := hne (pat, k) (by simp)
              have hpl : 0 < pat.length := List.length_pos.mpr hp
              omega
          | none =>
              intro h
              exact ih cs t r (fun pk hm => hne pk (by simp [hm])) h

end Ludtwig

namespace Ludtwig

open SyntaxKind

/-- Every lexer step covers the consumed characters exactly and leaves a
shorter remainder. -/
theorem lexStep_spec (c : Char) (rest : List Char) :
    (lexStep c rest).1.text ++ (lexStep c rest).2 = c :: rest ∧
    (lexStep c rest).2.length ≤ rest.length := by
  unfold lexStep
  split
  · rename_i hc
    subst hc
    split
    · exact ⟨rfl, by simp⟩
    · exact ⟨rfl, le_refl _⟩
  · split
    · rename_i hc
      subst hc
      exact ⟨rfl, le_refl _⟩
    · split
      · refine ⟨?_, ?_⟩
        · show (c :: rest.takeWhile _) ++ _ = _
          rw [List.cons_append, takeWhile_drop_eq]
        · exact (List.length_drop _ _).le.trans (Nat.sub_le _ _)
      · split
        · rename_i pr hM
          obtain ⟨hcov, hlt⟩ := matchMultiwordKeyword_spec (c :: rest) pr.1 pr.2 (by rw [hM])
          refine ⟨hcov, ?_⟩
          simp only [List.length_cons] at hlt
          omega
        · split
          · refine ⟨?_, ?_⟩
            · show (c :: rest.takeWhile _) ++ _ = _
              rw [List.cons_append, takeWhile_drop_eq]
            · exact (List.length_drop _ _).le.trans (Nat.sub_le _ _)
          · split
            · rename_i pr hP
              obtain ⟨hcov, hlt⟩ := matchPunct_spec punctTable (c :: rest) pr.1 pr.2
                (by decide) (by rw [hP])
              refine ⟨hcov, ?_⟩
              simp only [List.length_cons] at hlt
              omega
            · split
              · dsimp only
                split
                · rename_i d tl hAfter
                  split
                  · constructor
                    · show c :: (_ ++ '.' :: _) ++ _ = _
                      have h1 : rest.takeWhile Char.isDigit ++
                          rest.drop (rest.takeWhile Char.isDigit).length = rest :=
                        takeWhile_drop_eq rest Char.isDigit
                      have h7 : (rest.drop (rest.takeWhile Char.isDigit).length).drop 1
                          = d :: tl := by
                        rw [hAfter]
                        rfl
                      have h8 := takeWhile_drop_eq
                        ((rest.drop (rest.takeWhile Char.isDigit).length).drop 1)
                        Char.isDigit
                      rw [List.cons_append]
                      congr 1
                      rw [List.append_assoc, List.cons_append]
                      rw [h8, h7, ← hAfter]
                      exact h1
                    · have h2 := congrArg List.length (takeWhile_drop_eq rest Char.isDigit)
                      rw [List.length_append] at h2
                      rw [List.length_drop, List.length_drop]
                      omega
                  · refine ⟨?_, ?_⟩
                    · show c :: rest.takeWhile _ ++ _ = _
                      rw [List.cons_append, takeWhile_drop_eq]
                    · exact (List.length_drop _ _).le.trans (Nat.sub_le _ _)
                · refine ⟨?_, ?_⟩
                  · show c :: rest.takeWhile _ ++ _ = _
                    rw [List.cons_append, takeWhile_drop_eq]
                  · exact (List.length_drop _ _).le.trans (Nat.sub_le _ _)
              · split
                · refine ⟨?_, ?_⟩
                  · show c :: rest.takeWhile _ ++ _ = _
                    rw [List.cons_append, takeWhile_drop_eq]
                  · exact (List.length_drop _ _).le.trans (Nat.sub_le _ _)
                · exact ⟨rfl, le_refl _⟩

/-- The lexer loop is lossless given enough fuel. -/
theorem lexGo_chars : ∀ (fuel : Nat) (cs : List Char), cs.length ≤ fuel →
    (lexGo fuel cs).flatMap Token.text = cs := by
  intro fuel
  induction fuel with
  | zero =>
      intro cs hlen
      cases cs with
      | nil => rfl
      | cons c rest => simp at hlen
  | succ fuel ih =>
      intro cs hlen
      cases cs with
      | nil => rfl
      | cons c rest =>
          show ((lexStep c rest).1 :: lexGo fuel (lexStep c rest).2).flatMap Token.text
            = c :: rest
          rw [List.flatMap_cons]
          obtain ⟨hcov, hle⟩ := lexStep_spec c rest
          rw [ih (lexStep c rest).2 (by simp only [List.length_cons] at hlen; omega)]
          exact hcov

/-- The lexer is lossless: the token texts concatenate to the input. -/
theorem lex_chars (cs : List Char) : (lex cs).flatMap Token.text = cs :=
  lexGo_chars cs.length cs (le_refl _)

end Ludtwig

namespace Ludtwig

open SyntaxKind

/-- The Ext accessor across any code of the interpreter. -/
theorem run_ext_pos (fuel : Nat) (w : Fn) (q : Parser) :
    q.pos ≤ (run fuel w q).1.pos ∧ (run fuel w q).1.tokens = q.tokens ∧
    (run fuel w q).1.panicked = q.panicked := by
  have h := run_spec fuel w q
  unfold RunOut at h
  cases hA : Fn.anchor w with
  | some i =>
      rw [hA] at h
      obtain ⟨hf, _⟩ := h
      exact ⟨hf.pos_le, hf.tokens_eq, hf.panicked_eq⟩
  | none =>
      rw [hA] at h
      obtain ⟨hf, _⟩ := h
      exact ⟨hf.pos_le, hf.tokens_eq, hf.panicked_eq⟩

/-- Each iteration of the root loop only appends to the open ROOT frame. -/
theorem ext_rootLoop (ef : Nat) : ∀ (fuel : Nat) (p : Parser),
    Ext p (rootLoop ef fuel p) := by
  intro fuel
  induction fuel with
  | zero => intro p; exact Ext.refl p
  | succ fuel ih =>
      intro p
      show Ext p (rootLoop ef (fuel + 1) p)
      rw [rootLoop]
      cases hE : run ef .anyElement p with
      | mk p1 r =>
          have h1 : ExtP p (p1, r) := by
            have h0 := run_spec ef .anyElement p
            rw [hE] at h0
            exact h0
          cases r with
          | some m => exact Ext.trans h1.1 (ih p1)
          | none =>
              dsimp only
              split
              · exact Ext.trans h1.1
                  (Ext.trans (ext_wrap _ (ext_bump _)) (ih _))
              · exact h1.1

/-- `root` builds a single ROOT node holding trees that cover exactly the
consumed slice of the token stream. -/
theorem root_shape (toks : List Token) :
    ∃ trees pos,
      (parseTokens toks).stack = [[Tree.node ROOT trees]] ∧
      (parseTokens toks).tokens = toks ∧
      treesChars trees = sliceChars toks 0 pos ∧
      (parseTokens toks).pos = pos := by
  unfold parseTokens root
  dsimp only
  have hx := ext_rootLoop ((Parser.init toks).start.tokens.length + 1)
    ((Parser.init toks).start.tokens.length + 1 - (Parser.init toks).start.pos)
    (Parser.init toks).start
  obtain ⟨d, hstk, hchars⟩ := hx.frames [] [[]] (by rfl)
  refine ⟨d, _, ?_, ?_, ?_, rfl⟩
  · rw [Parser.complete, hstk]
    rfl
  · rw [Parser.complete]
    exact hx.tokens_eq
  · rw [Parser.complete]
    dsimp only
    rw [hchars]
    have : (Parser.init toks).start.tokens = toks := rfl
    rw [this]
    rfl

/-- Characters of mapped leaves. -/
theorem treesChars_map_leaf (ts : List Token) :
    treesChars (ts.map Tree.leaf) = ts.flatMap Token.text := by
  exact treesChars_leaves ts

theorem sliceChars_take_drop (toks : List Token) (n : Nat) :
    sliceChars toks 0 n ++ (toks.drop n).flatMap Token.text
      = toks.flatMap Token.text := by
  unfold sliceChars
  rw [List.drop_zero, Nat.sub_zero, ← List.flatMap_append, List.take_append_drop]

/-- Token-level losslessness of the whole parse. -/
theorem parseTokens_chars (toks : List Token) :
    (finishTree (parseTokens toks)).chars = toks.flatMap Token.text := by
  obtain ⟨trees, pos, hstk, htoks, hchars, hpos⟩ := root_shape toks
  unfold finishTree
  rw [hstk]
  dsimp only
  rw [Tree.chars_node, treesChars_append, hchars, treesChars_map_leaf,
    htoks, hpos]
  exact sliceChars_take_drop toks pos

end Ludtwig


namespace Ludtwig

open SyntaxKind

@[simp] theorem complete_pos (p : Parser) (k : SyntaxKind) :
    (p.complete k).pos = p.pos := rfl

@[simp] theorem start_pos (p : Parser) : p.start.pos = p.pos := rfl

/-- Consuming a token moves the cursor strictly forward. -/
theorem bump_pos_lt (p : Parser) (hne : p.atEnd = false) : p.pos < p.bump.pos := by
  unfold Parser.bump
  unfold Parser.atEnd at hne
  cases hO : p.peekToken with
  | none => rw [hO] at hne; simp at hne
  | some t =>
      rw [show p.tokens.get? (nextNonTrivia p.tokens p.pos) = some t from hO]
      dsimp only
      have := nextNonTrivia_ge p.tokens p.pos
      omega

theorem isAt_atEnd_false (p : Parser) (k : SyntaxKind) (h : p.isAt k = true) :
    p.atEnd = false := by
  unfold Parser.isAt at h
  unfold Parser.atEnd
  cases hO : p.peekToken with
  | none => rw [hO] at h; cases h
  | some t => rfl

/-- The interpreter never moves the cursor backwards. -/
theorem run_pos_le (fuel : Nat) (w : Fn) (q : Parser) :
    q.pos ≤ (run fuel w q).1.pos := by
  have h := run_spec fuel w q
  unfold RunOut at h
  cases hA : Fn.anchor w with
  | some i =>
      rw [hA] at h
      obtain ⟨hf, _⟩ := h
      exact hf.pos_le
  | none =>
      rw [hA] at h
      obtain ⟨hf, _⟩ := h
      exact hf.pos_le

theorem twigVar_pos (fuel : Nat) (p : Parser) (hoc : p.isAt TK_OPEN_CURLY_CURLY = true) :
    ((run (fuel + 1) .twigVar p).2).isSome = true →
    p.pos < (run (fuel + 1) .twigVar p).1.pos := by
  intro h
  simp only [run, Parser.completeM, complete_pos]
  refine lt_of_lt_of_le ?_ (ext_expect _ _ _).pos_le
  refine lt_of_lt_of_le ?_ (ext_cond_addError _ _).pos_le
  refine lt_of_lt_of_le ?_ (run_pos_le fuel (.twigExpr 0) _)
  exact bump_pos_lt p.start (isAt_atEnd_false p TK_OPEN_CURLY_CURLY hoc)

end Ludtwig

namespace Ludtwig

open SyntaxKind

theorem atEnd_of_ge (p : Parser) (h : p.tokens.length ≤ p.pos) : p.atEnd = true := by
  unfold Parser.atEnd Parser.peekToken
  have h2 := nextNonTrivia_ge p.tokens p.pos
  rw [List.get?_eq_none.mpr (by omega)]
  rfl

theorem pos_lt_of_not_atEnd (p : Parser) (h : p.atEnd = false) :
    p.pos < p.tokens.length := by
  unfold Parser.atEnd Parser.peekToken at h
  cases hO : p.tokens.get? (nextNonTrivia p.tokens p.pos) with
  | none => rw [hO] at h; simp at h
  | some t =>
      have hlt : nextNonTrivia p.tokens p.pos < p.tokens.length := by
        by_contra hge
        rw [List.get?_eq_none.mpr (by omega)] at hO
        cases hO
      have := nextNonTrivia_ge p.tokens p.pos
      omega

/-- A `parse_many` loop whose first iteration advances makes progress. -/
theorem parse_many_progress (fuel : Nat) (untilF : Parser → Bool)
    (oneF : Parser → Parser) (p : Parser)
    (hone : ∀ q, Ext q (oneF q))
    (hfuel : 1 ≤ fuel) (hend : p.atEnd = false) (hu : untilF p = false)
    (hstrict : p.pos < (oneF p).pos) :
    p.pos < (parse_many fuel untilF oneF p).pos := by
  cases fuel with
  | zero => omega
  | succ fuel =>
      rw [parse_many]
      dsimp only
      rw [hend, hu]
      split
      · rename_i hfalse
        cases hfalse
      · split
        · exact hstrict
        · exact lt_of_lt_of_le hstrict
            (ext_parse_many fuel untilF oneF hone (oneF p)).pos_le

end Ludtwig

namespace Ludtwig

open SyntaxKind

/-- A successful Twig-statement parse consumes at least one token. -/
theorem anyTwig_progress : ∀ (fuel : Nat) (c : ChildK) (p : Parser),
    ((run fuel (.anyTwig c) p).2).isSome = true →
    p.pos < (run fuel (.anyTwig c) p).1.pos := by
  intro fuel
  cases fuel with
  | zero => intro c p h; cases h
  | succ fuel =>
      intro c p h
      rw [run] at h ⊢
      revert h
      split
      · rename_i hcp
        have hne : p.atEnd = false := isAt_atEnd_false p TK_CURLY_PERCENT hcp
        split
        · -- twigBlock
          intro h
          cases fuel with
          | zero => cases h
          | succ fuel =>
              simp only [run, Parser.completeM, complete_pos]
              refine lt_of_lt_of_le ?_ (ext_expect _ _ _).pos_le
              refine lt_of_lt_of_le ?_ (ext_expect _ _ _).pos_le
              refine lt_of_lt_of_le ?_ (ext_expect _ _ _).pos_le
              simp only [complete_pos, start_pos]
              refine lt_of_lt_of_le ?_ (ext_parse_many _ _ _
                (fun q => runOut_ext (anchor_childFn c) (run_spec fuel (childFn c) q)) _).pos_le
              simp only [complete_pos, start_pos]
              refine lt_of_lt_of_le ?_ (ext_expect _ _ _).pos_le
              refine lt_of_lt_of_le ?_ (ext_expect _ _ _).pos_le
              refine lt_of_lt_of_le ?_ (ext_bump _).pos_le
              exact bump_pos_lt p.start.start hne
        · split
          · -- twigIf
            intro h
            cases fuel with
            | zero => cases h
            | succ fuel =>
                simp only [run, Parser.completeM, complete_pos]
                refine lt_of_lt_of_le ?_ (ext_expect _ _ _).pos_le
                refine lt_of_lt_of_le ?_ (ext_expect _ _ _).pos_le
                refine lt_of_lt_of_le ?_ (ext_expect _ _ _).pos_le
                simp only [complete_pos, start_pos]
                refine lt_of_lt_of_le ?_ (run_pos_le fuel (.twigIfTail c) _)
                simp only [complete_pos, start_pos]
                refine lt_of_lt_of_le ?_ (ext_parse_many _ _ _
                  (fun q => runOut_ext (anchor_childFn c) (run_spec fuel (childFn c) q)) _).pos_le
                simp only [complete_pos, start_pos]
                refine lt_of_lt_of_le ?_ (ext_expect _ _ _).pos_le
                refine lt_of_lt_of_le ?_ (ext_cond_addError _ _).pos_le
                refine lt_of_lt_of_le ?_ (run_pos_le fuel (.twigExpr 0) _)
                refine lt_of_lt_of_le ?_ (ext_bump _).pos_le
                exact bump_pos_lt p.start.start hne
          · split
            · -- twigFor
              intro h
              cases fuel with
              | zero => cases h
              | succ fuel =>
                  simp only [run, Parser.completeM, complete_pos]
                  refine lt_of_lt_of_le ?_ (ext_expect _ _ _).pos_le
                  refine lt_of_lt_of_le ?_ (ext_expect _ _ _).pos_le
                  refine lt_of_lt_of_le ?_ (ext_expect _ _ _).pos_le
                  simp only [complete_pos, start_pos]
                  refine lt_of_lt_of_le ?_ (ext_parse_many _ _ _
                    (fun q => runOut_ext (anchor_childFn c) (run_spec fuel (childFn c) q)) _).pos_le
                  simp only [complete_pos, start_pos]
                  refine lt_of_lt_of_le ?_ (ext_expect _ _ _).pos_le
                  refine lt_of_lt_of_le ?_ (ext_cond_addError _ _).pos_le
                  refine lt_of_lt_of_le ?_ (run_pos_le fuel (.twigExpr 0) _)
                  refine lt_of_lt_of_le ?_ (ext_expect _ _ _).pos_le
                  refine lt_of_lt_of_le ?_ (ext_expect _ _ _).pos_le
                  refine lt_of_lt_of_le ?_ (ext_bump _).pos_le
                  exact bump_pos_lt p.start.start hne
            · -- unknown statement: one token into ERROR
              intro h
              simp only [Parser.completeM, complete_pos]
              exact bump_pos_lt p.start hne
      · split
        · -- twigVar
          rename_i hnc hoc
          intro h
          cases fuel with
          | zero => cases h
          | succ fuel =>
              simp only [run, Parser.completeM, complete_pos]
              refine lt_of_lt_of_le ?_ (ext_expect _ _ _).pos_le
              refine lt_of_lt_of_le ?_ (ext_cond_addError _ _).pos_le
              refine lt_of_lt_of_le ?_ (run_pos_le fuel (.twigExpr 0) _)
              exact bump_pos_lt p.start (isAt_atEnd_false p TK_OPEN_CURLY_CURLY hoc)
        · split
          · -- twig comment
            rename_i hnc hno hh
            intro h
            have hne := isAt_atEnd_false p TK_OPEN_CURLY_HASHTAG hh
            simp only [Parser.completeM]
            unfold parse_twig_comment parse_ludtwig_directive
            dsimp only
            split
            · simp only [Parser.completeM, complete_pos]
              refine lt_of_lt_of_le ?_ (ext_expect _ _ _).pos_le
              refine lt_of_lt_of_le ?_ (ext_parse_many _ _ _ (fun q => ext_bump q) _).pos_le
              refine lt_of_lt_of_le ?_ (ext_bump _).pos_le
              exact bump_pos_lt p.start hne
            · simp only [Parser.completeM, complete_pos]
              refine lt_of_lt_of_le ?_ (ext_expect _ _ _).pos_le
              refine lt_of_lt_of_le ?_ (ext_parse_many _ _ _ (fun q => ext_bump q) _).pos_le
              exact bump_pos_lt p.start hne
          · intro h
            cases h

end Ludtwig

namespace Ludtwig

open SyntaxKind

/-- Temporary copy for scratch: tokens/pos/panicked facts of run. -/
theorem run_ext_pos' (fuel : Nat) (w : Fn) (q : Parser) :
    q.pos ≤ (run fuel w q).1.pos ∧ (run fuel w q).1.tokens = q.tokens := by
  have h := run_spec fuel w q
  unfold RunOut at h
  cases hA : Fn.anchor w with
  | some i =>
      rw [hA] at h
      obtain ⟨hf, _⟩ := h
      exact ⟨hf.pos_le, hf.tokens_eq⟩
  | none =>
      rw [hA] at h
      obtain ⟨hf, _⟩ := h
      exact ⟨hf.pos_le, hf.tokens_eq⟩

/-- Strict position increase through a branch returning parser pairs. -/
theorem lt_pos_ite_fst {c : Prop} [Decidable c] {o1 o2 : Parser × Option Nat} {n : Nat}
    (h1 : n < o1.1.pos) (h2 : n < o2.1.pos) :
    n < ((if c then o1 else o2).1).pos := by
  split
  · exact h1
  · exact h2

/-- A successful HTML parse consumes at least one token. -/
theorem anyHtml_progress : ∀ (fuel : Nat) (p : Parser),
    ((run fuel .anyHtml p).2).isSome = true →
    p.pos < (run fuel .anyHtml p).1.pos := by
  intro fuel
  cases fuel with
  | zero => intro p h; cases h
  | succ fuel =>
      intro p h
      rw [run] at h ⊢
      revert h
      split
      · rename_i hlt
        intro h
        have hne := isAt_atEnd_false p TK_LESS_THAN hlt
        cases fuel with
        | zero => cases h
        | succ fuel =>
            simp only [run, Parser.completeM]
            refine lt_pos_ite_fst ?_ ?_
            · dsimp only
              simp only [complete_pos, start_pos]
              refine lt_of_lt_of_le ?_ (ext_pite_fst (ext_bump _) (ext_expect _ _ _)).pos_le
              simp only [complete_pos, start_pos]
              refine lt_of_lt_of_le ?_ (ext_parse_many _ _ _
                (fun q => runOut_ext rfl (run_spec fuel .htmlAttributeOrTwig q)) _).pos_le
              simp only [complete_pos, start_pos]
              refine lt_of_lt_of_le ?_ (ext_pite (ext_bumpAs _ _)
                (Ext.trans (ext_addError _ _) (ext_recover _ _))).pos_le
              exact bump_pos_lt p.start.start hne
            · dsimp only
              simp only [complete_pos, start_pos]
              refine lt_of_lt_of_le ?_ (ext_parse_html_element_closing _ _ _).pos_le
              simp only [complete_pos, start_pos]
              refine lt_of_lt_of_le ?_ (ext_parse_many _ _ _
                (fun q => runOut_ext rfl (run_spec fuel .anyElement q)) _).pos_le
              simp only [complete_pos, start_pos]
              refine lt_of_lt_of_le ?_ (ext_pite_fst (ext_bump _) (ext_expect _ _ _)).pos_le
              simp only [complete_pos, start_pos]
              refine lt_of_lt_of_le ?_ (ext_parse_many _ _ _
                (fun q => runOut_ext rfl (run_spec fuel .htmlAttributeOrTwig q)) _).pos_le
              simp only [complete_pos, start_pos]
              refine lt_of_lt_of_le ?_ (ext_pite (ext_bumpAs _ _)
                (Ext.trans (ext_addError _ _) (ext_recover _ _))).pos_le
              exact bump_pos_lt p.start.start hne
      · split
        · rename_i hno hcm
          intro h
          have hne := isAt_atEnd_false p TK_HTML_COMMENT_OPEN hcm
          unfold parse_html_comment parse_ludtwig_directive parse_plain_html_comment
          dsimp only
          split
          · simp only [Parser.completeM, complete_pos]
            refine lt_of_lt_of_le ?_ (ext_expect _ _ _).pos_le
            refine lt_of_lt_of_le ?_ (ext_parse_many _ _ _ (fun q => ext_bump q) _).pos_le
            refine lt_of_lt_of_le ?_ (ext_bump _).pos_le
            exact bump_pos_lt p.start hne
          · simp only [Parser.completeM, complete_pos]
            refine lt_of_lt_of_le ?_ (ext_expect _ _ _).pos_le
            refine lt_of_lt_of_le ?_ (ext_parse_many _ _ _ (fun q => ext_bump q) _).pos_le
            exact bump_pos_lt p.start hne
        · split
          · rename_i hno hnc hdt
            intro h
            have hne := isAt_atEnd_false p TK_LESS_THAN_EXCLAMATION_MARK hdt
            unfold parse_html_doctype
            dsimp only
            simp only [Parser.completeM, complete_pos]
            refine lt_of_lt_of_le ?_ (ext_expect _ _ _).pos_le
            refine lt_of_lt_of_le ?_ (ext_expect _ _ _).pos_le
            refine lt_of_lt_of_le ?_ (ext_expect _ _ _).pos_le
            exact bump_pos_lt p.start hne
          · intro h
            unfold parse_html_text at h ⊢
            by_cases hg : (p.atEnd || p.atSet GENERAL_RECOVERY_SET
                || p.atSet [TK_LESS_THAN_SLASH]) = true
            · rw [if_pos hg] at h
              cases h
            · rw [if_neg hg]
              have h1 : p.atEnd = false := by
                rcases Bool.eq_false_or_eq_true p.atEnd with hx | hx
                · exact absurd (by rw [hx]; rfl) hg
                · exact hx
              have h2 : p.atSet GENERAL_RECOVERY_SET = false := by
                rcases Bool.eq_false_or_eq_true (p.atSet GENERAL_RECOVERY_SET) with hx | hx
                · exact absurd (by rw [hx]; simp) hg
                · exact hx
              have h3 : p.atSet [TK_LESS_THAN_SLASH] = false := by
                rcases Bool.eq_false_or_eq_true (p.atSet [TK_LESS_THAN_SLASH]) with hx | hx
                · exact absurd (by rw [hx]; simp) hg
                · exact hx
              dsimp only
              simp only [Parser.completeM, complete_pos]
              refine parse_many_progress _ _ _ p.start (fun q => ext_bump q) ?_ h1 ?_ ?_
              · show 1 ≤ p.tokens.length + 1 - p.pos
                have := pos_lt_of_not_atEnd p h1
                omega
              · show (p.atSet GENERAL_RECOVERY_SET || p.atSet [TK_LESS_THAN_SLASH]) = false
                rw [h2, h3]
                rfl
              · exact bump_pos_lt p.start h1

/-- A successful element parse consumes at least one token. -/
theorem anyElement_progress : ∀ (fuel : Nat) (p : Parser),
    ((run fuel .anyElement p).2).isSome = true →
    p.pos < (run fuel .anyElement p).1.pos := by
  intro fuel
  cases fuel with
  | zero => intro p h; cases h
  | succ fuel =>
      intro p h
      rw [run] at h ⊢
      revert h
      cases hE : run fuel (.anyTwig .anyElement) p with
      | mk p1 r =>
          cases r with
          | some m =>
              intro h
              dsimp only
              have hprog := anyTwig_progress fuel .anyElement p
              rw [hE] at hprog
              exact hprog rfl
          | none =>
              intro h
              dsimp only at h ⊢
              have h1 := run_ext_pos' fuel (.anyTwig .anyElement) p
              rw [hE] at h1
              exact lt_of_le_of_lt h1.1 (anyHtml_progress fuel p1 h)

/-- The root loop consumes the entire input. -/
theorem rootLoop_atEnd (ef : Nat) : ∀ (fuel : Nat) (p : Parser),
    p.tokens.length + 1 - p.pos ≤ fuel →
    (rootLoop ef fuel p).atEnd = true := by
  intro fuel
  induction fuel with
  | zero =>
      intro p hf
      exact atEnd_of_ge p (by omega)
  | succ fuel ih =>
      intro p hf
      rw [rootLoop]
      cases hE : run ef .anyElement p with
      | mk p1 r =>
          have hx := run_ext_pos' ef .anyElement p
          rw [hE] at hx
          dsimp only at hx
          cases r with
          | some m =>
              dsimp only
              have hprog := anyElement_progress ef p
              rw [hE] at hprog
              have hlt := hprog rfl
              dsimp only at hlt
              refine ih p1 ?_
              rw [hx.2]
              omega
          | none =>
              dsimp only
              split
              · rename_i hne
                simp only [Bool.not_eq_true'] at hne
                refine ih _ ?_
                have hb : p1.pos < (((p1.start).bump).complete ERROR).pos := by
                  simp only [complete_pos]
                  exact bump_pos_lt p1.start hne
                have ht : (((p1.start).bump).complete ERROR).tokens = p1.tokens :=
                  (ext_bump p1.start).tokens_eq
                rw [ht, hx.2]
                omega
              · rename_i hend
                simp only [Bool.not_eq_true'] at hend
                simp only [Bool.not_eq_false] at hend
                exact hend

/-- The whole token stream is consumed by `root`. -/
theorem parseTokens_atEnd (toks : List Token) : (parseTokens toks).atEnd = true := by
  unfold parseTokens root
  dsimp only
  show ((rootLoop _ _ _).complete ROOT).atEnd = true
  have h := rootLoop_atEnd ((Parser.init toks).start.tokens.length + 1)
    ((Parser.init toks).start.tokens.length + 1 - (Parser.init toks).start.pos)
    ((Parser.init toks).start) (le_refl _)
  exact h

end Ludtwig

namespace Ludtwig

open SyntaxKind

/-! ## Interpolation-freeness bookkeeping -/

theorem hasNodeKind_leaf (k : SyntaxKind) (tok : Token) :
    Tree.hasNodeKind k (Tree.leaf tok) = false := by
  simp [Tree.hasNodeKind]

theorem hasNodeKind_node (k kd : SyntaxKind) (cs : List Tree) :
    Tree.hasNodeKind k (Tree.node kd cs)
      = (kd == k || cs.attach.any fun c => Tree.hasNodeKind k c.1) := by
  rw [Tree.hasNodeKind]

/-- A tree containing no TWIG_LITERAL_STRING_INTERPOLATION node. -/
def treeNoInterp (tr : Tree) : Bool :=
  !(Tree.hasNodeKind TWIG_LITERAL_STRING_INTERPOLATION tr)

theorem all_leaves_noInterp (ts : List Token) :
    (ts.map Tree.leaf).all treeNoInterp = true := by
  induction ts with
  | nil => rfl
  | cons a as ih =>
      simp only [List.map_cons, List.all_cons, ih, Bool.and_true]
      unfold treeNoInterp
      rw [hasNodeKind_leaf]
      rfl

theorem noInterp_node {kd : SyntaxKind} {cs : List Tree}
    (hkd : (kd == TWIG_LITERAL_STRING_INTERPOLATION) = false)
    (hcs : cs.all treeNoInterp = true) :
    treeNoInterp (Tree.node kd cs) = true := by
  unfold treeNoInterp
  rw [hasNodeKind_node, hkd, Bool.false_or]
  rw [Bool.not_eq_true']
  rw [List.any_eq_false]
  intro c hc
  have h1 := List.all_eq_true.mp hcs c.1 c.2
  unfold treeNoInterp at h1
  rw [Bool.not_eq_true'] at h1
  rw [h1]
  exact Bool.false_ne_true

/-- Frame-append step whose appended children are free of interpolation
nodes. -/
def NI (p q : Parser) : Prop :=
  ∀ h t, p.stack = h :: t →
    ∃ d, q.stack = (h ++ d) :: t ∧ d.all treeNoInterp = true

theorem ni_refl (p : Parser) : NI p p :=
  fun h t hs => ⟨[], by rw [hs, List.append_nil], rfl⟩

theorem ni_of_stack_eq {p q : Parser} (he : q.stack = p.stack) : NI p q :=
  fun h t hs => ⟨[], by rw [he, hs, List.append_nil], rfl⟩

theorem ni_trans {p q r : Parser} (h1 : NI p q) (h2 : NI q r) : NI p r := by
  intro h t hs
  obtain ⟨d1, hq, a1⟩ := h1 h t hs
  obtain ⟨d2, hr, a2⟩ := h2 (h ++ d1) t hq
  refine ⟨d1 ++ d2, by rw [hr, List.append_assoc], ?_⟩
  rw [List.all_append, a1, a2]
  rfl

/-- `bump` only appends token leaves to the innermost frame. -/
theorem bump_stack_leaves (p : Parser) :
    ∃ ts : List Token, (p.bump).stack = Parser.framePush p.stack (ts.map Tree.leaf) := by
  unfold Parser.bump
  cases hg : p.tokens.get? (nextNonTrivia p.tokens p.pos) with
  | some tk =>
      exact ⟨p.pendingTrivia ++ [tk], rfl⟩
  | none =>
      refine ⟨[], ?_⟩
      cases hsk : p.stack <;> simp [Parser.framePush]

theorem ni_bump (q : Parser) : NI q q.bump := by
  intro h t hs
  obtain ⟨ts, hb⟩ := bump_stack_leaves q
  refine ⟨ts.map Tree.leaf, ?_, all_leaves_noInterp _⟩
  rw [hb, hs]
  rfl

theorem ni_ect (q : Parser) : NI q q.explicitlyConsumeTrivia := by
  intro h t hs
  refine ⟨(q.pendingTrivia).map Tree.leaf, ?_, all_leaves_noInterp _⟩
  show Parser.framePush q.stack _ = _
  rw [hs]
  rfl

theorem ni_expect (q : Parser) (k : SyntaxKind) (extras : List SyntaxKind) :
    NI q (q.expect k extras) := by
  unfold Parser.expect
  dsimp only
  split
  · exact ni_bump q
  · split
    · exact ni_of_stack_eq rfl
    · intro h t hs
      obtain ⟨ts, hb⟩ := bump_stack_leaves ((q.addError (.kind k)).start)
      refine ⟨[Tree.node ERROR (ts.map Tree.leaf)], ?_, ?_⟩
      · show Parser.frameComplete (((q.addError (.kind k)).start.bump).stack) ERROR = _
        rw [hb]
        rw [show (((q.addError (.kind k)).start).stack : List (List Tree))
          = [] :: q.stack from rfl, hs]
        simp [Parser.framePush, Parser.frameComplete]
      · simp only [List.all_cons, List.all_nil, Bool.and_true]
        exact noInterp_node (by decide) (all_leaves_noInterp ts)

theorem ni_parse_many (fuel : Nat) (untilF : Parser → Bool) (oneF : Parser → Parser)
    (hone : ∀ q, NI q (oneF q)) (p : Parser) :
    NI p (parse_many fuel untilF oneF p) := by
  induction fuel generalizing p with
  | zero => exact ni_refl p
  | succ fuel ih =>
      rw [parse_many]
      dsimp only
      split
      · exact ni_refl p
      · split
        · exact hone p
        · exact ni_trans (hone p) (ih (oneF p))

theorem ni_wrap {q x : Parser} {k : SyntaxKind}
    (hkd : (k == TWIG_LITERAL_STRING_INTERPOLATION) = false)
    (hx : NI (q.start) x) : NI q (x.complete k) := by
  intro h t hs
  obtain ⟨d, hxs, hall⟩ := hx [] (h :: t)
    (by rw [show ((q.start).stack : List (List Tree)) = [] :: q.stack from rfl, hs])
  refine ⟨[Tree.node k d], ?_, ?_⟩
  · show Parser.frameComplete x.stack k = _
    rw [hxs]
    simp [Parser.frameComplete]
  · simp only [List.all_cons, List.all_nil, Bool.and_true]
    exact noInterp_node hkd (by simpa using hall)

/-- The string-loop step with interpolation disallowed only appends trees
free of interpolation nodes (in fact it only bumps tokens). -/
theorem ni_stringStep (fuel : Nat) (qk : SyntaxKind) (q : Parser) :
    NI q (run fuel (.twigStringStep qk false) q).1 := by
  cases fuel with
  | zero => exact ni_refl q
  | succ fuel =>
      simp only [run]
      by_cases h1 : q.atFollowing [TK_BACKWARD_SLASH, qk] = true
      · rw [if_pos h1]
        exact ni_trans (ni_bump q) (ni_bump q.bump)
      · rw [if_neg h1]
        by_cases h2 : q.isAt TK_HASHTAG_OPEN_CURLY = true
        · rw [if_pos h2]
          rw [if_pos (show (!false) = true from rfl)]
          cases hpk : q.peekToken with
          | some tk =>
              dsimp only
              exact ni_trans (ni_bump q) (ni_of_stack_eq rfl)
          | none =>
              dsimp only
              exact ni_bump q
        · rw [if_neg h2]
          exact ni_bump q

end Ludtwig

namespace Ludtwig

open SyntaxKind

/-- Closing a frame-append step that stayed interpolation-free wraps it
into a single interpolation-free TWIG_LITERAL_STRING node. -/
theorem c7_string_shape {q0 q6 : Parser} {hfr : List Tree} {t : List (List Tree)}
    (hs : q0.stack = hfr :: t) (H : NI (q0.start) q6) :
    ∃ cs, ((q6.complete TWIG_LITERAL_STRING).stack
        = (hfr ++ [Tree.node TWIG_LITERAL_STRING cs]) :: t)
      ∧ treeNoInterp (Tree.node TWIG_LITERAL_STRING cs) = true
      ∧ Parser.frameMarker q6.stack = hfr.length := by
  obtain ⟨d, h6, hall⟩ := H [] (hfr :: t)
    (by rw [show ((q0.start).stack : List (List Tree)) = [] :: q0.stack from rfl, hs])
  refine ⟨d, ?_, noInterp_node (by decide) hall, ?_⟩
  · show Parser.frameComplete q6.stack TWIG_LITERAL_STRING = _
    rw [h6]
    simp [Parser.frameComplete]
  · rw [h6]
    rfl

/-- The whole string body (quote, inner loop with interpolation disallowed,
closing quote) is interpolation-free. -/
theorem twigString_tail_shape (fuel : Nat) (qk : SyntaxKind) (p : Parser)
    {hfr : List Tree} {t : List (List Tree)} (hs : p.stack = hfr :: t) :
    ∃ cs,
      ((((((parse_many (localFuel (((p.start).bump).start)) (fun q => q.isAt qk)
          (fun q => (run fuel (.twigStringStep qk false) q).1)
          (((p.start).bump).start)).explicitlyConsumeTrivia).complete
            TWIG_LITERAL_STRING_INNER).expect qk []).complete TWIG_LITERAL_STRING).stack
        = (hfr ++ [Tree.node TWIG_LITERAL_STRING cs]) :: t)
      ∧ (Tree.node TWIG_LITERAL_STRING cs).hasNodeKind
          TWIG_LITERAL_STRING_INTERPOLATION = false
      ∧ Parser.frameMarker (((((parse_many (localFuel (((p.start).bump).start))
          (fun q => q.isAt qk)
          (fun q => (run fuel (.twigStringStep qk false) q).1)
          (((p.start).bump).start)).explicitlyConsumeTrivia).complete
            TWIG_LITERAL_STRING_INNER).expect qk []).stack) = hfr.length := by
  have H : NI (p.start) ((((parse_many (localFuel (((p.start).bump).start))
      (fun q => q.isAt qk) (fun q => (run fuel (.twigStringStep qk false) q).1)
      (((p.start).bump).start)).explicitlyConsumeTrivia).complete
        TWIG_LITERAL_STRING_INNER).expect qk []) :=
    ni_trans (ni_bump (p.start))
      (ni_trans (ni_wrap (k := TWIG_LITERAL_STRING_INNER) (by decide)
        (ni_trans (ni_parse_many (localFuel (((p.start).bump).start))
            (fun q => q.isAt qk) (fun q => (run fuel (.twigStringStep qk false) q).1)
            (fun q => ni_stringStep fuel qk q) (((p.start).bump).start))
          (ni_ect _)))
        (ni_expect _ qk []))
  obtain ⟨cs, h1, h2, h3⟩ := c7_string_shape hs H
  refine ⟨cs, h1, ?_, h3⟩
  unfold treeNoInterp at h2
  rw [Bool.not_eq_true'] at h2
  exact h2

/-- A Twig string whose opening quote is a single quote (any interpolation
mode), or any string parsed with interpolation disallowed, produces one
TWIG_LITERAL_STRING node with no interpolation node inside. -/
theorem twigString_noInterp (fuel : Nat) (iA : Bool) (p : Parser) (hfr : List Tree)
    (t : List (List Tree)) (tok : Token) (hs : p.stack = hfr :: t)
    (hq : p.peekToken = some tok)
    (hk : tok.kind = TK_SINGLE_QUOTES ∨ (tok.kind = TK_DOUBLE_QUOTES ∧ iA = false)) :
    ∃ cs, (run (fuel + 1) (.twigString iA) p).1.stack
        = (hfr ++ [Tree.node TWIG_LITERAL_STRING cs]) :: t
      ∧ (Tree.node TWIG_LITERAL_STRING cs).hasNodeKind
          TWIG_LITERAL_STRING_INTERPOLATION = false
      ∧ (run (fuel + 1) (.twigString iA) p).2 = some hfr.length := by
  have hq2 : ((p.start).peekToken : Option Token) = some tok := hq
  simp only [run, Parser.completeM]
  rw [hq2]
  rcases hk with hk | ⟨hk, hiA⟩
  · dsimp only
    rw [hk]
    dsimp only
    obtain ⟨cs, h1, h2, h3⟩ := twigString_tail_shape fuel TK_SINGLE_QUOTES p hs
    exact ⟨cs, h1, h2, by rw [h3]⟩
  · subst hiA
    dsimp only
    rw [hk]
    dsimp only
    obtain ⟨cs, h1, h2, h3⟩ := twigString_tail_shape fuel TK_DOUBLE_QUOTES p hs
    exact ⟨cs, h1, h2, by rw [h3]⟩

/-- Two-token lookahead fails when the first kind differs. -/
theorem atFollowing2_false_head {p : Parser} {k1 k2 : SyntaxKind} {tk : Token}
    (hpk : p.peekToken = some tk) (hne : (tk.kind == k1) = false) :
    p.atFollowing [k1, k2] = false := by
  have hpk0 : p.peekNthToken 0 = some tk := hpk
  unfold Parser.atFollowing
  rw [show (List.range ([k1, k2] : List SyntaxKind).length) = [0, 1] from rfl]
  simp only [List.all_cons]
  rw [show (([k1, k2] : List SyntaxKind).get? 0) = some k1 from rfl]
  dsimp only
  unfold Parser.atNth
  rw [hpk0]
  dsimp only
  rw [hne]
  rfl

/-- Disallowed interpolation step: at `#{` with interpolation not allowed,
the token is consumed as a plain leaf and the diagnostic is recorded at it;
no node at all (in particular no interpolation node) is produced. -/
theorem stringStep_disallowed (fuel : Nat) (qk : SyntaxKind) (p : Parser)
    (hfr : List Tree) (t : List (List Tree)) (tok : Token)
    (hs : p.stack = hfr :: t) (hq : p.peekToken = some tok)
    (hkind : tok.kind = TK_HASHTAG_OPEN_CURLY) :
    (run (fuel + 1) (.twigStringStep qk false) p).1.errors
      = p.errors ++ [⟨.msg "no string interpolation, because it isn't allowed here",
          some tok⟩] ∧
    ∃ ts : List Token, (run (fuel + 1) (.twigStringStep qk false) p).1.stack
      = (hfr ++ ts.map Tree.leaf) :: t := by
  have haf : p.atFollowing [TK_BACKWARD_SLASH, qk] = false :=
    atFollowing2_false_head hq (by rw [hkind]; decide)
  have hat : p.isAt TK_HASHTAG_OPEN_CURLY = true := by
    unfold Parser.isAt
    rw [hq]
    dsimp only
    rw [hkind]
    decide
  have hq3 : (p.tokens.get? (nextNonTrivia p.tokens p.pos) : Option Token) = some tok := hq
  simp only [run]
  rw [haf]
  rw [if_neg Bool.false_ne_true]
  rw [hat]
  rw [if_pos rfl]
  rw [if_pos (show (!false) = true from rfl)]
  rw [hq]
  dsimp only
  unfold Parser.bump
  rw [hq3]
  dsimp only
  constructor
  · rfl
  · refine ⟨p.pendingTrivia ++ [tok], ?_⟩
    show Parser.framePush p.stack _ = _
    rw [hs]
    rfl

/-- Wrapping an anchored frame-append step into a fresh node. -/
theorem wrap_shape {q0 q6 : Parser} {hfr : List Tree} {t : List (List Tree)}
    (k : SyntaxKind) (hs : q0.stack = hfr :: t) (E : Ext (q0.start) q6) :
    ∃ cs, (q6.complete k).stack = (hfr ++ [Tree.node k cs]) :: t := by
  obtain ⟨d, h6, _⟩ := E.frames [] (hfr :: t)
    (by rw [show ((q0.start).stack : List (List Tree)) = [] :: q0.stack from rfl, hs])
  refine ⟨d, ?_⟩
  show Parser.frameComplete q6.stack k = _
  rw [h6]
  simp [Parser.frameComplete]

/-- Allowed interpolation step: at `#{` with interpolation allowed, a
TWIG_LITERAL_STRING_INTERPOLATION node is produced. -/
theorem stringStep_allowed (fuel : Nat) (qk : SyntaxKind) (p : Parser)
    (hfr : List Tree) (t : List (List Tree)) (tok : Token)
    (hs : p.stack = hfr :: t) (hq : p.peekToken = some tok)
    (hkind : tok.kind = TK_HASHTAG_OPEN_CURLY) :
    ∃ a cs, (run (fuel + 1) (.twigStringStep qk true) p).1.stack
      = ((hfr ++ a) ++ [Tree.node TWIG_LITERAL_STRING_INTERPOLATION cs]) :: t := by
  have haf : p.atFollowing [TK_BACKWARD_SLASH, qk] = false :=
    atFollowing2_false_head hq (by rw [hkind]; decide)
  have hat : p.isAt TK_HASHTAG_OPEN_CURLY = true := by
    unfold Parser.isAt
    rw [hq]
    dsimp only
    rw [hkind]
    decide
  simp only [run]
  rw [haf]
  rw [if_neg Bool.false_ne_true]
  rw [hat]
  rw [if_pos rfl]
  rw [if_neg (show ¬((!true) = true) from by decide)]
  dsimp only
  have hes : (p.explicitlyConsumeTrivia).stack
      = (hfr ++ (p.pendingTrivia).map Tree.leaf) :: t := by
    show Parser.framePush p.stack _ = _
    rw [hs]
    rfl
  obtain ⟨cs, hc⟩ := wrap_shape TWIG_LITERAL_STRING_INTERPOLATION hes
    (Ext.trans (ext_bump _)
      (Ext.trans ((run_spec fuel (.twigExpr 0) _).1 :
          Ext _ (run fuel (.twigExpr 0) _).1)
        (Ext.trans (ext_cond_addError _ _) (ext_expect _ _ _))))
  exact ⟨(p.pendingTrivia).map Tree.leaf, cs, hc⟩

end Ludtwig

namespace Ludtwig

open SyntaxKind

/-- Wrapping value trees behind a completed hash key with `precede` yields
the TWIG_LITERAL_HASH_PAIR node with the key as its first child. -/
theorem hashpair_shape {q2 : Parser} {hfr cs d2 : List Tree} {t : List (List Tree)}
    (hs2 : q2.stack = ((hfr ++ [Tree.node TWIG_LITERAL_HASH_KEY cs]) ++ d2) :: t) :
    ((q2.precede hfr.length).complete TWIG_LITERAL_HASH_PAIR).stack
      = (hfr ++ [Tree.node TWIG_LITERAL_HASH_PAIR
          (Tree.node TWIG_LITERAL_HASH_KEY cs :: d2)]) :: t := by
  show Parser.frameComplete (Parser.framePrecede q2.stack hfr.length)
    TWIG_LITERAL_HASH_PAIR = _
  rw [hs2]
  unfold Parser.framePrecede Parser.frameComplete
  dsimp only
  rw [List.append_assoc]
  rw [List.drop_left, List.take_left]
  rfl

/-- A completed first child plus a frame-append step, wrapped by
`complete`, keeps the first child in place. -/
theorem attr_shape {q1 q2 : Parser} {hfr pre : List Tree} {t : List (List Tree)}
    {lf : Tree} (k : SyntaxKind) (hs1 : q1.stack = (pre ++ [lf]) :: hfr :: t)
    (E : Ext q1 q2) :
    ∃ b, (q2.complete k).stack = (hfr ++ [Tree.node k (pre ++ lf :: b)]) :: t := by
  obtain ⟨d, h2, _⟩ := E.frames (pre ++ [lf]) (hfr :: t) hs1
  refine ⟨d, ?_⟩
  show Parser.frameComplete q2.stack k = _
  rw [h2]
  unfold Parser.frameComplete
  dsimp only
  rw [List.append_assoc]
  rfl

/-- Any single token whose text matches the attribute-name regex --
keywords included -- is consumed re-labelled TK_WORD as the first child of
the HTML_ATTRIBUTE node. -/
theorem htmlAttr_keyword (fuel : Nat) (p : Parser) (hfr : List Tree)
    (t : List (List Tree)) (tok : Token) (hs : p.stack = hfr :: t)
    (hq : p.peekToken = some tok) (hcol : p.isAt TK_COLON = false)
    (hre : htmlAttrNameRegex tok.text = true) :
    ∃ a b, (run (fuel + 1) .htmlAttributeOrTwig p).1.stack
      = (hfr ++ [Tree.node HTML_ATTRIBUTE
          (a ++ Tree.leaf ⟨TK_WORD, tok.text⟩ :: b)]) :: t := by
  have hq4 : ((p.start).tokens.get?
      (nextNonTrivia (p.start).tokens (p.start).pos) : Option Token) = some tok := hq
  have hcol2 : (p.start).isAt TK_COLON = false := hcol
  simp only [run, Parser.completeM]
  rw [hcol]
  rw [if_neg Bool.false_ne_true]
  rw [hq]
  dsimp only
  rw [hre]
  rw [if_pos rfl]
  rw [hcol2]
  rw [if_neg Bool.false_ne_true]
  dsimp only
  have hs1 : ((p.start).bumpAs TK_WORD).stack
      = ((p.start).pendingTrivia.map Tree.leaf
          ++ [Tree.leaf ⟨TK_WORD, tok.text⟩]) :: hfr :: t := by
    unfold Parser.bumpAs
    rw [hq4]
    dsimp only
    show Parser.framePush ((p.start).stack) _ = _
    rw [show ((p.start).stack : List (List Tree)) = [] :: p.stack from rfl, hs]
    simp [Parser.framePush, List.map_append]
  have E : Ext ((p.start).bumpAs TK_WORD)
      (if ((p.start).bumpAs TK_WORD).isAt TK_EQUAL = true then
        (run fuel .avs (((p.start).bumpAs TK_WORD).bump)).1
      else ((p.start).bumpAs TK_WORD)) :=
    ext_pite (Ext.trans (ext_bump _) ((run_spec fuel .avs _).1)) (Ext.refl _)
  obtain ⟨b, hb⟩ := attr_shape HTML_ATTRIBUTE hs1 E
  exact ⟨(p.start).pendingTrivia.map Tree.leaf, b, hb⟩

/-- Any single token whose text matches the identifier regex -- keywords
included -- is consumed re-labelled TK_WORD inside the
TWIG_LITERAL_HASH_KEY node of the TWIG_LITERAL_HASH_PAIR. -/
theorem twigHashPair_keyword (fuel : Nat) (p : Parser) (hfr : List Tree)
    (t : List (List Tree)) (tok : Token) (hs : p.stack = hfr :: t)
    (hq : p.peekToken = some tok) (hnum : p.isAt TK_NUMBER = false)
    (hqt : p.atSet [TK_SINGLE_QUOTES, TK_DOUBLE_QUOTES] = false)
    (hpar : p.isAt TK_OPEN_PARENTHESIS = false)
    (hre : twigNameRegex tok.text = true) :
    ∃ a b, (run (fuel + 1) .twigHashPair p).1.stack
      = (hfr ++ [Tree.node TWIG_LITERAL_HASH_PAIR
          (Tree.node TWIG_LITERAL_HASH_KEY (a ++ [Tree.leaf ⟨TK_WORD, tok.text⟩])
            :: b)]) :: t := by
  have hq4 : ((p.start).tokens.get?
      (nextNonTrivia (p.start).tokens (p.start).pos) : Option Token) = some tok := hq
  simp only [run, Parser.completeM]
  rw [hnum]
  rw [if_neg Bool.false_ne_true]
  rw [hqt]
  rw [if_neg Bool.false_ne_true]
  rw [hpar]
  rw [if_neg Bool.false_ne_true]
  rw [hq]
  dsimp only
  rw [hre]
  rw [if_pos rfl]
  dsimp only
  have hs1 : ((p.start).bumpAs TK_WORD).stack
      = ((p.start).pendingTrivia.map Tree.leaf
          ++ [Tree.leaf ⟨TK_WORD, tok.text⟩]) :: hfr :: t := by
    unfold Parser.bumpAs
    rw [hq4]
    dsimp only
    show Parser.framePush ((p.start).stack) _ = _
    rw [show ((p.start).stack : List (List Tree)) = [] :: p.stack from rfl, hs]
    simp [Parser.framePush, List.map_append]
  have hm1 : Parser.frameMarker (((p.start).bumpAs TK_WORD)).stack = hfr.length := by
    rw [hs1]
    rfl
  rw [hm1]
  have hsK : (((p.start).bumpAs TK_WORD).complete TWIG_LITERAL_HASH_KEY).stack
      = (hfr ++ [Tree.node TWIG_LITERAL_HASH_KEY
          ((p.start).pendingTrivia.map Tree.leaf
            ++ [Tree.leaf ⟨TK_WORD, tok.text⟩])]) :: t := by
    show Parser.frameComplete (((p.start).bumpAs TK_WORD)).stack TWIG_LITERAL_HASH_KEY = _
    rw [hs1]
    rfl
  have E : Ext (((p.start).bumpAs TK_WORD).complete TWIG_LITERAL_HASH_KEY)
      (if (((p.start).bumpAs TK_WORD).complete TWIG_LITERAL_HASH_KEY).isAt TK_COLON
          = true then
        (if ((run fuel (.twigExpr 0)
            ((((p.start).bumpAs TK_WORD).complete TWIG_LITERAL_HASH_KEY).bump)).2).isNone
          then ((run fuel (.twigExpr 0)
            ((((p.start).bumpAs TK_WORD).complete TWIG_LITERAL_HASH_KEY).bump)).1).addError
              (.msg "value as twig expression")
          else (run fuel (.twigExpr 0)
            ((((p.start).bumpAs TK_WORD).complete TWIG_LITERAL_HASH_KEY).bump)).1)
      else (((p.start).bumpAs TK_WORD).complete TWIG_LITERAL_HASH_KEY)) :=
    ext_pite (Ext.trans (ext_bump _)
      (Ext.trans ((run_spec fuel (.twigExpr 0) _).1) (ext_cond_addError _ _)))
      (Ext.refl _)
  obtain ⟨d2, hd2, _⟩ := E.frames _ t hsK
  refine ⟨(p.start).pendingTrivia.map Tree.leaf, d2, ?_⟩
  exact hashpair_shape hd2

end Ludtwig


namespace Ludtwig

open SyntaxKind

/-- A quoted hash key never contains a string interpolation node: the key
string is parsed with interpolation disallowed. -/
theorem twigHashPair_string_noInterp (fuel : Nat) (p : Parser) (hfr : List Tree)
    (t : List (List Tree)) (tok : Token) (hs : p.stack = hfr :: t)
    (hq : p.peekToken = some tok)
    (hk : tok.kind = TK_DOUBLE_QUOTES ∨ tok.kind = TK_SINGLE_QUOTES) :
    ∃ kcs d2, (run (fuel + 1 + 1) .twigHashPair p).1.stack
        = (hfr ++ [Tree.node TWIG_LITERAL_HASH_PAIR
            (Tree.node TWIG_LITERAL_HASH_KEY kcs :: d2)]) :: t
      ∧ (Tree.node TWIG_LITERAL_HASH_KEY kcs).hasNodeKind
          TWIG_LITERAL_STRING_INTERPOLATION = false := by
  have hnum : p.isAt TK_NUMBER = false := by
    unfold Parser.isAt
    rw [hq]
    dsimp only
    rcases hk with h | h <;> rw [h] <;> decide
  have hqt : p.atSet [TK_SINGLE_QUOTES, TK_DOUBLE_QUOTES] = true := by
    unfold Parser.atSet
    rw [hq]
    dsimp only
    rcases hk with h | h <;> rw [h] <;> decide
  obtain ⟨cs, hstk, hni, hr⟩ := twigString_noInterp fuel false p hfr t tok hs hq
    (by rcases hk with h | h
        · exact Or.inr ⟨h, rfl⟩
        · exact Or.inl h)
  obtain ⟨F, hF⟩ : ∃ n, n = fuel + 1 := ⟨fuel + 1, rfl⟩
  rw [← hF] at hstk hr ⊢
  simp only [run, Parser.completeM]
  rw [hnum]
  rw [if_neg Bool.false_ne_true]
  rw [hqt]
  rw [if_pos rfl]
  cases hE : run F (.twigString false) p with
  | mk p1 r =>
      rw [hE] at hstk hr
      dsimp only at hstk hr
      subst hr
      dsimp only
      have hsP : (p1.precede hfr.length).stack
          = [Tree.node TWIG_LITERAL_STRING cs] :: hfr :: t := by
        show Parser.framePrecede p1.stack hfr.length = _
        rw [hstk]
        unfold Parser.framePrecede
        dsimp only
        rw [List.drop_left, List.take_left]
      have hm2 : Parser.frameMarker (p1.precede hfr.length).stack = hfr.length := by
        rw [hsP]
        rfl
      rw [hm2]
      have hsK : ((p1.precede hfr.length).complete TWIG_LITERAL_HASH_KEY).stack
          = (hfr ++ [Tree.node TWIG_LITERAL_HASH_KEY
              [Tree.node TWIG_LITERAL_STRING cs]]) :: t := by
        show Parser.frameComplete (p1.precede hfr.length).stack TWIG_LITERAL_HASH_KEY = _
        rw [hsP]
        rfl
      have E : Ext ((p1.precede hfr.length).complete TWIG_LITERAL_HASH_KEY)
          (if ((p1.precede hfr.length).complete TWIG_LITERAL_HASH_KEY).isAt TK_COLON
              = true then
            (if ((run F (.twigExpr 0)
                (((p1.precede hfr.length).complete TWIG_LITERAL_HASH_KEY).bump)).2).isNone
              then ((run F (.twigExpr 0)
                (((p1.precede hfr.length).complete
                  TWIG_LITERAL_HASH_KEY).bump)).1).addError
                  (.msg "value as twig expression")
              else (run F (.twigExpr 0)
                (((p1.precede hfr.length).complete TWIG_LITERAL_HASH_KEY).bump)).1)
          else ((p1.precede hfr.length).complete TWIG_LITERAL_HASH_KEY)) :=
        ext_pite (Ext.trans (ext_bump _)
          (Ext.trans ((run_spec F (.twigExpr 0) _).1) (ext_cond_addError _ _)))
          (Ext.refl _)
      obtain ⟨d2, hd2, _⟩ := E.frames _ t hsK
      refine ⟨[Tree.node TWIG_LITERAL_STRING cs], d2, ?_, ?_⟩
      · exact hashpair_shape hd2
      · have h1 : treeNoInterp (Tree.node TWIG_LITERAL_STRING cs) = true := by
          unfold treeNoInterp
          rw [hni]
          rfl
        have h2 := @noInterp_node TWIG_LITERAL_HASH_KEY
          [Tree.node TWIG_LITERAL_STRING cs] (by decide) (by simp [h1])
        unfold treeNoInterp at h2
        rw [Bool.not_eq_true'] at h2
        exact h2

end Ludtwig

namespace Ludtwig

open SyntaxKind

/-- C1: Losslessness: for every input string, concatenating the text of
every leaf token of the tree returned by `parse`, in document order,
yields the original input exactly. -/
theorem claim_C1_losslessness (source : String) :
    (parse source).tree.chars = source.toList := by
  show (finishTree (parseTokens (lex source.toList))).chars = source.toList
  rw [parseTokens_chars, lex_chars]

/-- C2: Termination: the element parser consumes at least one non-trivia
token whenever it produces a node, and the root parse of any token stream
stops exactly at end of input, so parsing terminates for every input. -/
theorem claim_C2_termination :
    (∀ (fuel : Nat) (p : Parser), ((run fuel .anyElement p).2).isSome = true →
      p.pos < (run fuel .anyElement p).1.pos) ∧
    (∀ toks : List Token, (parseTokens toks).atEnd = true) :=
  ⟨anyElement_progress, parseTokens_atEnd⟩

/-- C9: the `Some(_) => unreachable!()` branch of
`parse_html_attribute_value_string` is never reached: the attribute-value
parser preserves the panic flag on every input, and a full parse of any
source never panics. -/
theorem claim_C9_no_panic :
    (∀ (fuel : Nat) (p : Parser), (run fuel .avs p).1.panicked = p.panicked) ∧
    (∀ source : String, (parseTokens (lex source.toList)).panicked = false) := by
  constructor
  · intro fuel p
    exact ((run_spec fuel .avs p).1 : Ext p (run fuel .avs p).1).panicked_eq
  · intro source
    show ((rootLoop _ _ _).complete ROOT).panicked = false
    exact ((ext_rootLoop _ _ _).panicked_eq).trans rfl

/-- C5 (amended): when an iteration of `parse_many` makes no progress and
`until` does not hold, the combinator stops and returns that iteration's
result unchanged (no ERROR wrapping, no further looping); stray tokens are
wrapped only by the root loop. -/
theorem claim_C5_parse_many_no_progress (fuel : Nat) (untilF : Parser → Bool)
    (oneF : Parser → Parser) (p : Parser)
    (hend : p.atEnd = false) (hu : untilF p = false) (hnp : (oneF p).pos = p.pos) :
    parse_many (fuel + 1) untilF oneF p = oneF p := by
  rw [parse_many]
  dsimp only
  rw [hend, hu]
  simp only [Bool.or_self, Bool.false_eq_true, if_false]
  rw [if_pos hnp]

/-- A one-token parser state used to exercise `parse_many`. -/
def c5state : Parser := Parser.init [⟨TK_WORD, ['a']⟩]

theorem c5state_atEnd : c5state.atEnd = false := by
  simp [c5state, Parser.init, Parser.atEnd, Parser.peekToken, nextNonTrivia,
    Token.isTrivia, SyntaxKind.isTrivia]

theorem claim_C5_witness :
    c5state.atEnd = false ∧ ((fun q => q) c5state).pos = c5state.pos ∧
    parse_many 5 (fun _ => false) (fun q => q) c5state = (fun q => q) c5state :=
  ⟨c5state_atEnd, rfl,
    claim_C5_parse_many_no_progress 4 (fun _ => false) (fun q => q) c5state
      c5state_atEnd rfl rfl⟩

/-- C5 counterexample to the claimed behaviour: with input remaining and
`until` false, a no-progress iteration does NOT consume a token into an
ERROR node and continue -- `parse_many` returns the state unchanged. -/
theorem claim_C5_counterexample :
    parse_many 5 (fun _ => false) (fun q => q) c5state = c5state ∧
    c5state.atEnd = false ∧ c5state.stack = [[]] := by
  refine ⟨?_, c5state_atEnd, rfl⟩
  show parse_many (4 + 1) _ _ _ = _
  rw [parse_many]
  dsimp only
  rw [c5state_atEnd]
  simp only [Bool.or_self, Bool.false_eq_true, if_false]
  exact if_pos trivial

/-- C8 (amended): `parse_twig_name` succeeds if and only if the cursor
sits at a token that is the `same as` or `divisible by` keyword, or whose
text matches the identifier regex
`^[a-zA-Z_\x7f-\xff][a-zA-Z0-9_\x7f-\xff]*$`. -/
theorem claim_C8_twig_name (p : Parser) :
    ((parse_twig_name p).2).isSome = true ↔
      ∃ tok, p.peekToken = some tok ∧
        (p.atSet [TK_SAME_AS, TK_DIVISIBLE_BY] = true ∨ twigNameRegex tok.text = true) := by
  unfold parse_twig_name
  cases hq : p.peekToken with
  | none =>
      dsimp only
      constructor
      · intro h
        cases h
      · rintro ⟨tok, ht, _⟩
        exact Option.noConfusion ht
  | some tok =>
      dsimp only
      by_cases hc : (!p.atSet [TK_SAME_AS, TK_DIVISIBLE_BY] && !twigNameRegex tok.text) = true
      · rw [if_pos hc]
        obtain ⟨h1, h2⟩ := Bool.and_eq_true_iff.mp hc
        rw [Bool.not_eq_true'] at h1 h2
        constructor
        · intro h
          cases h
        · rintro ⟨tok2, ht, hor⟩
          injection ht with ht
          subst ht
          rcases hor with h | h
          · rw [h1] at h
            cases h
          · rw [h2] at h
            cases h
      · rw [if_neg hc]
        constructor
        · intro _
          refine ⟨tok, rfl, ?_⟩
          rcases Bool.eq_false_or_eq_true (p.atSet [TK_SAME_AS, TK_DIVISIBLE_BY])
            with hs | hs
          · exact Or.inl hs
          · rcases Bool.eq_false_or_eq_true (twigNameRegex tok.text) with hr | hr
            · exact Or.inr hr
            · exact absurd (by rw [hs, hr]; rfl) hc
        · intro _
          rfl

/-- A parser state sitting at the `same as` keyword token. -/
def c8state : Parser := Parser.init [⟨TK_SAME_AS, "same as".toList⟩]

/-- C8 counterexample to the claimed iff: the `same as` keyword token does
not match the identifier regex, yet `parse_twig_name` succeeds on it. -/
theorem claim_C8_counterexample :
    ((parse_twig_name c8state).2).isSome = true ∧
    twigNameRegex ("same as".toList) = false ∧
    c8state.peekToken = some ⟨TK_SAME_AS, "same as".toList⟩ := by
  have hp : c8state.peekToken = some ⟨TK_SAME_AS, "same as".toList⟩ := by
    simp [c8state, Parser.init, Parser.peekToken, nextNonTrivia,
      Token.isTrivia, SyntaxKind.isTrivia]
  refine ⟨?_, by decide, hp⟩
  unfold parse_twig_name
  rw [hp]
  have hsp : c8state.atSet [TK_SAME_AS, TK_DIVISIBLE_BY] = true := by
    simp [Parser.atSet, hp]
  rw [hsp]
  dsimp only
  rfl

end Ludtwig


namespace Ludtwig

open SyntaxKind

/-- The tag-name lookahead of `parse_html_element`: the text of the token
after the opening `<`. -/
def tagNameAt (p : Parser) : List Char :=
  (((((p.start).start).bump).peekToken).map Token.text).getD []

/-- Completing the starting tag and the element node over a frame-append
step yields a two-level HTML_TAG node. -/
theorem c3_shape_aux {q0 q6 : Parser} {hfr : List Tree} {t : List (List Tree)}
    (hs : q0.stack = hfr :: t)
    (E : Ext ((q0.start).start) q6) :
    ∃ cs, ((q6.complete HTML_STARTING_TAG).complete HTML_TAG).stack
      = (hfr ++ [Tree.node HTML_TAG [Tree.node HTML_STARTING_TAG cs]]) :: t := by
  obtain ⟨d, h6, _⟩ := E.frames [] ([] :: hfr :: t)
    (by rw [show (((q0.start).start).stack : List (List Tree))
      = [] :: [] :: q0.stack from rfl, hs])
  refine ⟨d, ?_⟩
  show Parser.frameComplete (Parser.frameComplete q6.stack HTML_STARTING_TAG) HTML_TAG = _
  rw [h6]
  simp [Parser.frameComplete]

/-- C3: void-element closure: an HTML element whose tag name is in the
fixed void list closes immediately after its starting tag: the HTML_TAG
node has exactly the HTML_STARTING_TAG child, hence no BODY and no
HTML_ENDING_TAG, regardless of the delimiter used. -/
theorem claim_C3_void_elements (fuel : Nat) (p : Parser) (hfr : List Tree)
    (t : List (List Tree)) (hs : p.stack = hfr :: t)
    (hv : HTML_VOID_ELEMENTS.contains (tagNameAt p) = true) :
    ∃ cs, (run (fuel + 1) .htmlElement p).1.stack
      = (hfr ++ [Tree.node HTML_TAG [Tree.node HTML_STARTING_TAG cs]]) :: t := by
  simp only [run, Parser.completeM]
  cases hpk : (((p.start).start).bump).peekToken with
  | none =>
      exfalso
      have h0 : tagNameAt p = [] := by
        unfold tagNameAt
        rw [hpk]
        rfl
      rw [h0] at hv
      exact absurd hv (by decide)
  | some tok =>
      have h0 : tagNameAt p = tok.text := by
        unfold tagNameAt
        rw [hpk]
        rfl
      rw [h0] at hv
      dsimp only
      simp only [hv, Bool.or_true]
      rw [if_pos trivial]
      dsimp only
      exact c3_shape_aux hs
        (Ext.trans (ext_bump _)
          (Ext.trans (ext_pite (ext_bumpAs _ _)
            (Ext.trans (ext_addError _ _) (ext_recover _ _)))
            (Ext.trans (ext_wrap _ (ext_parse_many _ _ _
              (fun q => runOut_ext rfl (run_spec fuel .htmlAttributeOrTwig q)) _))
              (ext_pite_fst (ext_bump _) (ext_expect _ _ _)))))

/-- A parser state sitting at the tokens of `<br>`. -/
def c3state : Parser :=
  Parser.init [⟨TK_LESS_THAN, ['<']⟩, ⟨TK_WORD, ['b', 'r']⟩, ⟨TK_GREATER_THAN, ['>']⟩]

theorem c3state_void : HTML_VOID_ELEMENTS.contains (tagNameAt c3state) = true := by
  have h : tagNameAt c3state = ['b', 'r'] := by
    simp [tagNameAt, c3state, Parser.init, Parser.bump, Parser.peekToken,
      Parser.pushLeaves, Parser.pendingTrivia, Parser.start, nextNonTrivia,
      Token.isTrivia, SyntaxKind.isTrivia]
  rw [h]
  decide

theorem claim_C3_witness :
    c3state.stack = [] :: [] ∧
    HTML_VOID_ELEMENTS.contains (tagNameAt c3state) = true ∧
    ∃ cs, (run 5 .htmlElement c3state).1.stack
      = ([] ++ [Tree.node HTML_TAG [Tree.node HTML_STARTING_TAG cs]]) :: [] :=
  ⟨rfl, c3state_void, claim_C3_void_elements 4 c3state [] [] rfl c3state_void⟩

/-- The matching-end-tag lookahead fails when the cursor is not at `</`. -/
theorem atMatchingEndTag_false_of_peek {tagName : List Char} {p : Parser} {tk : Token}
    (hpk : p.peekToken = some tk) (hne : (tk.kind == TK_LESS_THAN_SLASH) = false) :
    atMatchingEndTag tagName p = false := by
  have hpk0 : p.peekNthToken 0 = some tk := hpk
  unfold atMatchingEndTag Parser.atFollowingContent
  rw [show (List.range [(TK_LESS_THAN_SLASH, (none : Option (List Char))),
    (TK_WORD, some tagName)].length) = [0, 1] from rfl]
  simp only [List.all_cons, hpk0]
  rw [show ([(TK_LESS_THAN_SLASH, (none : Option (List Char))),
    (TK_WORD, some tagName)].get? 0) = some (TK_LESS_THAN_SLASH, none) from rfl]
  dsimp only
  rw [hne]
  rfl

/-- The matching-end-tag lookahead fails at end of input. -/
theorem atMatchingEndTag_false_of_atEnd {tagName : List Char} {p : Parser}
    (hend : p.atEnd = true) : atMatchingEndTag tagName p = false := by
  have hpk0 : p.peekNthToken 0 = none := Option.isNone_iff_eq_none.mp hend
  unfold atMatchingEndTag Parser.atFollowingContent
  rw [show (List.range [(TK_LESS_THAN_SLASH, (none : Option (List Char))),
    (TK_WORD, some tagName)].length) = [0, 1] from rfl]
  simp only [List.all_cons, hpk0]
  rw [show ([(TK_LESS_THAN_SLASH, (none : Option (List Char))),
    (TK_WORD, some tagName)].get? 0) = some (TK_LESS_THAN_SLASH, none) from rfl]
  rfl

/-- C4: when the element body loop stops at a Twig termination tag or at
end of input without the matching closing tag, the parser records the
diagnostic expecting `</tag_name> ending tag` at the cursor and emits an
empty HTML_ENDING_TAG node. -/
theorem claim_C4_missing_closing (tagName : List Char) (p : Parser) (hfr : List Tree)
    (t : List (List Tree)) (hs : p.stack = hfr :: t)
    (hstop : at_twig_termination_tag p = true ∨ p.atEnd = true) :
    (parse_html_element_closing tagName (atMatchingEndTag tagName p) p).errors
      = p.errors ++ [⟨.msg ("</" ++ String.mk tagName ++ "> ending tag"), p.peekToken⟩] ∧
    (parse_html_element_closing tagName (atMatchingEndTag tagName p) p).stack
      = (hfr ++ [Tree.node HTML_ENDING_TAG []]) :: t := by
  -- the guard and the recovery condition, from the stop reason
  have hcond : ∀ q : Parser, q.tokens = p.tokens → q.pos = p.pos →
      (q.atEnd || q.atSet ([] ++ GENERAL_RECOVERY_SET)) = true := by
    intro q hqt hqp
    have hqpk : q.peekToken = p.peekToken := by
      unfold Parser.peekToken
      rw [hqt, hqp]
    rcases hstop with hterm | hend
    · have hCP : p.isAt TK_CURLY_PERCENT = true := (Bool.and_eq_true_iff.mp hterm).1
      unfold Parser.isAt at hCP
      cases hpk : p.peekToken with
      | none =>
          rw [hpk] at hCP
          cases hCP
      | some tk =>
          rw [hpk] at hCP
          dsimp only at hCP
          have hkind : tk.kind = TK_CURLY_PERCENT := of_decide_eq_true hCP
          have hset : q.atSet ([] ++ GENERAL_RECOVERY_SET) = true := by
            unfold Parser.atSet
            rw [hqpk, hpk]
            dsimp only
            rw [hkind]
            decide
          rw [hset, Bool.or_true]
    · have hqend : q.atEnd = true := by
        unfold Parser.atEnd
        rw [hqpk]
        exact hend
      rw [hqend, Bool.true_or]
  have hm : atMatchingEndTag tagName p = false := by
    rcases hstop with hterm | hend
    · have hCP : p.isAt TK_CURLY_PERCENT = true := (Bool.and_eq_true_iff.mp hterm).1
      unfold Parser.isAt at hCP
      cases hpk : p.peekToken with
      | none =>
          rw [hpk] at hCP
          cases hCP
      | some tk =>
          rw [hpk] at hCP
          dsimp only at hCP
          have hkind : tk.kind = TK_CURLY_PERCENT := of_decide_eq_true hCP
          refine atMatchingEndTag_false_of_peek hpk ?_
          rw [hkind]
          decide
    · exact atMatchingEndTag_false_of_atEnd hend
  rw [hm]
  unfold parse_html_element_closing
  dsimp only
  rw [if_neg (by exact fun h => Bool.false_ne_true h)]
  unfold Parser.recover
  rw [if_pos (hcond ((p.start).addError
    (.msg ("</" ++ String.mk tagName ++ "> ending tag"))) rfl rfl)]
  constructor
  · rfl
  · show Parser.frameComplete (((p.start).addError _).stack) HTML_ENDING_TAG = _
    rw [show (((p.start).addError
      (.msg ("</" ++ String.mk tagName ++ "> ending tag"))).stack : List (List Tree))
      = [] :: p.stack from rfl, hs]
    rfl

theorem c4state_atEnd : (Parser.init []).atEnd = true := by
  simp [Parser.init, Parser.atEnd, Parser.peekToken, nextNonTrivia]

theorem claim_C4_witness :
    (Parser.init []).stack = [] :: [] ∧ (Parser.init []).atEnd = true ∧
    ((parse_html_element_closing ['d'] (atMatchingEndTag ['d'] (Parser.init []))
        (Parser.init [])).errors
      = (Parser.init []).errors
        ++ [⟨.msg ("</" ++ String.mk ['d'] ++ "> ending tag"), (Parser.init []).peekToken⟩] ∧
     (parse_html_element_closing ['d'] (atMatchingEndTag ['d'] (Parser.init []))
        (Parser.init [])).stack
      = ([] ++ [Tree.node HTML_ENDING_TAG []]) :: []) :=
  ⟨rfl, c4state_atEnd,
    claim_C4_missing_closing ['d'] (Parser.init []) [] [] rfl (Or.inr c4state_atEnd)⟩

/-- C6: when an attribute value was parsed without a leading quote and a
quote token follows, that quote is consumed into an ERROR node and the
diagnostic `no trailing quote because there is no leading quote` is
recorded at that quote token. -/
theorem claim_C6_stray_quote (p : Parser) (hfr : List Tree) (t : List (List Tree))
    (qtok : Token) (hs : p.stack = hfr :: t) (hq : p.peekToken = some qtok)
    (hk : qtok.kind = TK_DOUBLE_QUOTES ∨ qtok.kind = TK_SINGLE_QUOTES) :
    (parse_html_attribute_value_closing none p).errors
      = p.errors ++ [⟨.msg "no trailing quote because there is no leading quote",
          some qtok⟩] ∧
    ∃ ts : List Token, (parse_html_attribute_value_closing none p).stack
      = (hfr ++ [Tree.node ERROR (ts.map Tree.leaf ++ [Tree.leaf qtok])]) :: t := by
  have hset : p.atSet [TK_DOUBLE_QUOTES, TK_SINGLE_QUOTES] = true := by
    unfold Parser.atSet
    rw [hq]
    dsimp only
    rcases hk with h | h <;> rw [h] <;> decide
  have hq2 : ((p.start).peekToken : Option Token) = some qtok := hq
  have hq3 : ((p.start).tokens.get?
      (nextNonTrivia (p.start).tokens (p.start).pos) : Option Token) = some qtok := hq
  unfold parse_html_attribute_value_closing
  dsimp only
  rw [if_pos hset]
  rw [hq2]
  dsimp only
  unfold Parser.bump
  rw [hq3]
  dsimp only
  constructor
  · rfl
  · refine ⟨(p.start).pendingTrivia, ?_⟩
    show Parser.frameComplete (Parser.framePush ((p.start).stack) _) ERROR = _
    rw [show ((p.start).stack : List (List Tree)) = [] :: p.stack from rfl, hs]
    show (hfr ++ [Tree.node ERROR ([] ++ ((p.start).pendingTrivia ++ [qtok]).map Tree.leaf)])
        :: t = _
    simp [List.map_append]

/-- A parser state sitting at a stray double quote. -/
def c6state : Parser := Parser.init [⟨TK_DOUBLE_QUOTES, ['"']⟩]

theorem c6state_peek : c6state.peekToken = some ⟨TK_DOUBLE_QUOTES, ['"']⟩ := by
  simp [c6state, Parser.init, Parser.peekToken, nextNonTrivia,
    Token.isTrivia, SyntaxKind.isTrivia]

theorem claim_C6_witness :
    c6state.stack = [] :: [] ∧
    c6state.peekToken = some ⟨TK_DOUBLE_QUOTES, ['"']⟩ ∧
    ((parse_html_attribute_value_closing none c6state).errors
      = c6state.errors ++ [⟨.msg "no trailing quote because there is no leading quote",
          some ⟨TK_DOUBLE_QUOTES, ['"']⟩⟩] ∧
     ∃ ts : List Token, (parse_html_attribute_value_closing none c6state).stack
      = ([] ++ [Tree.node ERROR (ts.map Tree.leaf
          ++ [Tree.leaf ⟨TK_DOUBLE_QUOTES, ['"']⟩])]) :: []) :=
  ⟨rfl, c6state_peek,
    claim_C6_stray_quote c6state [] [] ⟨TK_DOUBLE_QUOTES, ['"']⟩ rfl c6state_peek
      (Or.inl rfl)⟩

end Ludtwig


namespace Ludtwig

open SyntaxKind

theorem c10attr_peek : (Parser.init [⟨TK_BLOCK, "block".toList⟩]).peekToken
    = some ⟨TK_BLOCK, "block".toList⟩ := by
  simp [Parser.init, Parser.peekToken, nextNonTrivia, Token.isTrivia,
    SyntaxKind.isTrivia]

theorem c10attr_nocolon :
    (Parser.init [⟨TK_BLOCK, "block".toList⟩]).isAt TK_COLON = false := by
  unfold Parser.isAt
  rw [c10attr_peek]
  decide

theorem c10hash_peek : (Parser.init [⟨TK_IF, "if".toList⟩]).peekToken
    = some ⟨TK_IF, "if".toList⟩ := by
  simp [Parser.init, Parser.peekToken, nextNonTrivia, Token.isTrivia,
    SyntaxKind.isTrivia]

theorem c10hash_nonum :
    (Parser.init [⟨TK_IF, "if".toList⟩]).isAt TK_NUMBER = false := by
  unfold Parser.isAt
  rw [c10hash_peek]
  decide

theorem c10hash_noquote :
    (Parser.init [⟨TK_IF, "if".toList⟩]).atSet
      [TK_SINGLE_QUOTES, TK_DOUBLE_QUOTES] = false := by
  unfold Parser.atSet
  rw [c10hash_peek]
  decide

theorem c10hash_noparen :
    (Parser.init [⟨TK_IF, "if".toList⟩]).isAt TK_OPEN_PARENTHESIS = false := by
  unfold Parser.isAt
  rw [c10hash_peek]
  decide

/-- C7: string interpolation restrictions: at `#{` with interpolation
disallowed, the step records `no string interpolation, because it isn't
allowed here` at the `#{` token and appends only token leaves (no node);
with interpolation allowed, it produces a TWIG_LITERAL_STRING_INTERPOLATION
node; a single-quoted string yields a TWIG_LITERAL_STRING node free of
interpolation nodes under either mode; and a quoted hash key is parsed
with interpolation disallowed, so the TWIG_LITERAL_HASH_KEY node is free of
interpolation nodes. -/
theorem claim_C7_interpolation :
    (∀ (fuel : Nat) (qk : SyntaxKind) (p : Parser) (hfr : List Tree)
        (t : List (List Tree)) (tok : Token),
      p.stack = hfr :: t → p.peekToken = some tok →
      tok.kind = TK_HASHTAG_OPEN_CURLY →
      (run (fuel + 1) (.twigStringStep qk false) p).1.errors
        = p.errors ++ [⟨.msg "no string interpolation, because it isn't allowed here",
            some tok⟩] ∧
      ∃ ts : List Token, (run (fuel + 1) (.twigStringStep qk false) p).1.stack
        = (hfr ++ ts.map Tree.leaf) :: t) ∧
    (∀ (fuel : Nat) (qk : SyntaxKind) (p : Parser) (hfr : List Tree)
        (t : List (List Tree)) (tok : Token),
      p.stack = hfr :: t → p.peekToken = some tok →
      tok.kind = TK_HASHTAG_OPEN_CURLY →
      ∃ a cs, (run (fuel + 1) (.twigStringStep qk true) p).1.stack
        = ((hfr ++ a) ++ [Tree.node TWIG_LITERAL_STRING_INTERPOLATION cs]) :: t) ∧
    (∀ (fuel : Nat) (iA : Bool) (p : Parser) (hfr : List Tree)
        (t : List (List Tree)) (tok : Token),
      p.stack = hfr :: t → p.peekToken = some tok →
      tok.kind = TK_SINGLE_QUOTES →
      ∃ cs, (run (fuel + 1) (.twigString iA) p).1.stack
          = (hfr ++ [Tree.node TWIG_LITERAL_STRING cs]) :: t
        ∧ (Tree.node TWIG_LITERAL_STRING cs).hasNodeKind
            TWIG_LITERAL_STRING_INTERPOLATION = false) ∧
    (∀ (fuel : Nat) (p : Parser) (hfr : List Tree) (t : List (List Tree)) (tok : Token),
      p.stack = hfr :: t → p.peekToken = some tok →
      (tok.kind = TK_DOUBLE_QUOTES ∨ tok.kind = TK_SINGLE_QUOTES) →
      ∃ kcs d2, (run (fuel + 1 + 1) .twigHashPair p).1.stack
          = (hfr ++ [Tree.node TWIG_LITERAL_HASH_PAIR
              (Tree.node TWIG_LITERAL_HASH_KEY kcs :: d2)]) :: t
        ∧ (Tree.node TWIG_LITERAL_HASH_KEY kcs).hasNodeKind
            TWIG_LITERAL_STRING_INTERPOLATION = false) := by
  refine ⟨stringStep_disallowed, stringStep_allowed, ?_, twigHashPair_string_noInterp⟩
  intro fuel iA p hfr t tok hs hq hk
  obtain ⟨cs, h1, h2, _⟩ := twigString_noInterp fuel iA p hfr t tok hs hq (Or.inl hk)
  exact ⟨cs, h1, h2⟩

/-- C10: keyword re-labelling at name positions: any single token whose
text matches the respective name regex -- templating keywords included --
is accepted as an HTML attribute name or bare Twig hash key and consumed
re-labelled as TK_WORD; concretely, the keyword tokens `block` and `if`
are accepted this way. -/
theorem claim_C10_keyword_relabel :
    (∀ (fuel : Nat) (p : Parser) (hfr : List Tree) (t : List (List Tree)) (tok : Token),
      p.stack = hfr :: t → p.peekToken = some tok → p.isAt TK_COLON = false →
      htmlAttrNameRegex tok.text = true →
      ∃ a b, (run (fuel + 1) .htmlAttributeOrTwig p).1.stack
        = (hfr ++ [Tree.node HTML_ATTRIBUTE
            (a ++ Tree.leaf ⟨TK_WORD, tok.text⟩ :: b)]) :: t) ∧
    (∀ (fuel : Nat) (p : Parser) (hfr : List Tree) (t : List (List Tree)) (tok : Token),
      p.stack = hfr :: t → p.peekToken = some tok → p.isAt TK_NUMBER = false →
      p.atSet [TK_SINGLE_QUOTES, TK_DOUBLE_QUOTES] = false →
      p.isAt TK_OPEN_PARENTHESIS = false → twigNameRegex tok.text = true →
      ∃ a b, (run (fuel + 1) .twigHashPair p).1.stack
        = (hfr ++ [Tree.node TWIG_LITERAL_HASH_PAIR
            (Tree.node TWIG_LITERAL_HASH_KEY (a ++ [Tree.leaf ⟨TK_WORD, tok.text⟩])
              :: b)]) :: t) ∧
    (∃ a b, (run 5 .htmlAttributeOrTwig
        (Parser.init [⟨TK_BLOCK, "block".toList⟩])).1.stack
      = ([] ++ [Tree.node HTML_ATTRIBUTE
          (a ++ Tree.leaf ⟨TK_WORD, "block".toList⟩ :: b)]) :: []) ∧
    (∃ a b, (run 5 .twigHashPair (Parser.init [⟨TK_IF, "if".toList⟩])).1.stack
      = ([] ++ [Tree.node TWIG_LITERAL_HASH_PAIR
          (Tree.node TWIG_LITERAL_HASH_KEY (a ++ [Tree.leaf ⟨TK_WORD, "if".toList⟩])
            :: b)]) :: []) := by
  refine ⟨htmlAttr_keyword, twigHashPair_keyword, ?_, ?_⟩
  · exact htmlAttr_keyword 4 _ [] [] ⟨TK_BLOCK, "block".toList⟩ rfl c10attr_peek
      c10attr_nocolon (by decide)
  · exact twigHashPair_keyword 4 _ [] [] ⟨TK_IF, "if".toList⟩ rfl c10hash_peek
      c10hash_nonum c10hash_noquote c10hash_noparen (by decide)

end Ludtwig
